import Mathlib

/-!
# filefilego: data-transfer orchestrator (`rpc/data_transfer.go`)

A shallow embedding of the coverage solver, the range planner, the part-file
reconciliation, the start of a download with its transfer requests, the
settlement transaction builder, the signed-contract selection and the
decryption handler, together with the properties proved about them.

Byte strings (`[]byte`) are lists of naturals, `uint64`/`int64` values are
`Nat`/`Int` with explicit wrapping where the source can overflow, and a Go
runtime panic is an error value of its own, distinct from the errors the
functions return.
-/

namespace FileFileGo

/-- Byte strings, `[]byte` in the source. -/
abbrev Bytes := List Nat

/-! ## Data model (package `messages`, as used by `data_transfer.go`) -/

/-- The hoster's answer to a data query, `messages.DataQueryResponse`. -/
structure DataQueryResponse where
  FromPeerAddr : String
  FeesPerByte : String
  PublicKey : Bytes
  Signature : Bytes
  FileHashes : List Bytes
  FileHashesSizes : List Nat
  UnavailableFileHashes : List Bytes
deriving DecidableEq, Repr

/-- The data query, `messages.DataQueryRequest` (the field the solver reads). -/
structure DataQueryRequest where
  FileHashes : List Bytes
deriving DecidableEq, Repr

/-- One selected entry, `filesNeededInDataQueryResponse`. -/
structure filesNeededInDataQueryResponse where
  response : DataQueryResponse
  fileHashesNeeded : List Bytes
  fileHashesSizesNeeded : List Nat
deriving DecidableEq, Repr

/-- What `getFilesNeededFromDataQueryResponses` can end with besides a
selection: the three errors it returns, and the two runtime panics of Go
(an index past the end of a slice, a slice expression out of bounds). -/
inductive SolverError where
  | incompleteResponses (fileHash : Bytes)
  | notFound
  | incompleteCoverage
  | indexOutOfRange
  | sliceBoundsOutOfRange
deriving DecidableEq, Repr

/-! ## Coverage solver: `getFilesNeededFromDataQueryResponses` -/

/-- The map `filesNeeded` of the validation phase, keyed by the response
signature: insertion or update of the entry of `dq` (lines 1221-1232). -/
def filesNeededPut (m : List (Bytes × filesNeededInDataQueryResponse))
    (dq : DataQueryResponse) (fhreq : Bytes) (size : Nat) :
    List (Bytes × filesNeededInDataQueryResponse) :=
  match m.find? (fun kv => kv.1 == dq.Signature) with
  | none => m ++ [(dq.Signature, ⟨dq, [fhreq], [size]⟩)]
  | some _ =>
    m.map (fun kv =>
      if kv.1 == dq.Signature then
        (kv.1, ⟨kv.2.response, kv.2.fileHashesNeeded ++ [fhreq],
                kv.2.fileHashesSizesNeeded ++ [size]⟩)
      else kv)

/-- The loop over the responses for one requested hash (lines 1218-1238): in
every response the first position holding `fhreq` is recorded, reading the
size at the same position of `FileHashesSizes`. -/
def scanResponses (fhreq : Bytes) :
    List DataQueryResponse → List (Bytes × filesNeededInDataQueryResponse) → Bool →
    Except SolverError (List (Bytes × filesNeededInDataQueryResponse) × Bool)
  | [], m, found => .ok (m, found)
  | dq :: rest, m, found =>
    match dq.FileHashes.indexOf? fhreq with
    | none => scanResponses fhreq rest m found
    | some fhIdx =>
      match dq.FileHashesSizes[fhIdx]? with
      | none => .error .indexOutOfRange
      | some size => scanResponses fhreq rest (filesNeededPut m dq fhreq size) true

/-- The validation phase (lines 1215-1243): every requested hash must be
offered by some response. -/
def validateRequest (responses : List DataQueryResponse) :
    List Bytes → List (Bytes × filesNeededInDataQueryResponse) →
    Except SolverError (List (Bytes × filesNeededInDataQueryResponse))
  | [], m => .ok m
  | fhreq :: rest, m =>
    match scanResponses fhreq responses m false with
    | .error e => .error e
    | .ok (m1, found) =>
      if found then validateRequest responses rest m1
      else .error (.incompleteResponses fhreq)

/-- Whether no hash of `unavailable` is among the unavailable hashes of
`resp` (the flag `foundResponse`, lines 1278-1286). -/
def foundResponse (unavailable : List Bytes) (resp : DataQueryResponse) : Bool :=
  unavailable.all (fun u => !(resp.UnavailableFileHashes.any (fun x => u == x)))

/-- The hashes of a response that occur in the working unavailable list, with
their sizes (lines 1305-1312): one entry per match, so a hash listed twice in
`unavailable` is appended twice. -/
def neededFrom (unavailable : List Bytes) :
    List Bytes → Nat → List Nat → Except SolverError (List Bytes × List Nat)
  | [], _, _ => .ok ([], [])
  | h :: rest, idx, sizes =>
    let k := (unavailable.filter (fun na => na == h)).length
    if k = 0 then neededFrom unavailable rest (idx + 1) sizes
    else
      match sizes[idx]? with
      | none => .error .indexOutOfRange
      | some size =>
        match neededFrom unavailable rest (idx + 1) sizes with
        | .error e => .error e
        | .ok (hs, ss) => .ok (List.replicate k h ++ hs, List.replicate k size ++ ss)

/-- The positions of the working unavailable list to delete (lines
1316-1323): position `i` once for every needed hash equal to the hash at `i`. -/
def whichIndexesToRemove (unavailable needed : List Bytes) : List Nat :=
  (unavailable.enum.map (fun p =>
    List.replicate (needed.filter (fun q => p.2 == q)).length p.1)).flatten

/-- The deletions of lines 1325-1327, one after the other on the shrinking
list: `append(u[:remove], u[remove+1:]...)` panics when `remove + 1` exceeds
the current length. -/
def removeIndexes : List Bytes → List Nat → Except SolverError (List Bytes)
  | u, [] => .ok u
  | u, remove :: rest =>
    if remove + 1 ≤ u.length then removeIndexes (u.eraseIdx remove) rest
    else .error .sliceBoundsOutOfRange

/-- The greedy packing loop (lines 1298-1329) over the sorted responses. -/
def greedyPack : List DataQueryResponse → List filesNeededInDataQueryResponse →
    List Bytes → Except SolverError (List filesNeededInDataQueryResponse × List Bytes)
  | [], wanted, unavailable => .ok (wanted, unavailable)
  | v :: rest, wanted, unavailable =>
    match neededFrom unavailable v.FileHashes 0 v.FileHashesSizes with
    | .error e => .error e
    | .ok (hs, ss) =>
      if hs.length ≠ 0 then
        match removeIndexes unavailable (whichIndexesToRemove unavailable hs) with
        | .error e => .error e
        | .ok u1 => greedyPack rest (wanted ++ [⟨v, hs, ss⟩]) u1
      else greedyPack rest wanted unavailable

/-- What the caller reads through the `response` pointers of the selection
the greedy path returns. The first entry points into the slice
(`&copyResponses[0].response`, line 1264); every entry the packing loop
appended holds `&v.response` (line 1300), the address of the loop variable
`v`, which is one variable for all passes of the loop in the Go this source
is written for (it copies or passes its loop variables wherever a closure
uses them, lines 477, 485 and 1137): when the function returns, `v` holds the
last element of `copyResponses`. -/
def loopVariableAliasing (copyResponses : List DataQueryResponse)
    (wanted : List filesNeededInDataQueryResponse) : List filesNeededInDataQueryResponse :=
  match copyResponses.getLast? with
  | none => wanted
  | some last => wanted.take 1 ++ (wanted.drop 1).map (fun w => { w with response := last })

/-- Lines 1245-1340 of the solver, given the slice `copyResponses` as
`sort.Slice` left it. -/
def selectFromSorted (requests : DataQueryRequest)
    (filesNeeded : List (Bytes × filesNeededInDataQueryResponse))
    (copyResponses : List DataQueryResponse) :
    Except SolverError (List filesNeededInDataQueryResponse) :=
  if filesNeeded.length = 0 then .error .notFound
  else
    match copyResponses with
    | [] => .error .indexOutOfRange
    | first :: _ =>
      let wanted : List filesNeededInDataQueryResponse :=
        [⟨first, first.FileHashes, first.FileHashesSizes⟩]
      if first.UnavailableFileHashes.length = 0 then .ok wanted
      else
        match copyResponses.find? (foundResponse first.UnavailableFileHashes) with
        | some resp => .ok (wanted ++ [⟨resp, resp.FileHashes, resp.FileHashesSizes⟩])
        | none =>
          match greedyPack copyResponses wanted first.UnavailableFileHashes with
          | .error e => .error e
          | .ok (wanted1, _) =>
            if (wanted1.map (fun w => w.fileHashesNeeded)).flatten.length
                ≠ requests.FileHashes.length then
              .error .incompleteCoverage
            else .ok (loopVariableAliasing copyResponses wanted1)

/-- The solver with the outcome of `sort.Slice` passed in: Go does not fix the
order of responses with equally many unavailable hashes, so `copyResponses`
stands for any order the sort may produce. -/
def getFilesNeededFromSorted (requests : DataQueryRequest)
    (responses copyResponses : List DataQueryResponse) :
    Except SolverError (List filesNeededInDataQueryResponse) :=
  match validateRequest responses requests.FileHashes [] with
  | .error e => .error e
  | .ok filesNeeded => selectFromSorted requests filesNeeded copyResponses

/-- The comparison given to `sort.Slice` (line 1258), as a non-strict order. -/
def lessEqUnavailable (a b : DataQueryResponse) : Prop :=
  a.UnavailableFileHashes.length ≤ b.UnavailableFileHashes.length

instance : DecidableRel lessEqUnavailable :=
  fun a b => inferInstanceAs
    (Decidable (a.UnavailableFileHashes.length ≤ b.UnavailableFileHashes.length))

instance : IsTotal DataQueryResponse lessEqUnavailable :=
  ⟨fun a b => Nat.le_total a.UnavailableFileHashes.length b.UnavailableFileHashes.length⟩

instance : IsTrans DataQueryResponse lessEqUnavailable :=
  ⟨fun _ _ _ hab hbc => Nat.le_trans hab hbc⟩

/-- One admissible outcome of `sort.Slice` (lines 1257-1259): the stable
ascending order of the number of unavailable hashes. -/
def sortSlice (responses : List DataQueryResponse) : List DataQueryResponse :=
  responses.insertionSort lessEqUnavailable

/-- What `sort.Slice` guarantees about its outcome. -/
def IsSortSliceOf (copyResponses responses : List DataQueryResponse) : Prop :=
  copyResponses.Perm responses ∧ copyResponses.Sorted lessEqUnavailable

/-- The solver, `getFilesNeededFromDataQueryResponses` (lines 1213-1341). -/
def getFilesNeededFromDataQueryResponses (requests : DataQueryRequest)
    (responses : List DataQueryResponse) :
    Except SolverError (List filesNeededInDataQueryResponse) :=
  getFilesNeededFromSorted requests responses (sortSlice responses)

/-- The hashes claimed by a selection, in order (`flattenFilesNeeded`). -/
def flattenFilesNeeded (wanted : List filesNeededInDataQueryResponse) : List Bytes :=
  (wanted.map (fun w => w.fileHashesNeeded)).flatten

/-! ## Range planner and reconciliation (`createFileRanges`, `DownloadFile`) -/

/-- The value an `int64` holds after an arithmetic result `x` (two's
complement wrap-around). -/
def wrapInt64 (x : Int) : Int := (x + 2 ^ 63) % 2 ^ 64 - 2 ^ 63

/-- A planned byte range, `FileRanges` (line 596); `from_` and `to_` are
the fields `from` and `to`. -/
structure FileRanges where
  from_ : Int
  to_ : Int
  availableSize : Int
deriving DecidableEq, Repr

/-- The range planner, `createFileRanges` (lines 602-631), on `int64`
values: the division truncates towards zero as in Go. -/
def createFileRanges (fileSize : Int) : List FileRanges :=
  let numWorkers : Int := 4
  let chunkSize := Int.tdiv fileSize numWorkers
  if chunkSize = 0 then
    [⟨0, wrapInt64 (fileSize - 1), 0⟩]
  else
    (List.range 4).map (fun i =>
      let start := wrapInt64 ((i : Int) * chunkSize)
      let end_ :=
        if (i : Int) = numWorkers - 1 then wrapInt64 (fileSize - 1)
        else wrapInt64 (wrapInt64 (start + chunkSize) - 1)
      ⟨start, end_, 0⟩)

/-- The inner loop of the reconciliation (lines 467-471) for the planned
range `v`: every discovered part with the same `from` and `to` overwrites the
available size, the last one wins. -/
def reconcileRange (v : FileRanges) (parts : List FileRanges) : FileRanges :=
  parts.foldl (fun cur fr =>
    if v.from_ = fr.from_ ∧ v.to_ = fr.to_ then { cur with availableSize := fr.availableSize }
    else cur) v

/-- The reconciliation step of `DownloadFile` (lines 463-473): `parts` is what
`getDownloadedPartsInfo` returned, its list of ranges or an error. -/
def reconcile (fileRanges : List FileRanges) (parts : Except String (List FileRanges)) :
    List FileRanges :=
  match parts with
  | .error _ => fileRanges
  | .ok fromParts =>
    if fileRanges.length = fromParts.length then
      fileRanges.map (fun v => reconcileRange v fromParts)
    else fileRanges

/-- The pair a part file is matched on. -/
def FileRanges.bounds (r : FileRanges) : Int × Int := (r.from_, r.to_)

/-! ## Contracts and settlement
(`CreateTransactionsWithDataPayloadFromContractHashes`) -/

/-- A download contract, `messages.DownloadContractProto`. -/
structure DownloadContractProto where
  FileHosterResponse : DataQueryResponse
  FileRequesterNodePublicKey : Bytes
  FileHashesNeeded : List Bytes
  FileHashesNeededSizes : List Nat
  VerifierPublicKey : Bytes
  VerifierFees : String
  ContractHash : Bytes
  VerifierSignature : Bytes
deriving DecidableEq, Repr

/-- The contract summary placed in a transaction,
`messages.DownloadContractInTransactionDataProto` (lines 962-969). -/
structure DownloadContractInTransactionDataProto where
  ContractHash : Bytes
  FileRequesterNodePublicKey : Bytes
  FileHosterNodePublicKey : Bytes
  VerifierPublicKey : Bytes
  VerifierFees : String
  FileHosterFees : String
deriving DecidableEq, Repr

/-- A transaction, `transaction.Transaction` (fields of `ProtoTransaction`). -/
structure Transaction where
  Hash : Bytes
  Signature : Bytes
  PublicKey : Bytes
  Nounce : Bytes
  Data : Bytes
  From : String
  To : String
  Value : String
  TransactionFees : String
  Chain : Bytes
deriving DecidableEq, Repr

/-- The JSON form of a transaction, `JSONTransaction` (lines 1033-1044). -/
structure JSONTransaction where
  Hash : String
  Signature : String
  PublicKey : String
  Nounce : String
  Data : String
  From : String
  To : String
  Value : String
  TransactionFees : String
  Chain : String
deriving DecidableEq, Repr

/-- The unlocked key the keystore hands out: its address, the raw public key
(`PublicKey.Raw()` can fail) and the private key. -/
structure UnlockedKey where
  Address : String
  PublicKeyRaw : Option Bytes
  PrivateKey : Bytes
deriving DecidableEq, Repr

/-- The collaborators of the settlement builder that live outside
`data_transfer.go`: keystore, contract store, hex codecs, protobuf and JSON
marshalling, address derivation, signing and validation. `sign` returns the
hash and the signature that `tx.Sign` stores in the transaction. -/
structure SettlementEnv where
  authorized : String → Except String (Bool × UnlockedKey)
  decodeUint64 : String → Option Nat
  decodeBig : String → Option Int
  encodeBig : Int → String
  encode : Bytes → String
  encodeUint64BytesToHexString : Bytes → String
  getContract : String → Option DownloadContractProto
  marshalEnvelope : List DownloadContractInTransactionDataProto → Option Bytes
  marshalDataPayload : Nat → Bytes → Option Bytes
  rawPublicToAddress : Bytes → Option String
  mainChain : Bytes
  sign : Transaction → Bytes → Option (Bytes × Bytes)
  validate : Transaction → Bool
  marshalJSON : JSONTransaction → Option String

/-- The errors `CreateTransactionsWithDataPayloadFromContractHashes` returns,
in the order of the source. -/
inductive SettlementError where
  | unauthorized
  | decodeNounce
  | decodeTransactionFees
  | getContract
  | marshalEnvelope
  | marshalDataPayload
  | verifierAddress
  | signerPublicKey
  | decodeHosterFees
  | decodeVerifierFees
  | sign
  | validate
  | marshalJSON
deriving DecidableEq, Repr

/-- The value of `transaction.DataType_DATA_CONTRACT`. -/
def DataType_DATA_CONTRACT : Nat := 4

/-- Modelled from the spec: `hexutil.EncodeUint64ToBytes`, which is not among
the sources; the spec fixes a nonce as a big-endian unsigned 64-bit value, so
the eight bytes of `n`, most significant first. -/
def encodeUint64ToBytes (n : Nat) : Bytes :=
  (List.range 8).map (fun i => (n / 256 ^ (7 - i)) % 256)

/-- The loop of lines 998-1001: the sizes added up in a `uint64`. -/
def totalFileSize (sizes : List Nat) : Nat :=
  sizes.foldl (fun acc v => (acc + v) % 2 ^ 64) 0

/-- The request arguments, `CreateTransactionDataPayloadFromContractHashesArgs`. -/
structure CreateTransactionDataPayloadFromContractHashesArgs where
  AccessToken : String
  ContractHashes : List String
  CurrentNounce : String
  TransactionFeesToBeUsed : String
deriving DecidableEq, Repr

/-- The reply, `CreateTransactionDataPayloadFromContractHashesResponse`. -/
structure CreateTransactionDataPayloadFromContractHashesResponse where
  TransactionDataBytesHex : List String
  TotalFeesForTransactions : String
deriving DecidableEq, Repr

/-- One pass of the loop body (lines 957-1049) for the contract hash `v` with
the already incremented nonce: the JSON transaction and `totalFees`. -/
def buildTransaction (env : SettlementEnv) (key : UnlockedKey) (transactionFees : Int)
    (currentNounce : Nat) (v : String) : Except SettlementError (JSONTransaction × Int) :=
  match env.getContract v with
  | none => .error .getContract
  | some downloadContract =>
    let dcinTX : DownloadContractInTransactionDataProto :=
      { ContractHash := downloadContract.ContractHash
        FileRequesterNodePublicKey := downloadContract.FileRequesterNodePublicKey
        FileHosterNodePublicKey := downloadContract.FileHosterResponse.PublicKey
        VerifierPublicKey := downloadContract.VerifierPublicKey
        VerifierFees := downloadContract.VerifierFees
        FileHosterFees := downloadContract.FileHosterResponse.FeesPerByte }
    match env.marshalEnvelope [dcinTX] with
    | none => .error .marshalEnvelope
    | some itemsBytes =>
    match env.marshalDataPayload DataType_DATA_CONTRACT itemsBytes with
    | none => .error .marshalDataPayload
    | some txPayloadBytes =>
    match env.rawPublicToAddress downloadContract.VerifierPublicKey with
    | none => .error .verifierAddress
    | some dataverifierAddr =>
    match key.PublicKeyRaw with
    | none => .error .signerPublicKey
    | some publicKeyOfTxSigner =>
    match env.decodeBig downloadContract.FileHosterResponse.FeesPerByte with
    | none => .error .decodeHosterFees
    | some fileHosterFees =>
    match env.decodeBig downloadContract.VerifierFees with
    | none => .error .decodeVerifierFees
    | some verifierFees =>
    let totalFees : Int :=
      fileHosterFees * (totalFileSize downloadContract.FileHashesNeededSizes : Int)
        + verifierFees
    let tx : Transaction :=
      { Hash := []
        Signature := []
        PublicKey := publicKeyOfTxSigner
        Nounce := encodeUint64ToBytes currentNounce
        Data := txPayloadBytes
        From := key.Address
        To := dataverifierAddr
        Value := env.encodeBig totalFees
        TransactionFees := env.encodeBig transactionFees
        Chain := env.mainChain }
    match env.sign tx key.PrivateKey with
    | none => .error .sign
    | some (hash, signature) =>
    let tx : Transaction := { tx with Hash := hash, Signature := signature }
    if env.validate tx then
      let JSONTx : JSONTransaction :=
        { Hash := env.encode tx.Hash
          Signature := env.encode tx.Signature
          PublicKey := env.encode tx.PublicKey
          Nounce := env.encodeUint64BytesToHexString tx.Nounce
          Data := env.encode tx.Data
          From := tx.From
          To := tx.To
          Value := tx.Value
          TransactionFees := tx.TransactionFees
          Chain := env.encode env.mainChain }
      match env.marshalJSON JSONTx with
      | none => .error .marshalJSON
      | some _ => .ok (JSONTx, totalFees)
    else .error .validate

/-- The loop of lines 955-1052 with its running state: the `uint64` nonce,
the total `allTransactionFess` and the JSON transactions appended so far. -/
def settlementLoop (env : SettlementEnv) (key : UnlockedKey) (transactionFees : Int) :
    List String → Nat → Int → List JSONTransaction →
    Except SettlementError (List JSONTransaction × Int)
  | [], _, allTransactionFess, out => .ok (out, allTransactionFess)
  | v :: rest, currentNounce, allTransactionFess, out =>
    let currentNounce := (currentNounce + 1) % 2 ^ 64
    match buildTransaction env key transactionFees currentNounce v with
    | .error e => .error e
    | .ok (JSONTx, totalFees) =>
      settlementLoop env key transactionFees rest currentNounce
        (allTransactionFess + totalFees) (out ++ [JSONTx])

/-- The settlement builder up to the JSON objects (lines 939-1054): the
transactions in the order built, before `json.Marshal` turns each into text,
and the grand total as `hexutil.EncodeBig` renders it. -/
def settlementTransactions (env : SettlementEnv)
    (args : CreateTransactionDataPayloadFromContractHashesArgs) :
    Except SettlementError (List JSONTransaction × String) :=
  match env.authorized args.AccessToken with
  | .error _ => .error .unauthorized
  | .ok (ok, key) =>
    if !ok then .error .unauthorized
    else
      match env.decodeUint64 args.CurrentNounce with
      | none => .error .decodeNounce
      | some currentNounce =>
        match env.decodeBig args.TransactionFeesToBeUsed with
        | none => .error .decodeTransactionFees
        | some transactionFees =>
          match settlementLoop env key transactionFees args.ContractHashes
              (currentNounce % 2 ^ 64) 0 [] with
          | .error e => .error e
          | .ok (out, allTransactionFess) => .ok (out, env.encodeBig allTransactionFess)

/-- The RPC `CreateTransactionsWithDataPayloadFromContractHashes` (lines
939-1057): every transaction of `settlementTransactions` as its JSON text. -/
def CreateTransactionsWithDataPayloadFromContractHashes (env : SettlementEnv)
    (args : CreateTransactionDataPayloadFromContractHashesArgs) :
    Except SettlementError CreateTransactionDataPayloadFromContractHashesResponse :=
  match settlementTransactions env args with
  | .error e => .error e
  | .ok (out, total) =>
    .ok { TransactionDataBytesHex := out.filterMap env.marshalJSON
          TotalFeesForTransactions := total }

/-! ## Creation of the contracts
(`CreateContractsFromDataQueryResponses`, lines 1076-1206) -/

/-- The comparison of line 1189: the needed hashes joined without separator
(`bytes.Join(_, []byte{})`) are equal. -/
def sameNeededHashes (v signedContract : DownloadContractProto) : Bool :=
  v.FileHashesNeeded.flatten == signedContract.FileHashesNeeded.flatten

/-- The loop of lines 1177-1194: for every unsigned contract the first signed
contract of the pool with the same joined hashes, if there is one. -/
def selectSignedDownloadContracts (signedDownloadContracts : List DownloadContractProto) :
    List DownloadContractProto → List DownloadContractProto → List DownloadContractProto
  | [], selected => selected
  | v :: rest, selected =>
    match signedDownloadContracts.find? (fun signedContract => sameNeededHashes v signedContract) with
    | some signedContract =>
      selectSignedDownloadContracts signedDownloadContracts rest (selected ++ [signedContract])
    | none => selectSignedDownloadContracts signedDownloadContracts rest selected

/-- The errors `CreateContractsFromDataQueryResponses` returns: the
incomplete number of contracts (line 1197), no verifier found in the network
(line 1165), the lookups of the query and of its responses (lines 1080 and
1088), the error of the solver (line 1093) and the public key of the node
(line 1100). -/
inductive ContractsError where
  | incompleteContracts
  | noVerifiers
  | queryRequestNotFound
  | queryResponsesNotFound
  | filesNeeded (e : SolverError)
  | requesterPublicKey
deriving DecidableEq, Repr

/-- The loop of lines 1200-1203 over the selected contracts: `CreateContract`
on the store (its error is dropped) and the hash appended to the reply. -/
def storeSelected {σ : Type} (createContract : σ → DownloadContractProto → σ)
    (encode : Bytes → String) :
    List DownloadContractProto → σ → List String → σ × List String
  | [], store, hashes => (store, hashes)
  | v :: rest, store, hashes =>
    storeSelected createContract encode rest (createContract store v)
      (hashes ++ [encode v.ContractHash])

/-- The stage of `CreateContractsFromDataQueryResponses` from the verifier
peers found (lines 1133-1205), given the peers `addrsInfos`, the unsigned
contracts and the pool of verified signed contracts as the goroutines and the
shuffle leave it: without a peer the call fails at line 1165; otherwise the
contract store afterwards and `response.ContractHashes`. -/
def createContractsFromSigned {σ : Type} (createContract : σ → DownloadContractProto → σ)
    (encode : Bytes → String) (store : σ) (addrsInfos : List String)
    (downloadContracts signedDownloadContracts : List DownloadContractProto) :
    Except ContractsError (σ × List String) :=
  if addrsInfos.length > 0 then
    let selected := selectSignedDownloadContracts signedDownloadContracts downloadContracts []
    if selected.length ≠ downloadContracts.length then .error .incompleteContracts
    else .ok (storeSelected createContract encode selected store [])
  else .error .noVerifiers

/-- The same stage with everything it leaves behind: the contract store,
`response.ContractHashes` (set to the empty list at line 1077) and the error
it returns, if any. -/
def createContractsFromSignedRun {σ : Type} (createContract : σ → DownloadContractProto → σ)
    (encode : Bytes → String) (store : σ) (addrsInfos : List String)
    (downloadContracts signedDownloadContracts : List DownloadContractProto) :
    (σ × List String) × Option ContractsError :=
  if addrsInfos.length > 0 then
    let selected := selectSignedDownloadContracts signedDownloadContracts downloadContracts []
    if selected.length ≠ downloadContracts.length then ((store, []), some .incompleteContracts)
    else (storeSelected createContract encode selected store [], none)
  else ((store, []), some .noVerifiers)

/-- The arguments, `CreateContractsFromDataQueryResponsesArgs`. -/
structure CreateContractsFromDataQueryResponsesArgs where
  DataQueryRequestHash : String
deriving DecidableEq, Repr

/-- The collaborators of `CreateContractsFromDataQueryResponses`: the query
history and the responses of the data query protocol, the raw public key of
the node, the public keys of the block verifiers with the derivation of their
peer ids, the peers `FindPeers` finds, the request for acceptance to a
verifier, the check of its signature, and the order in which the goroutines
and `rand.Shuffle` leave the pool (`none` and `false` stand for an error). -/
structure CreateContractsEnv where
  getQueryHistory : String → Option DataQueryRequest
  getQueryResponse : String → Option (List DataQueryResponse)
  requesterPublicKeyRaw : Option Bytes
  blockVerifiers : List String
  publicKeyFromHex : String → Option Bytes
  idFromPublicKey : Bytes → Option String
  findPeers : List String → List String
  sendContractToVerifierForAcceptance : String → DownloadContractProto →
    Option DownloadContractProto
  publicKeyFromBytes : Bytes → Option Bytes
  verifyDownloadContractProto : Bytes → DownloadContractProto → Bool
  shuffle : List DownloadContractProto → List DownloadContractProto
  encode : Bytes → String

/-- The peer ids of the block verifiers (lines 1104-1117): a verifier whose
key or peer id cannot be derived is passed over. -/
def verifierPeerIDs (env : CreateContractsEnv) : List String :=
  env.blockVerifiers.filterMap (fun v =>
    match env.publicKeyFromHex v with
    | none => none
    | some publicKey => env.idFromPublicKey publicKey)

/-- The unsigned contracts (lines 1119-1128), one per selected entry. -/
def unsignedDownloadContracts (requesterPubKeyBytes : Bytes)
    (filesNeeded : List filesNeededInDataQueryResponse) : List DownloadContractProto :=
  filesNeeded.map (fun v =>
    { FileHosterResponse := v.response
      FileRequesterNodePublicKey := requesterPubKeyBytes
      FileHashesNeeded := v.fileHashesNeeded
      FileHashesNeededSizes := v.fileHashesSizesNeeded
      VerifierPublicKey := []
      VerifierFees := ""
      ContractHash := []
      VerifierSignature := [] })

/-- The goroutine of lines 1137-1161 for one verifier: the unsigned contracts
are sent in order and every verified answer is added to the pool; the first
failure ends the goroutine. -/
def acceptedByVerifier (env : CreateContractsEnv) (peerID : String) :
    List DownloadContractProto → List DownloadContractProto
  | [] => []
  | unsignedContract :: rest =>
    match env.sendContractToVerifierForAcceptance peerID unsignedContract with
    | none => []
    | some signedDownloadContract =>
      match env.publicKeyFromBytes signedDownloadContract.VerifierPublicKey with
      | none => []
      | some verifierPubKey =>
        if env.verifyDownloadContractProto verifierPubKey signedDownloadContract then
          signedDownloadContract :: acceptedByVerifier env peerID rest
        else []

/-- The pool of signed contracts after `wg.Wait()` and the shuffle (lines
1134-1172): what every verifier accepted, in the order `env.shuffle` leaves. -/
def signedDownloadContractsOf (env : CreateContractsEnv) (addrsInfos : List String)
    (downloadContracts : List DownloadContractProto) : List DownloadContractProto :=
  env.shuffle
    (addrsInfos.map (fun peerID => acceptedByVerifier env peerID downloadContracts)).flatten

/-- What a call of `CreateContractsFromDataQueryResponses` leaves behind: the
contract store, `response.ContractHashes` and the error it returned, if any. -/
structure CreateContractsOutcome (σ : Type) where
  store : σ
  ContractHashes : List String
  error : Option ContractsError

/-- The handler `CreateContractsFromDataQueryResponses` (lines 1076-1206). -/
def CreateContractsFromDataQueryResponses {σ : Type} (env : CreateContractsEnv)
    (createContract : σ → DownloadContractProto → σ)
    (args : CreateContractsFromDataQueryResponsesArgs) (store : σ) :
    CreateContractsOutcome σ :=
  match env.getQueryHistory args.DataQueryRequestHash with
  | none => ⟨store, [], some .queryRequestNotFound⟩
  | some requests =>
  match env.getQueryResponse args.DataQueryRequestHash with
  | none => ⟨store, [], some .queryResponsesNotFound⟩
  | some responses =>
  match getFilesNeededFromDataQueryResponses requests responses with
  | .error e => ⟨store, [], some (.filesNeeded e)⟩
  | .ok filesNeeded =>
  match env.requesterPublicKeyRaw with
  | none => ⟨store, [], some .requesterPublicKey⟩
  | some requesterPubKeyBytes =>
    let peerIDs := verifierPeerIDs env
    let downloadContracts := unsignedDownloadContracts requesterPubKeyBytes filesNeeded
    let addrsInfos := env.findPeers peerIDs
    let result := createContractsFromSignedRun createContract env.encode store addrsInfos
      downloadContracts (signedDownloadContractsOf env addrsInfos downloadContracts)
    ⟨result.1.1, result.1.2, result.2⟩

/-! ## Start of a download (`DownloadFile`, lines 408-506) -/

/-- The arguments, `DownloadFileArgs`. -/
structure DownloadFileArgs where
  ContractHash : String
  FileHash : String
  ReDownload : Bool
deriving DecidableEq, Repr

/-- The collaborators `DownloadFile` consults before it starts the transfer:
the contract store, `hexutil.DecodeNoPrefix` and `peer.Decode`. -/
structure DownloadFileEnv where
  getContract : String → Option DownloadContractProto
  decodeNoPrefix : String → Option Bytes
  peerDecode : String → Option String

/-- The errors `DownloadFile` returns, and the panic of an index past the end
of `FileHashesNeededSizes`. -/
inductive DownloadFileError where
  | contractNotFound
  | decodeFileHash
  | decodeFileHoster
  | fileSizeZero
  | indexOutOfRange
deriving DecidableEq, Repr

/-- The loop of lines 424-429: the size at the position of every needed hash
equal to `fileHash`, the last such position winning. -/
def findFileSize (fileHash : Bytes) :
    List Bytes → Nat → List Nat → Nat → Except DownloadFileError Nat
  | [], _, _, fileSize => .ok fileSize
  | v :: rest, i, sizes, fileSize =>
    if v == fileHash then
      match sizes[i]? with
      | none => .error .indexOutOfRange
      | some size => findFileSize fileHash rest (i + 1) sizes size
    else findFileSize fileHash rest (i + 1) sizes fileSize

/-- What the goroutine of line 438 starts from. -/
structure DownloadJob where
  downloadContract : DownloadContractProto
  fileHash : Bytes
  fileHoster : String
  fileSize : Nat
  reDownload : Bool
deriving DecidableEq, Repr

/-- What a call of `DownloadFile` has done when it returns: the error, the
calls of `contractStore.SetFileSize`, the goroutine it started and the status
of the reply. -/
structure DownloadFileOutcome where
  error : Option DownloadFileError
  setFileSizeCalls : List (String × Bytes × Nat)
  started : Option DownloadJob
  status : String
deriving DecidableEq, Repr

/-- The synchronous part of `DownloadFile` (lines 408-438 and 549-551). -/
def DownloadFile (env : DownloadFileEnv) (args : DownloadFileArgs) : DownloadFileOutcome :=
  match env.getContract args.ContractHash with
  | none => ⟨some .contractNotFound, [], none, ""⟩
  | some downloadContract =>
    match env.decodeNoPrefix args.FileHash with
    | none => ⟨some .decodeFileHash, [], none, ""⟩
    | some fileHash =>
      match env.peerDecode downloadContract.FileHosterResponse.FromPeerAddr with
      | none => ⟨some .decodeFileHoster, [], none, ""⟩
      | some fileHoster =>
        match findFileSize fileHash downloadContract.FileHashesNeeded 0
            downloadContract.FileHashesNeededSizes 0 with
        | .error e => ⟨some e, [], none, ""⟩
        | .ok fileSize =>
          if fileSize = 0 then ⟨some .fileSizeZero, [], none, ""⟩
          else
            ⟨none, [(args.ContractHash, fileHash, fileSize)],
              some ⟨downloadContract, fileHash, fileHoster, fileSize, args.ReDownload⟩,
              "started"⟩

/-- The argument of `createFileRanges` at line 460: the `uint64` size
converted to `int64`. -/
def plannerInput (job : DownloadJob) : Int := wrapInt64 (job.fileSize : Int)

/-- The plan the goroutine works with (lines 459-473): the fresh plan
reconciled with what `getDownloadedPartsInfo` returned. -/
def downloadPlan (job : DownloadJob) (parts : Except String (List FileRanges)) :
    List FileRanges :=
  reconcile (createFileRanges (plannerInput job)) parts

/-- A transfer request, `messages.FileTransferInfoProto`. -/
structure FileTransferInfoProto where
  ContractHash : Bytes
  FileHash : Bytes
  FileSize : Nat
  From : Int
  To : Int
deriving DecidableEq, Repr

/-- The comparison of line 480 in `int64` arithmetic: the range counts as
downloaded. -/
def alreadyDownloaded (v : FileRanges) : Bool :=
  wrapInt64 (wrapInt64 (v.to_ - v.from_) + 1) == v.availableSize

/-- The requests of the loop of lines 476-516, in the order in which the
workers are started: one for every range that does not count as downloaded. -/
def transferRequests (contractHash fileHash : Bytes) (fileSize : Nat)
    (fileRanges : List FileRanges) : List FileTransferInfoProto :=
  fileRanges.filterMap (fun v =>
    if alreadyDownloaded v then none
    else some
      { ContractHash := contractHash
        FileHash := fileHash
        FileSize := fileSize
        From := wrapInt64 (v.from_ + v.availableSize)
        To := v.to_ })

/-! ## Key retrieval and decryption
(`RequestEncryptionDataFromVerifierAndDecrypt`, lines 765-871) -/

/-- The decryption state of a file in the contract store. -/
inductive FileDecryptionStatus where
  | FileNotDecrypted
  | FileDecrypting
  | FileDecrypted
  | FileDecryptionError
deriving DecidableEq, Repr

/-- What the contract store keeps for a file of a contract: the fields of
`GetContractFileInfo` the handler reads, and the count `GetTransferedBytes`
returns. -/
structure ContractFileInfo where
  Error : String
  FileSize : Nat
  BytesTransfered : Nat
  FileDecryptionStatus : FileDecryptionStatus
deriving DecidableEq, Repr

/-- The files of the contract of the call, by file hash. -/
abbrev FileStore := List (Bytes × ContractFileInfo)

/-- The lookup `contractStore.GetContractFileInfo`. -/
def getContractFileInfo (store : FileStore) (fileHash : Bytes) : Option ContractFileInfo :=
  (store.find? (fun kv => kv.1 == fileHash)).map (fun kv => kv.2)

/-- The update `contractStore.SetFileDecryptionStatus`. -/
def setFileDecryptionStatus (store : FileStore) (fileHash : Bytes)
    (status : FileDecryptionStatus) : FileStore :=
  store.map (fun kv =>
    if kv.1 == fileHash then (kv.1, { kv.2 with FileDecryptionStatus := status }) else kv)

/-- One entry of the request to the verifier, `messages.KeyIVProto`. -/
structure KeyIVProto where
  ContractHash : Bytes
  FileHash : Bytes
  FileMerkleRootHash : Bytes
deriving DecidableEq, Repr

/-- One entry of the verifier's reply,
`messages.KeyIVRandomizedFileSegmentsProto`. -/
structure KeyIVRandomizedFileSegmentsProto where
  FileHash : Bytes
  ContractHash : Bytes
  Key : Bytes
  Iv : Bytes
  EncryptionType : Int
  RandomizedSegments : List Int
deriving DecidableEq, Repr

/-- The arguments, `RequestEncryptionDataFromVerifierArgs`. -/
structure RequestEncryptionDataFromVerifierArgs where
  ContractHash : String
  FileHashes : List String
  FileMerkleRootHashes : List String
  RestoredFilePaths : List String
deriving DecidableEq, Repr

/-- The collaborators of the handler: contract lookup, hex codecs, the
derivation of the verifier's peer id, the request to the verifier, the
download directory with `filepath.Join`, and the decryption primitive
(`none` stands for its error). -/
structure DecryptEnv where
  getContract : String → Option DownloadContractProto
  decodeNoPrefix : String → Option Bytes
  decode : String → Option Bytes
  encode : Bytes → String
  encodeNoPrefix : Bytes → String
  publicKeyFromBytes : Bytes → Option Bytes
  idFromPublicKey : Bytes → Option String
  requestEncryptionData : String → List KeyIVProto →
    Option (List KeyIVRandomizedFileSegmentsProto)
  downloadDirectory : String
  joinPath : List String → String
  decryptFile : String → String → Bytes → Bytes → Int → List Int → Bool → Option String

/-- The errors the handler returns, and the panic of an index past the end
of a slice. -/
inductive DecryptError where
  | sizesNotEqual
  | contractNotFound
  | decodeFileHash
  | fileInfoNotFound
  | fileInfoFailure
  | notFullyTransfered
  | decodeContractHash
  | decodeMerkleRootHash
  | verifierPublicKey
  | verifierPeerID
  | requestEncryptionData
  | fileHashNotRequested
  | fileOfContractNotFound
  | decryptFile
  | indexOutOfRange
deriving DecidableEq, Repr

/-- The loop of lines 778-813 building the request to the verifier. -/
def buildKeyIVRequests (env : DecryptEnv) (store : FileStore)
    (args : RequestEncryptionDataFromVerifierArgs) :
    List String → Nat → List KeyIVProto → Except DecryptError (List KeyIVProto)
  | [], _, keyIvs => .ok keyIvs
  | v :: rest, idx, keyIvs =>
    match env.decodeNoPrefix v with
    | none => .error .decodeFileHash
    | some fileHash =>
    match getContractFileInfo store fileHash with
    | none => .error .fileInfoNotFound
    | some fileInfo =>
    if fileInfo.Error ≠ "" then .error .fileInfoFailure
    else if fileInfo.FileSize ≠ fileInfo.BytesTransfered then .error .notFullyTransfered
    else
      match env.decode args.ContractHash with
      | none => .error .decodeContractHash
      | some contractHashBytes =>
      match args.FileMerkleRootHashes[idx]? with
      | none => .error .indexOutOfRange
      | some root =>
      match env.decode root with
      | none => .error .decodeMerkleRootHash
      | some merkleRootHash =>
        buildKeyIVRequests env store args rest (idx + 1)
          (keyIvs ++ [⟨contractHashBytes, fileHash, merkleRootHash⟩])

/-- What a call of the handler leaves behind: the contract store,
`response.DecryptedFilePaths` and the error it returned, if any. -/
structure DecryptOutcome where
  store : FileStore
  DecryptedFilePaths : List String
  error : Option DecryptError
deriving DecidableEq, Repr

/-- The loop of lines 831-868 over the entries of the verifier's reply. -/
def decryptLoop (env : DecryptEnv) (args : RequestEncryptionDataFromVerifierArgs)
    (keyIvs : List KeyIVProto) :
    List KeyIVRandomizedFileSegmentsProto → FileStore → List String → DecryptOutcome
  | [], store, paths => ⟨store, paths, none⟩
  | v :: rest, store, paths =>
    match keyIvs.findIdx? (fun w => v.FileHash == w.FileHash) with
    | none => ⟨store, paths, some .fileHashNotRequested⟩
    | some foundIdx =>
    match getContractFileInfo store v.FileHash with
    | none => ⟨store, paths, some .fileOfContractNotFound⟩
    | some fileInfo =>
    if fileInfo.FileDecryptionStatus = .FileDecrypting then
      decryptLoop env args keyIvs rest store paths
    else
      let store1 := setFileDecryptionStatus store v.FileHash .FileDecrypting
      match args.RestoredFilePaths[foundIdx]? with
      | none => ⟨store1, paths, some .indexOutOfRange⟩
      | some outputPathOfFile =>
        let inputEncryptedFilePath :=
          env.joinPath [env.downloadDirectory, env.encode v.ContractHash,
            env.encodeNoPrefix v.FileHash]
        match env.decryptFile inputEncryptedFilePath outputPathOfFile v.Key v.Iv
            v.EncryptionType v.RandomizedSegments
            (decide (fileInfo.FileDecryptionStatus = .FileDecrypted)) with
        | none =>
          ⟨setFileDecryptionStatus store1 v.FileHash .FileDecryptionError, paths,
            some .decryptFile⟩
        | some decryptedPath =>
          decryptLoop env args keyIvs rest
            (setFileDecryptionStatus store1 v.FileHash .FileDecrypted)
            (paths ++ [decryptedPath])

/-- The handler `RequestEncryptionDataFromVerifierAndDecrypt` (lines 765-871)
on the files `store` of the contract. -/
def RequestEncryptionDataFromVerifierAndDecrypt (env : DecryptEnv)
    (args : RequestEncryptionDataFromVerifierArgs) (store : FileStore) : DecryptOutcome :=
  if args.FileHashes.length ≠ args.FileMerkleRootHashes.length then
    ⟨store, [], some .sizesNotEqual⟩
  else
    match env.getContract args.ContractHash with
    | none => ⟨store, [], some .contractNotFound⟩
    | some downloadContract =>
    match buildKeyIVRequests env store args args.FileHashes 0 [] with
    | .error e => ⟨store, [], some e⟩
    | .ok keyIvs =>
    match env.publicKeyFromBytes downloadContract.VerifierPublicKey with
    | none => ⟨store, [], some .verifierPublicKey⟩
    | some publicKey =>
    match env.idFromPublicKey publicKey with
    | none => ⟨store, [], some .verifierPeerID⟩
    | some verifierID =>
    match env.requestEncryptionData verifierID keyIvs with
    | none => ⟨store, [], some .requestEncryptionData⟩
    | some encryptionData => decryptLoop env args keyIvs encryptionData store []

/-- Whether the store has the file in the state `FileDecrypting`. -/
def isDecrypting (store : FileStore) (fileHash : Bytes) : Bool :=
  match getContractFileInfo store fileHash with
  | some fileInfo => decide (fileInfo.FileDecryptionStatus = .FileDecrypting)
  | none => false

/-- The decryption state the store has for a file. -/
def decryptionStatus (store : FileStore) (fileHash : Bytes) : Option FileDecryptionStatus :=
  (getContractFileInfo store fileHash).map (fun fileInfo => fileInfo.FileDecryptionStatus)

/-- What the handler passes to and gets from `DecryptFile` for the entry `v`
of the verifier's reply: the restored path at the position of the first
requested file with the hash of `v`, and the decrypted path returned. -/
def DecryptedAs (env : DecryptEnv) (args : RequestEncryptionDataFromVerifierArgs)
    (keyIvs : List KeyIVProto) (decryptedPath : String)
    (v : KeyIVRandomizedFileSegmentsProto) : Prop :=
  ∃ (foundIdx : Nat) (outputPathOfFile : String) (alreadyDecrypted : Bool),
    keyIvs.findIdx? (fun w => v.FileHash == w.FileHash) = some foundIdx
    ∧ args.RestoredFilePaths[foundIdx]? = some outputPathOfFile
    ∧ env.decryptFile
        (env.joinPath [env.downloadDirectory, env.encode v.ContractHash,
          env.encodeNoPrefix v.FileHash])
        outputPathOfFile v.Key v.Iv v.EncryptionType v.RandomizedSegments alreadyDecrypted
      = some decryptedPath

/-! ## Strings of the Go library (`strings.Split`, `strings.TrimSpace`,
`strconv.ParseInt`, the verb `%d`) -/

/-- The scan of `strings.Split` for a non-empty separator `sep`: `skip`
counts the characters of a separator still to pass over, `cur` holds the
current piece in reverse. -/
def splitChars (sep : List Char) : List Char → Nat → List Char → List (List Char)
  | [], _, cur => [cur.reverse]
  | _ :: rest, skip + 1, cur => splitChars sep rest skip cur
  | c :: rest, 0, cur =>
    if sep.isPrefixOf (c :: rest) then
      cur.reverse :: splitChars sep rest (sep.length - 1) []
    else splitChars sep rest 0 (c :: cur)

/-- The pieces `strings.Split(s, sep)` returns for a non-empty separator:
`s` cut at every occurrence of `sep`, found from the left. -/
def goSplit (s sep : String) : List String :=
  (splitChars sep.toList s.toList 0 []).map String.mk

/-- The white space of `unicode.IsSpace`. -/
def isSpace (c : Char) : Bool :=
  c.toNat == 0x20 || (0x09 ≤ c.toNat && c.toNat ≤ 0x0d) || c.toNat == 0x85
    || c.toNat == 0xa0 || c.toNat == 0x1680 || (0x2000 ≤ c.toNat && c.toNat ≤ 0x200a)
    || c.toNat == 0x2028 || c.toNat == 0x2029 || c.toNat == 0x202f || c.toNat == 0x205f
    || c.toNat == 0x3000

/-- The text `strings.TrimSpace(s)`: `s` without its leading and trailing
white space. -/
def trimSpace (s : String) : String :=
  String.mk ((s.toList.dropWhile isSpace).reverse.dropWhile isSpace).reverse

/-- The number `strconv.ParseUint(s, 10, 64)` reads: at least one character,
decimal digits only, a value below `2 ^ 64`; `none` stands for its error. -/
def parseUint64 (s : List Char) : Option Nat :=
  if s = [] then none
  else if s.all Char.isDigit then
    let n := s.foldl (fun acc c => acc * 10 + (c.toNat - '0'.toNat)) 0
    if n < 2 ^ 64 then some n else none
  else none

/-- The number `strconv.ParseInt(s, 10, 64)` reads: an optional sign, then
what `ParseUint` reads, within the range of `int64`; `none` stands for its
error. -/
def parseInt64 (s : List Char) : Option Int :=
  match s with
  | [] => none
  | c :: rest =>
    let neg := c == '-'
    let body := if c == '+' || c == '-' then rest else c :: rest
    match parseUint64 body with
    | none => none
    | some un =>
      if !neg && 2 ^ 63 ≤ un then none
      else if neg && 2 ^ 63 < un then none
      else some (if neg then -(un : Int) else (un : Int))

/-- The function `strconv.ParseInt(s, 10, 64)` on a text. -/
def ParseInt (s : String) : Option Int := parseInt64 s.toList

/-- The text the verb `%d` writes for an `int64`: the decimal digits, after a
minus sign for a negative number. -/
def formatInt (n : Int) : String :=
  if n < 0 then String.mk ('-' :: Nat.toDigits 10 n.natAbs)
  else String.mk (Nat.toDigits 10 n.natAbs)

/-! ## Query request (`SendDataQueryRequest`, lines 101-159) -/

/-- The request the handler builds, `messages.DataQueryRequest` with all the
fields it sets. -/
structure DataQueryRequestMessage where
  FileHashes : List Bytes
  FromPeerAddr : String
  Timestamp : Int
  Hash : Bytes
deriving DecidableEq, Repr

/-- The arguments, `SendDataQueryRequestArgs`. -/
structure SendDataQueryRequestArgs where
  FileHashes : String
deriving DecidableEq, Repr

/-- The collaborators of the handler: the host id, the clock, the hex codecs,
the hash and the validation of the request, the query history, the
marshalling of the gossip payload and the publisher (`false` and `none` stand
for an error). -/
structure SendDataQueryEnv where
  hostID : String
  now : Int
  decodeNoPrefix : String → Option Bytes
  encode : Bytes → String
  getHash : DataQueryRequestMessage → Bytes
  validate : DataQueryRequestMessage → Bool
  putQueryHistory : String → DataQueryRequestMessage → Bool
  marshalQuery : DataQueryRequestMessage → Option Bytes
  publishMessageToNetwork : Bytes → Bool

/-- The errors the handler returns. -/
inductive SendDataQueryError where
  | noFiles
  | decodeFileHash
  | validate
  | putQueryHistory
  | marshal
  | publish
deriving DecidableEq, Repr

/-- The loop of lines 113-123 over the pieces of the argument. -/
def collectFileHashes (env : SendDataQueryEnv) :
    List String → List Bytes → Except SendDataQueryError (List Bytes)
  | [], fileHashes => .ok fileHashes
  | v :: rest, fileHashes =>
    let trimmed := trimSpace v
    if trimmed = "" then collectFileHashes env rest fileHashes
    else
      match env.decodeNoPrefix trimmed with
      | none => .error .decodeFileHash
      | some fileHash => collectFileHashes env rest (fileHashes ++ [fileHash])

/-- What a call of `SendDataQueryRequest` has done when it returns: the
error, the request it built, the entries it put in the query history, the
payloads it published and the hash of the reply. -/
structure SendDataQueryOutcome where
  error : Option SendDataQueryError
  request : Option DataQueryRequestMessage
  queryHistory : List (String × DataQueryRequestMessage)
  published : List Bytes
  Hash : String
deriving DecidableEq, Repr

/-- The handler `SendDataQueryRequest` (lines 101-159). -/
def SendDataQueryRequest (env : SendDataQueryEnv) (args : SendDataQueryRequestArgs) :
    SendDataQueryOutcome :=
  if args.FileHashes = "" then ⟨some .noFiles, none, [], [], ""⟩
  else
    match collectFileHashes env (goSplit args.FileHashes ",") [] with
    | .error e => ⟨some e, none, [], [], ""⟩
    | .ok fileHashes =>
      let requestHash := env.getHash ⟨fileHashes, env.hostID, env.now, []⟩
      let request : DataQueryRequestMessage := ⟨fileHashes, env.hostID, env.now, requestHash⟩
      if !env.validate request then ⟨some .validate, some request, [], [], ""⟩
      else
        let requestHashHex := env.encode requestHash
        if !env.putQueryHistory requestHashHex request then
          ⟨some .putQueryHistory, some request, [], [], ""⟩
        else
          match env.marshalQuery request with
          | none => ⟨some .marshal, some request, [(requestHashHex, request)], [], ""⟩
          | some payloadBytes =>
            if !env.publishMessageToNetwork payloadBytes then
              ⟨some .publish, some request, [(requestHashHex, request)], [], ""⟩
            else
              ⟨none, some request, [(requestHashHex, request)], [payloadBytes],
                requestHashHex⟩

/-! ## Part files on disk (`getDownloadedPartsInfo`, lines 554-594) -/

/-- An entry of the directory listing, what `Readdir` gives of a file: its
name and its size. -/
structure DirEntry where
  Name : String
  Size : Int
deriving DecidableEq, Repr

/-- The name under which a part is written (line 503):
`fmt.Sprintf("%s_part_%d_%d", fileHashHex, from, to)`. -/
def partFileName (fileHashHex : String) (from_ to_ : Int) : String :=
  fileHashHex ++ "_part_" ++ formatInt from_ ++ "_" ++ formatInt to_

/-- The name parsing of lines 568-578: the bounds read from the name of a
directory entry, `none` when the entry is passed over. What stands before
`_part_` is not looked at. -/
def parsePartName (name : String) : Option (Int × Int) :=
  match goSplit name "_part_" with
  | [_, second] =>
    match goSplit second "_" with
    | [first, last] =>
      match ParseInt first with
      | none => none
      | some from_ =>
        match ParseInt last with
        | none => none
        | some to_ => some (from_, to_)
    | _ => none
  | _ => none

/-- The function `getDownloadedPartsInfo` (lines 554-594) on the listing of
the directory, or the error of opening or reading it: one range per entry
whose name parses, with the size of the file, in ascending order of `to`;
the stable order is used, one of the outcomes `sort.Slice` may produce. -/
def getDownloadedPartsInfo (fileInfo : Except String (List DirEntry)) :
    Except String (List FileRanges) :=
  match fileInfo with
  | .error e => .error e
  | .ok files =>
    .ok ((files.filterMap (fun file =>
      (parsePartName file.Name).map (fun b => (⟨b.1, b.2, file.Size⟩ : FileRanges)))).insertionSort
        (fun a b => a.to_ ≤ b.to_))

/-! ## Hex codecs of the settlement scenario -/

/-- The value of a hexadecimal digit. -/
def hexDigitValue (c : Char) : Option Nat :=
  if '0' ≤ c ∧ c ≤ '9' then some (c.toNat - '0'.toNat)
  else if 'a' ≤ c ∧ c ≤ 'f' then some (c.toNat - 'a'.toNat + 10)
  else if 'A' ≤ c ∧ c ≤ 'F' then some (c.toNat - 'A'.toNat + 10)
  else none

/-- The number written by hexadecimal digits, most significant first. -/
def hexDigitsValue : List Char → Nat → Option Nat
  | [], acc => some acc
  | c :: rest, acc =>
    match hexDigitValue c with
    | none => none
    | some d => hexDigitsValue rest (acc * 16 + d)

/-- Modelled from the spec: `hexutil.DecodeBig`, which is not among the
sources; the settlement scenario of the spec gives the fees as `0x2`, `0x10`
and `0x1` for 2, 16 and 1, so the text is `0x` followed by at least one
hexadecimal digit. -/
def decodeBigHex (s : String) : Option Int :=
  match s.toList with
  | '0' :: 'x' :: c :: rest => (hexDigitsValue (c :: rest) 0).map (fun n => (n : Int))
  | _ => none

/-- Modelled from the spec: `hexutil.DecodeUint64`, which is not among the
sources; the settlement scenario of the spec reads the nonce `0x05` as 5, so
the text is `0x` followed by hexadecimal digits of a number below `2 ^ 64`. -/
def decodeUint64Hex (s : String) : Option Nat :=
  match s.toList with
  | '0' :: 'x' :: c :: rest =>
    match hexDigitsValue (c :: rest) 0 with
    | some n => if n < 2 ^ 64 then some n else none
    | none => none
  | _ => none

/-- Modelled from the spec: `hexutil.EncodeBig`, which is not among the
sources; the spec has big integers hex-encoded in transaction outputs, 616 in
its settlement scenario being a text that starts `0x2`: the prefix `0x` and
the hexadecimal digits of the number, a minus sign first for a negative one. -/
def encodeBigHex (n : Int) : String :=
  if n < 0 then "-0x" ++ String.mk (Nat.toDigits 16 (-n).toNat)
  else "0x" ++ String.mk (Nat.toDigits 16 n.toNat)

/-! ## Data-model invariants and sample data -/

/-- A response with signature byte `sig`, offering `hashes` with `sizes` and
declaring `unavailable` unavailable. -/
def sampleResponse (sig : Nat) (hashes : List Bytes) (sizes : List Nat)
    (unavailable : List Bytes) : DataQueryResponse :=
  { FromPeerAddr := "peer", FeesPerByte := "0x2", PublicKey := [sig], Signature := [sig],
    FileHashes := hashes, FileHashesSizes := sizes, UnavailableFileHashes := unavailable }

/-- Sample file hashes `aa`, `bb`, `cc`, `dd`, `ee`, `ff`. -/
def hashAA : Bytes := [0xaa]
def hashBB : Bytes := [0xbb]
def hashCC : Bytes := [0xcc]
def hashDD : Bytes := [0xdd]
def hashEE : Bytes := [0xee]
def hashFF : Bytes := [0xff]

/-- The invariants of the data model for a response to `requests`: as many
sizes as hashes, offered and unavailable hashes disjoint, both drawn from the
request. -/
def ResponseInvariant (requests : DataQueryRequest) (r : DataQueryResponse) : Prop :=
  r.FileHashes.length = r.FileHashesSizes.length
    ∧ (∀ h ∈ r.FileHashes, h ∉ r.UnavailableFileHashes)
    ∧ (∀ h ∈ r.FileHashes, h ∈ requests.FileHashes)
    ∧ (∀ h ∈ r.UnavailableFileHashes, h ∈ requests.FileHashes)

instance (requests : DataQueryRequest) (r : DataQueryResponse) :
    Decidable (ResponseInvariant requests r) := by
  unfold ResponseInvariant
  infer_instance

/-- Hexadecimal text with the prefix `0x`, as the sample environment encodes
integers. -/
def sampleEncodeBig (n : Int) : String :=
  "0x" ++ String.mk (Nat.toDigits 16 n.toNat)

/-- The unlocked key of the sample environment. -/
def sampleKey : UnlockedKey :=
  { Address := "0xsigner", PublicKeyRaw := some [7], PrivateKey := [9] }

/-- A stored contract with the sizes 100 and 200, a hoster fee of `0x2` per
byte and verifier fees of `0x10`. -/
def sampleContract : DownloadContractProto :=
  { FileHosterResponse := sampleResponse 1 [hashAA, hashBB] [100, 200] []
    FileRequesterNodePublicKey := [3]
    FileHashesNeeded := [hashAA, hashBB]
    FileHashesNeededSizes := [100, 200]
    VerifierPublicKey := [4]
    VerifierFees := "0x10"
    ContractHash := [0xc1]
    VerifierSignature := [5] }

/-- A sample environment: one token, one stored contract under the hash
`0xc1`, the fee strings of the sample contract, and stand-ins for
marshalling, signing and validation that always succeed. -/
def sampleEnv : SettlementEnv :=
  { authorized := fun token => .ok (token == "token", sampleKey)
    decodeUint64 := fun s => if s = "0x05" then some 5 else none
    decodeBig := fun s =>
      if s = "0x2" then some 2 else if s = "0x10" then some 16
      else if s = "0x1" then some 1 else none
    encodeBig := sampleEncodeBig
    encode := fun b => "0x" ++ String.join (b.map (fun n => String.mk (Nat.toDigits 16 n)))
    encodeUint64BytesToHexString := fun b =>
      sampleEncodeBig (b.foldl (fun acc x => acc * 256 + x) 0 : Nat)
    getContract := fun h => if h = "0xc1" then some sampleContract else none
    marshalEnvelope := fun l => some (l.map (fun d => d.ContractHash)).flatten
    marshalDataPayload := fun t payload => some (t :: payload)
    rawPublicToAddress := fun pk => some ("0xaddr" ++ String.join (pk.map (fun n => String.mk (Nat.toDigits 16 n))))
    mainChain := [1]
    sign := fun tx privateKey => some (tx.Nounce ++ tx.Data, privateKey)
    validate := fun _ => true
    marshalJSON := fun j => some (j.Nounce ++ "," ++ j.Value ++ "," ++ j.TransactionFees) }

/-- The sample call: the contract `0xc1`, nonce `0x05`, transaction fees
`0x1`. -/
def sampleArgs : CreateTransactionDataPayloadFromContractHashesArgs :=
  { AccessToken := "token", ContractHashes := ["0xc1"], CurrentNounce := "0x05",
    TransactionFeesToBeUsed := "0x1" }

/-- The JSON transaction the sample call produces. -/
def sampleJSONTx : JSONTransaction :=
  { Hash := "0x000000064c1", Signature := "0x9", PublicKey := "0x7", Nounce := "0x6",
    Data := "0x4c1", From := "0xsigner", To := "0xaddr4", Value := "0x268",
    TransactionFees := "0x1", Chain := "0x1" }

/-- An unsigned contract asking `hashes` of the hoster with signature byte
`sig`. -/
def sampleUnsigned (sig : Nat) (hashes : List Bytes) (sizes : List Nat) :
    DownloadContractProto :=
  { FileHosterResponse := sampleResponse sig hashes sizes []
    FileRequesterNodePublicKey := [3]
    FileHashesNeeded := hashes
    FileHashesNeededSizes := sizes
    VerifierPublicKey := []
    VerifierFees := ""
    ContractHash := []
    VerifierSignature := [] }

/-- The contract `u` countersigned by the verifier with key byte `verifier`. -/
def sampleSigned (u : DownloadContractProto) (verifier : Nat) : DownloadContractProto :=
  { u with
    VerifierPublicKey := [verifier]
    VerifierFees := "0x10"
    ContractHash := [0xc0, verifier]
    VerifierSignature := [verifier, verifier] }

/-- A seventh sample hash. -/
def hashAB : Bytes := [0xab]

/-- The sample collaborators of `DownloadFile`: the contract `0xc1` with the
needed hashes `aa` and `bb`, two-digit file hashes, and a peer decoder that
accepts every address. -/
def sampleDownloadEnv : DownloadFileEnv :=
  { getContract := fun h => if h = "0xc1" then some sampleContract else none
    decodeNoPrefix := fun s =>
      if s = "aa" then some hashAA else if s = "bb" then some hashBB
      else if s = "cc" then some hashCC else none
    peerDecode := fun addr => some addr }

/-- A contract for one file of `2 ^ 63` bytes. -/
def sampleHugeContract : DownloadContractProto :=
  { sampleContract with
    FileHashesNeeded := [hashAA]
    FileHashesNeededSizes := [2 ^ 63] }

/-- The download of a file of 20 bytes from the sample contract. -/
def sampleJob : DownloadJob :=
  { downloadContract := sampleContract, fileHash := hashAA, fileHoster := "peer",
    fileSize := 20, reDownload := false }

/-- The environment of the settlement scenario: the sample environment with
the hex codecs modelled from the spec. -/
def scenarioEnv : SettlementEnv :=
  { sampleEnv with
    decodeUint64 := decodeUint64Hex
    decodeBig := decodeBigHex
    encodeBig := encodeBigHex }

/-- The sample collaborators of the decryption handler: a verifier that
answers the requested files in reverse order, and a decryption primitive that
returns the output path it was given. -/
def sampleDecryptEnv : DecryptEnv :=
  { getContract := fun h => if h = "0xc1" then some sampleContract else none
    decodeNoPrefix := sampleDownloadEnv.decodeNoPrefix
    decode := fun s =>
      if s = "0xc1" then some [0xc1] else if s = "0x01" then some [1]
      else if s = "0x02" then some [2] else none
    encode := sampleEnv.encode
    encodeNoPrefix := fun b => String.join (b.map (fun n => String.mk (Nat.toDigits 16 n)))
    publicKeyFromBytes := fun b => some b
    idFromPublicKey := fun _ => some "verifier"
    requestEncryptionData := fun _ keyIvs =>
      some (keyIvs.reverse.map (fun w => ⟨w.FileHash, w.ContractHash, [1], [2], 1, [0, 1]⟩))
    downloadDirectory := "/downloads"
    joinPath := fun parts => "/".intercalate parts
    decryptFile := fun _ outputPathOfFile _ _ _ _ _ => some outputPathOfFile }

/-- The sample request for the keys of the files `aa` and `bb`, to be
restored to `/out/a` and `/out/b`. -/
def sampleDecryptArgs : RequestEncryptionDataFromVerifierArgs :=
  { ContractHash := "0xc1", FileHashes := ["aa", "bb"],
    FileMerkleRootHashes := ["0x01", "0x02"], RestoredFilePaths := ["/out/a", "/out/b"] }

/-- The files `aa` and `bb` of the sample contract, fully transferred and not
decrypted. -/
def sampleFileStore : FileStore :=
  [(hashAA, ⟨"", 100, 100, .FileNotDecrypted⟩), (hashBB, ⟨"", 200, 200, .FileNotDecrypted⟩)]

/-- A stored contract whose sizes `2 ^ 63` and `2 ^ 63 + 1` add up to
`2 ^ 64 + 1`. -/
def sampleWrapContract : DownloadContractProto :=
  { sampleContract with
    FileHashesNeeded := [hashAA, hashBB]
    FileHashesNeededSizes := [2 ^ 63, 2 ^ 63 + 1] }

/-- The sample environment with the contract `0xc1` replaced by the one whose
sizes wrap. -/
def sampleWrapEnv : SettlementEnv :=
  { sampleEnv with
    getContract := fun h => if h = "0xc1" then some sampleWrapContract else none }

/-- A download of a file of `2 ^ 63` bytes. -/
def sampleHugeJob : DownloadJob :=
  { downloadContract := sampleHugeContract, fileHash := hashAA, fileHoster := "peer",
    fileSize := 2 ^ 63, reDownload := false }

/-- The sample collaborators of `SendDataQueryRequest`: two-digit file
hashes, a hash made of the number of file hashes, a validation that asks for
at least one file hash, and a history and a publisher that accept all. -/
def sampleQueryEnv : SendDataQueryEnv :=
  { hostID := "host"
    now := 1700000000
    decodeNoPrefix := sampleDownloadEnv.decodeNoPrefix
    encode := sampleEnv.encode
    getHash := fun request => [request.FileHashes.length]
    validate := fun request => decide (request.FileHashes ≠ [])
    putQueryHistory := fun _ _ => true
    marshalQuery := fun request => some request.FileHashes.flatten
    publishMessageToNetwork := fun _ => true }

/-- The contract directory with the parts of the file `bb`, the last one
incomplete. -/
def samplePartsOfBB : List DirEntry :=
  [⟨"bb_part_0_4", 5⟩, ⟨"bb_part_5_9", 5⟩, ⟨"bb_part_10_14", 5⟩, ⟨"bb_part_15_19", 2⟩]

/-- The sample collaborators of `CreateContractsFromDataQueryResponses`: the
query `0xq1` for `aa`, `bb`, `cc` with the two-hoster responses, one block
verifier, found in the network, that accepts only the contract for `aa` and
`bb`, and a shuffle that reverses the pool. -/
def sampleContractsEnv : CreateContractsEnv :=
  { getQueryHistory := fun h => if h = "0xq1" then some ⟨[hashAA, hashBB, hashCC]⟩ else none
    getQueryResponse := fun h =>
      if h = "0xq1" then
        some [sampleResponse 1 [hashAA, hashBB] [10, 20] [hashCC],
              sampleResponse 2 [hashCC] [30] [hashAA, hashBB]]
      else none
    requesterPublicKeyRaw := some [3]
    blockVerifiers := ["07"]
    publicKeyFromHex := fun v => if v = "07" then some [7] else none
    idFromPublicKey := fun _ => some "verifier7"
    findPeers := fun peerIDs => peerIDs
    sendContractToVerifierForAcceptance := fun _ unsignedContract =>
      if unsignedContract.FileHashesNeeded = [hashAA, hashBB] then
        some (sampleSigned unsignedContract 7)
      else none
    publicKeyFromBytes := fun b => some b
    verifyDownloadContractProto := fun _ _ => true
    shuffle := fun pool => pool.reverse
    encode := sampleEnv.encode }

/-- The sample collaborators with no verifier found in the network. -/
def sampleContractsEnvNoVerifier : CreateContractsEnv :=
  { sampleContractsEnv with findPeers := fun _ => [] }

/-- The sample collaborators with a verifier that accepts every contract. -/
def sampleContractsEnvAccepting : CreateContractsEnv :=
  { sampleContractsEnv with
    sendContractToVerifierForAcceptance := fun _ unsignedContract =>
      some (sampleSigned unsignedContract 7) }

/-! ## The validation phase of the solver -/

theorem indexOf?_eq_none_iff_not_mem (a : Bytes) (l : List Bytes) :
    l.indexOf? a = none ↔ a ∉ l := by
  unfold List.indexOf?
  rw [List.findIdx?_eq_none_iff]
  constructor
  · intro h hmem
    have := h a hmem
    simp at this
  · intro h x hx
    by_cases hxa : x = a
    · subst hxa; exact absurd hx h
    · simpa using hxa

theorem indexOf?_lt_length (a : Bytes) (l : List Bytes) (i : Nat)
    (h : l.indexOf? a = some i) : i < l.length := by
  unfold List.indexOf? at h
  have := List.findIdx?_of_eq_some h
  cases hget : l[i]? with
  | none => simp [hget] at this
  | some x =>
    rcases List.getElem?_eq_some_iff.mp hget with ⟨hlt, _⟩
    exact hlt

theorem filesNeededPut_ne_nil (m : List (Bytes × filesNeededInDataQueryResponse))
    (dq : DataQueryResponse) (fhreq : Bytes) (size : Nat) :
    filesNeededPut m dq fhreq size ≠ [] := by
  unfold filesNeededPut
  cases hfind : m.find? (fun kv => kv.1 == dq.Signature) with
  | none => simp
  | some kv =>
    have hmem : kv ∈ m := List.mem_of_find?_eq_some hfind
    intro hnil
    have hm : m = [] := by simpa using hnil
    rw [hm] at hmem
    exact absurd hmem (List.not_mem_nil _)

/-- With sizes at least as long as the hashes, the scan of the responses for
one requested hash ends normally: the flag tells whether some response offers
the hash, and the map is non-empty once a hash has been found. -/
theorem scanResponses_ok (fhreq : Bytes) (responses : List DataQueryResponse)
    (hlen : ∀ r ∈ responses, r.FileHashes.length ≤ r.FileHashesSizes.length)
    (m : List (Bytes × filesNeededInDataQueryResponse)) (found : Bool) :
    ∃ m1, scanResponses fhreq responses m found
        = .ok (m1, found || responses.any (fun r => decide (fhreq ∈ r.FileHashes)))
      ∧ (m ≠ [] → m1 ≠ [])
      ∧ ((∃ r ∈ responses, fhreq ∈ r.FileHashes) → m1 ≠ []) := by
  induction responses generalizing m found with
  | nil => exact ⟨m, by simp [scanResponses], id, by simp⟩
  | cons dq rest ih =>
    have hrest : ∀ r ∈ rest, r.FileHashes.length ≤ r.FileHashesSizes.length :=
      fun r hr => hlen r (List.mem_cons_of_mem _ hr)
    cases hidx : dq.FileHashes.indexOf? fhreq with
    | none =>
      have hnot : fhreq ∉ dq.FileHashes := (indexOf?_eq_none_iff_not_mem _ _).mp hidx
      obtain ⟨m1, h1, h2, h3⟩ := ih hrest m found
      refine ⟨m1, ?_, h2, ?_⟩
      · simp [scanResponses, hidx, h1, hnot]
      · rintro ⟨r, hr, hmem⟩
        rcases List.mem_cons.mp hr with rfl | hr
        · exact absurd hmem hnot
        · exact h3 ⟨r, hr, hmem⟩
    | some fhIdx =>
      have hlt : fhIdx < dq.FileHashes.length := indexOf?_lt_length _ _ _ hidx
      have hmem : fhreq ∈ dq.FileHashes := by
        by_contra hc
        rw [(indexOf?_eq_none_iff_not_mem _ _).mpr hc] at hidx
        cases hidx
      have hlt2 : fhIdx < dq.FileHashesSizes.length :=
        Nat.lt_of_lt_of_le hlt (hlen dq (List.mem_cons_self _ _))
      obtain ⟨m1, h1, h2, _⟩ := ih hrest (filesNeededPut m dq fhreq dq.FileHashesSizes[fhIdx]) true
      have hne : m1 ≠ [] := h2 (filesNeededPut_ne_nil _ _ _ _)
      refine ⟨m1, ?_, fun _ => hne, fun _ => hne⟩
      simp [scanResponses, hidx, List.getElem?_eq_getElem hlt2, h1, hmem]

/-- The validation phase passes when every requested hash is offered by some
response, and then leaves a non-empty map for a non-empty request. -/
theorem validateRequest_ok (responses : List DataQueryResponse)
    (hlen : ∀ r ∈ responses, r.FileHashes.length ≤ r.FileHashesSizes.length)
    (hashes : List Bytes) (hcov : ∀ h ∈ hashes, ∃ r ∈ responses, h ∈ r.FileHashes)
    (m : List (Bytes × filesNeededInDataQueryResponse)) :
    ∃ m1, validateRequest responses hashes m = .ok m1 ∧ (hashes ≠ [] → m1 ≠ [])
      ∧ (m ≠ [] → m1 ≠ []) := by
  induction hashes generalizing m with
  | nil => exact ⟨m, rfl, by simp, id⟩
  | cons fhreq rest ih =>
    obtain ⟨r, hr, hmem⟩ := hcov fhreq (List.mem_cons_self _ _)
    obtain ⟨m1, h1, _, h3⟩ := scanResponses_ok fhreq responses hlen m false
    have hany : responses.any (fun r => decide (fhreq ∈ r.FileHashes)) = true :=
      List.any_eq_true.mpr ⟨r, hr, by simpa using hmem⟩
    have hne : m1 ≠ [] := h3 ⟨r, hr, hmem⟩
    obtain ⟨m2, h4, _, h6⟩ := ih (fun h hh => hcov h (List.mem_cons_of_mem _ hh)) m1
    refine ⟨m2, ?_, fun _ => h6 hne, fun _ => h6 hne⟩
    simp [validateRequest, h1, hany, h4]

/-- The validation phase rejects a request with a hash no response offers,
naming the first such hash. -/
theorem validateRequest_missing (responses : List DataQueryResponse)
    (hlen : ∀ r ∈ responses, r.FileHashes.length ≤ r.FileHashesSizes.length)
    (hashes : List Bytes) (hmiss : ∃ h ∈ hashes, ∀ r ∈ responses, h ∉ r.FileHashes)
    (m : List (Bytes × filesNeededInDataQueryResponse)) :
    ∃ h ∈ hashes, (∀ r ∈ responses, h ∉ r.FileHashes)
      ∧ validateRequest responses hashes m = .error (.incompleteResponses h) := by
  induction hashes generalizing m with
  | nil =>
    obtain ⟨h, hh, _⟩ := hmiss
    exact absurd hh (List.not_mem_nil _)
  | cons fhreq rest ih =>
    obtain ⟨m1, h1, _, _⟩ := scanResponses_ok fhreq responses hlen m false
    by_cases hoff : ∃ r ∈ responses, fhreq ∈ r.FileHashes
    · obtain ⟨r, hr, hmem⟩ := hoff
      have hany : responses.any (fun r => decide (fhreq ∈ r.FileHashes)) = true :=
        List.any_eq_true.mpr ⟨r, hr, by simpa using hmem⟩
      have hmiss2 : ∃ h ∈ rest, ∀ r ∈ responses, h ∉ r.FileHashes := by
        obtain ⟨h, hh, hno⟩ := hmiss
        rcases List.mem_cons.mp hh with rfl | hh
        · exact absurd hmem (hno r hr)
        · exact ⟨h, hh, hno⟩
      obtain ⟨h, hh, hno, hres⟩ := ih hmiss2 m1
      refine ⟨h, List.mem_cons_of_mem _ hh, hno, ?_⟩
      simp [validateRequest, h1, hany, hres]
    · have hno : ∀ r ∈ responses, fhreq ∉ r.FileHashes :=
        fun r hr hmem => hoff ⟨r, hr, hmem⟩
      have hany : responses.any (fun r => decide (fhreq ∈ r.FileHashes)) = false := by
        rw [List.any_eq_false]
        intro r hr
        simpa using hno r hr
      refine ⟨fhreq, List.mem_cons_self _ _, hno, ?_⟩
      simp [validateRequest, h1, hany]

/-- The validation phase rejects a request with a hash no response offers at
the first such hash of the request: every hash before it is offered by some
response. -/
theorem validateRequest_first_missing (responses : List DataQueryResponse)
    (hlen : ∀ r ∈ responses, r.FileHashes.length ≤ r.FileHashesSizes.length)
    (hashes : List Bytes) (hmiss : ∃ h ∈ hashes, ∀ r ∈ responses, h ∉ r.FileHashes)
    (m : List (Bytes × filesNeededInDataQueryResponse)) :
    ∃ before h after, hashes = before ++ h :: after
      ∧ (∀ x ∈ before, ∃ r ∈ responses, x ∈ r.FileHashes)
      ∧ (∀ r ∈ responses, h ∉ r.FileHashes)
      ∧ validateRequest responses hashes m = .error (.incompleteResponses h) := by
  induction hashes generalizing m with
  | nil =>
    obtain ⟨h, hh, _⟩ := hmiss
    exact absurd hh (List.not_mem_nil _)
  | cons fhreq rest ih =>
    obtain ⟨m1, h1, _, _⟩ := scanResponses_ok fhreq responses hlen m false
    by_cases hoff : ∃ r ∈ responses, fhreq ∈ r.FileHashes
    · obtain ⟨r, hr, hmem⟩ := hoff
      have hany : responses.any (fun r => decide (fhreq ∈ r.FileHashes)) = true :=
        List.any_eq_true.mpr ⟨r, hr, by simpa using hmem⟩
      have hmiss2 : ∃ h ∈ rest, ∀ r ∈ responses, h ∉ r.FileHashes := by
        obtain ⟨h, hh, hno⟩ := hmiss
        rcases List.mem_cons.mp hh with rfl | hh
        · exact absurd hmem (hno r hr)
        · exact ⟨h, hh, hno⟩
      obtain ⟨before, h, after, hsplit, hbefore, hno, hres⟩ := ih hmiss2 m1
      refine ⟨fhreq :: before, h, after, by rw [hsplit]; rfl, ?_, hno, ?_⟩
      · intro x hx
        rcases List.mem_cons.mp hx with rfl | hx
        · exact ⟨r, hr, hmem⟩
        · exact hbefore x hx
      · simp [validateRequest, h1, hany, hres]
    · have hno : ∀ r ∈ responses, fhreq ∉ r.FileHashes :=
        fun r hr hmem => hoff ⟨r, hr, hmem⟩
      have hany : responses.any (fun r => decide (fhreq ∈ r.FileHashes)) = false := by
        rw [List.any_eq_false]
        intro r hr
        simpa using hno r hr
      refine ⟨[], fhreq, rest, rfl, by simp, hno, ?_⟩
      simp [validateRequest, h1, hany]

/-! ## The coverage solver -/

/-- The stable sort is one of the outcomes `sort.Slice` may produce. -/
theorem sortSlice_isSortSliceOf (responses : List DataQueryResponse) :
    IsSortSliceOf (sortSlice responses) responses :=
  ⟨List.perm_insertionSort _ _, List.sorted_insertionSort _ _⟩

theorem foundResponse_eq_true_iff (unavailable : List Bytes) (resp : DataQueryResponse) :
    foundResponse unavailable resp = true
      ↔ ∀ u ∈ unavailable, u ∉ resp.UnavailableFileHashes := by
  unfold foundResponse
  simp only [List.all_eq_true, Bool.not_eq_true', List.any_eq_false, beq_iff_eq]
  constructor
  · intro h u hu hmem
    exact h u hu u hmem rfl
  · intro h u hu x hx hux
    subst hux
    exact h u hu hx

/-- C1: the solver evaluated on the request `[aa, bb, cc, dd]` with the
responses R1 = (`aa`, `bb`, `cc` offered, `dd` unavailable) and R2 = (`cc`,
`dd` offered, `aa`, `bb` unavailable), which satisfy the invariants of the
data model: it returns R1 and R2 with all their hashes, so `cc` is claimed by
both entries and the claimed hashes are no permutation of the request. -/
theorem solver_two_hosters_claim_twice :
    (∀ r ∈ [sampleResponse 1 [hashAA, hashBB, hashCC] [10, 20, 30] [hashDD],
            sampleResponse 2 [hashCC, hashDD] [30, 40] [hashAA, hashBB]],
        ResponseInvariant ⟨[hashAA, hashBB, hashCC, hashDD]⟩ r)
    ∧ getFilesNeededFromDataQueryResponses ⟨[hashAA, hashBB, hashCC, hashDD]⟩
        [sampleResponse 1 [hashAA, hashBB, hashCC] [10, 20, 30] [hashDD],
         sampleResponse 2 [hashCC, hashDD] [30, 40] [hashAA, hashBB]]
      = .ok [⟨sampleResponse 1 [hashAA, hashBB, hashCC] [10, 20, 30] [hashDD],
              [hashAA, hashBB, hashCC], [10, 20, 30]⟩,
             ⟨sampleResponse 2 [hashCC, hashDD] [30, 40] [hashAA, hashBB],
              [hashCC, hashDD], [30, 40]⟩]
    ∧ flattenFilesNeeded
        [⟨sampleResponse 1 [hashAA, hashBB, hashCC] [10, 20, 30] [hashDD],
          [hashAA, hashBB, hashCC], [10, 20, 30]⟩,
         ⟨sampleResponse 2 [hashCC, hashDD] [30, 40] [hashAA, hashBB],
          [hashCC, hashDD], [30, 40]⟩]
      = [hashAA, hashBB, hashCC, hashCC, hashDD]
    ∧ ¬ List.Perm [hashAA, hashBB, hashCC, hashCC, hashDD]
        [hashAA, hashBB, hashCC, hashDD] := by
  refine ⟨by decide, by rfl, by rfl, ?_⟩
  intro hperm
  have := hperm.length_eq
  simp at this

/-- The greedy path of the solver on valid responses: after R2 has claimed
`dd` and `ee`, the deletion by stale positions leaves `ee` (already claimed)
in the working list and drops `ff`, so R3 claims `ee` again, `ff` is claimed
by nobody, and the final count (6 = 6) lets the selection through; both
packed entries show R4, the last response of the sorted slice. -/
theorem solver_greedy_claims_twice_and_misses :
    getFilesNeededFromDataQueryResponses
        ⟨[hashAA, hashBB, hashCC, hashDD, hashEE, hashFF]⟩
        [sampleResponse 1 [hashAA, hashBB, hashCC] [1, 2, 3] [hashDD, hashEE, hashFF],
         sampleResponse 2 [hashDD, hashEE] [4, 5] [hashFF, hashAA, hashBB, hashCC],
         sampleResponse 3 [hashEE] [5] [hashAA, hashBB, hashCC, hashDD, hashFF],
         sampleResponse 4 [hashFF] [6] [hashAA, hashBB, hashCC, hashDD, hashEE]]
      = .ok [⟨sampleResponse 1 [hashAA, hashBB, hashCC] [1, 2, 3] [hashDD, hashEE, hashFF],
              [hashAA, hashBB, hashCC], [1, 2, 3]⟩,
             ⟨sampleResponse 4 [hashFF] [6] [hashAA, hashBB, hashCC, hashDD, hashEE],
              [hashDD, hashEE], [4, 5]⟩,
             ⟨sampleResponse 4 [hashFF] [6] [hashAA, hashBB, hashCC, hashDD, hashEE],
              [hashEE], [5]⟩] := by
  rfl

/-- C2, as stated, fails: the request `[aa, .., ff]` with R1 = (`aa` offered;
`bb`, `cc` unavailable), R2 = (`bb`, `dd`, `ee`; `cc`, `aa`, `ff`) and R3 =
(`cc`, `ff`; `bb`, `aa`, `dd`, `ee`) meets every invariant and every hash is
offered, yet the solver ends with the incomplete-coverage error: the greedy
phase only looks for the hashes R1 calls unavailable. -/
theorem solver_completeness_counterexample :
    ¬ ∀ (requests : DataQueryRequest) (responses : List DataQueryResponse),
        requests.FileHashes ≠ [] →
        (∀ r ∈ responses, ResponseInvariant requests r) →
        (∀ h ∈ requests.FileHashes, ∃ r ∈ responses, h ∈ r.FileHashes) →
        ∃ selection, getFilesNeededFromDataQueryResponses requests responses
          = .ok selection := by
  intro hall
  have hres : getFilesNeededFromDataQueryResponses
      ⟨[hashAA, hashBB, hashCC, hashDD, hashEE, hashFF]⟩
      [sampleResponse 1 [hashAA] [1] [hashBB, hashCC],
       sampleResponse 2 [hashBB, hashDD, hashEE] [2, 4, 5] [hashCC, hashAA, hashFF],
       sampleResponse 3 [hashCC, hashFF] [3, 6] [hashBB, hashAA, hashDD, hashEE]]
      = .error .incompleteCoverage := by rfl
  obtain ⟨selection, hsel⟩ := hall
    ⟨[hashAA, hashBB, hashCC, hashDD, hashEE, hashFF]⟩
    [sampleResponse 1 [hashAA] [1] [hashBB, hashCC],
     sampleResponse 2 [hashBB, hashDD, hashEE] [2, 4, 5] [hashCC, hashAA, hashFF],
     sampleResponse 3 [hashCC, hashFF] [3, 6] [hashBB, hashAA, hashDD, hashEE]]
    (by decide) (by decide) (by decide)
  rw [hres] at hsel
  cases hsel

/-- C2 (amended): for a request with at least one hash, responses with at
least as many sizes as hashes, and every requested hash offered by some
response, the solver returns a selection, of one or two entries, whenever the
response sorted first has no unavailable hash or some response has an
unavailable list disjoint from that of the response sorted first. -/
theorem solver_returns_selection_on_fast_paths (requests : DataQueryRequest)
    (responses copyResponses : List DataQueryResponse)
    (hsort : IsSortSliceOf copyResponses responses)
    (hne : requests.FileHashes ≠ [])
    (hlen : ∀ r ∈ responses, r.FileHashes.length ≤ r.FileHashesSizes.length)
    (hcov : ∀ h ∈ requests.FileHashes, ∃ r ∈ responses, h ∈ r.FileHashes)
    (hfast : ∀ first, copyResponses.head? = some first →
      first.UnavailableFileHashes = []
        ∨ ∃ r ∈ responses, ∀ u ∈ first.UnavailableFileHashes,
            u ∉ r.UnavailableFileHashes) :
    ∃ selection, getFilesNeededFromSorted requests responses copyResponses = .ok selection
      ∧ (selection.length = 1 ∨ selection.length = 2) := by
  obtain ⟨m1, hval, hm1, _⟩ := validateRequest_ok responses hlen requests.FileHashes hcov []
  have hm1ne : m1.length ≠ 0 := by
    intro h0
    exact hm1 hne (List.length_eq_zero.mp h0)
  cases hcopy : copyResponses with
  | nil =>
    obtain ⟨h, hh⟩ := List.exists_mem_of_ne_nil _ hne
    obtain ⟨r, hr, _⟩ := hcov h hh
    have hmem : r ∈ copyResponses := hsort.1.mem_iff.mpr hr
    rw [hcopy] at hmem
    exact absurd hmem (List.not_mem_nil _)
  | cons first rest =>
    by_cases hun : first.UnavailableFileHashes.length = 0
    · refine ⟨[⟨first, first.FileHashes, first.FileHashesSizes⟩], ?_, Or.inl rfl⟩
      simp [getFilesNeededFromSorted, hval, selectFromSorted, hm1ne, hun]
    · rcases hfast first (by simp [hcopy]) with hnil | ⟨r, hr, hdisj⟩
      · exact absurd (by simp [hnil]) hun
      · have hmem : r ∈ first :: rest := by
          rw [← hcopy]
          exact hsort.1.mem_iff.mpr hr
        have hfound : foundResponse first.UnavailableFileHashes r = true :=
          (foundResponse_eq_true_iff _ _).mpr hdisj
        cases hfind : (first :: rest).find? (foundResponse first.UnavailableFileHashes) with
        | none =>
          have := List.find?_eq_none.mp hfind r hmem
          exact absurd hfound this
        | some resp =>
          refine ⟨[⟨first, first.FileHashes, first.FileHashesSizes⟩,
            ⟨resp, resp.FileHashes, resp.FileHashesSizes⟩], ?_, Or.inr rfl⟩
          simp [getFilesNeededFromSorted, hval, selectFromSorted, hm1ne, hun, hfind]

/-- C3, as stated, fails: with the request `[aa, bb]` and a single response
that offers `aa` but carries no size, the solver stops with an index out of
range while recording `aa`, before it comes to the missing `bb`. -/
theorem solver_rejection_counterexample :
    ¬ ∀ (requests : DataQueryRequest) (responses : List DataQueryResponse),
        (∃ h ∈ requests.FileHashes, ∀ r ∈ responses, h ∉ r.FileHashes) →
        ∃ h, getFilesNeededFromDataQueryResponses requests responses
          = .error (.incompleteResponses h) := by
  intro hall
  have hres : getFilesNeededFromDataQueryResponses ⟨[hashAA, hashBB]⟩
      [sampleResponse 1 [hashAA] [] []] = .error .indexOutOfRange := by rfl
  obtain ⟨h, hh⟩ := hall ⟨[hashAA, hashBB]⟩ [sampleResponse 1 [hashAA] [] []]
    ⟨hashBB, by decide, by decide⟩
  rw [hres] at hh
  cases hh

/-- C3 (amended): when every response has at least as many sizes as hashes
and some requested hash is offered by no response, the solver returns the
incomplete-responses error for the first such hash of the request (every
requested hash before it is offered by some response), and so no selection,
whatever order the sort produces. -/
theorem solver_rejects_missing_hash (requests : DataQueryRequest)
    (responses copyResponses : List DataQueryResponse)
    (hlen : ∀ r ∈ responses, r.FileHashes.length ≤ r.FileHashesSizes.length)
    (hmiss : ∃ h ∈ requests.FileHashes, ∀ r ∈ responses, h ∉ r.FileHashes) :
    ∃ before h after, requests.FileHashes = before ++ h :: after
      ∧ (∀ x ∈ before, ∃ r ∈ responses, x ∈ r.FileHashes)
      ∧ h ∈ requests.FileHashes
      ∧ (∀ r ∈ responses, h ∉ r.FileHashes)
      ∧ getFilesNeededFromSorted requests responses copyResponses
          = .error (.incompleteResponses h)
      ∧ getFilesNeededFromDataQueryResponses requests responses
          = .error (.incompleteResponses h)
      ∧ (∀ selection, getFilesNeededFromSorted requests responses copyResponses
          ≠ .ok selection) := by
  obtain ⟨before, h, after, hsplit, hbefore, hno, hres⟩ :=
    validateRequest_first_missing responses hlen requests.FileHashes hmiss []
  have hsorted : getFilesNeededFromSorted requests responses copyResponses
      = .error (.incompleteResponses h) := by
    simp [getFilesNeededFromSorted, hres]
  refine ⟨before, h, after, hsplit, hbefore, ?_, hno, hsorted, ?_, ?_⟩
  · rw [hsplit]
    simp
  · simp [getFilesNeededFromDataQueryResponses, getFilesNeededFromSorted, hres]
  · intro selection hsel
    rw [hsorted] at hsel
    cases hsel

/-- C2 (amended), at the two-hoster request `[aa, bb, cc]` with R1 = (`aa`,
`bb`; `cc`) and R2 = (`cc`; `aa`, `bb`). -/
theorem solver_returns_selection_on_fast_paths_witness :
    ∃ selection,
      getFilesNeededFromSorted ⟨[hashAA, hashBB, hashCC]⟩
        [sampleResponse 1 [hashAA, hashBB] [10, 20] [hashCC],
         sampleResponse 2 [hashCC] [30] [hashAA, hashBB]]
        (sortSlice [sampleResponse 1 [hashAA, hashBB] [10, 20] [hashCC],
                    sampleResponse 2 [hashCC] [30] [hashAA, hashBB]])
        = .ok selection
      ∧ (selection.length = 1 ∨ selection.length = 2) :=
  solver_returns_selection_on_fast_paths ⟨[hashAA, hashBB, hashCC]⟩
    [sampleResponse 1 [hashAA, hashBB] [10, 20] [hashCC],
     sampleResponse 2 [hashCC] [30] [hashAA, hashBB]]
    (sortSlice [sampleResponse 1 [hashAA, hashBB] [10, 20] [hashCC],
                sampleResponse 2 [hashCC] [30] [hashAA, hashBB]])
    (sortSlice_isSortSliceOf _) (by decide) (by decide) (by decide)
    (by
      intro first hfirst
      have hhead : (sortSlice [sampleResponse 1 [hashAA, hashBB] [10, 20] [hashCC],
          sampleResponse 2 [hashCC] [30] [hashAA, hashBB]]).head?
          = some (sampleResponse 1 [hashAA, hashBB] [10, 20] [hashCC]) := by rfl
      rw [hhead] at hfirst
      cases hfirst
      exact Or.inr ⟨sampleResponse 2 [hashCC] [30] [hashAA, hashBB], by decide, by decide⟩)

/-- C3 (amended), at the request `[aa, bb]` with a single response offering
only `aa`, where the error names `bb`, and at the request `[aa, cc, bb, dd]`
with a single response offering `aa` and `bb`: `cc` and `dd` are offered by
nobody and the error names `cc`, the first of them. -/
theorem solver_rejects_missing_hash_witness :
    getFilesNeededFromDataQueryResponses ⟨[hashAA, hashBB]⟩
        [sampleResponse 1 [hashAA] [10] []]
      = .error (.incompleteResponses hashBB)
    ∧ getFilesNeededFromDataQueryResponses ⟨[hashAA, hashCC, hashBB, hashDD]⟩
        [sampleResponse 1 [hashAA, hashBB] [10, 20] []]
      = .error (.incompleteResponses hashCC)
    ∧ ∃ before h after, [hashAA, hashCC, hashBB, hashDD] = before ++ h :: after
      ∧ (∀ x ∈ before, ∃ r ∈ [sampleResponse 1 [hashAA, hashBB] [10, 20] []],
          x ∈ r.FileHashes)
      ∧ h ∈ [hashAA, hashCC, hashBB, hashDD]
      ∧ (∀ r ∈ [sampleResponse 1 [hashAA, hashBB] [10, 20] []], h ∉ r.FileHashes)
      ∧ getFilesNeededFromSorted ⟨[hashAA, hashCC, hashBB, hashDD]⟩
          [sampleResponse 1 [hashAA, hashBB] [10, 20] []]
          [sampleResponse 1 [hashAA, hashBB] [10, 20] []] = .error (.incompleteResponses h)
      ∧ getFilesNeededFromDataQueryResponses ⟨[hashAA, hashCC, hashBB, hashDD]⟩
          [sampleResponse 1 [hashAA, hashBB] [10, 20] []] = .error (.incompleteResponses h)
      ∧ (∀ selection, getFilesNeededFromSorted ⟨[hashAA, hashCC, hashBB, hashDD]⟩
          [sampleResponse 1 [hashAA, hashBB] [10, 20] []]
          [sampleResponse 1 [hashAA, hashBB] [10, 20] []] ≠ .ok selection) :=
  ⟨by rfl, by rfl,
   solver_rejects_missing_hash ⟨[hashAA, hashCC, hashBB, hashDD]⟩
     [sampleResponse 1 [hashAA, hashBB] [10, 20] []]
     [sampleResponse 1 [hashAA, hashBB] [10, 20] []] (by decide)
     ⟨hashDD, by decide, by decide⟩⟩

/-! ## The range planner -/

theorem wrapInt64_eq_self (x : Int) (hlo : -2 ^ 63 ≤ x) (hhi : x < 2 ^ 63) :
    wrapInt64 x = x := by
  unfold wrapInt64
  omega

/-- Truncated division by four, in the form linear arithmetic can use. -/
theorem tdiv_four_spec (a : Int) :
    ∃ r : Int, a = 4 * Int.tdiv a 4 + r ∧ -3 ≤ r ∧ r ≤ 3 ∧ r = Int.tmod a 4
      ∧ (0 ≤ a → 0 ≤ r ∧ 0 ≤ Int.tdiv a 4) ∧ (a ≤ 0 → r ≤ 0 ∧ Int.tdiv a 4 ≤ 0) := by
  have hdef := Int.tmod_def a 4
  rcases Int.le_total 0 a with h | h
  · have hd : Int.tdiv a 4 = a / 4 := Int.tdiv_eq_ediv h (by decide)
    refine ⟨Int.tmod a 4, ?_, ?_, ?_, rfl, ?_, ?_⟩ <;> omega
  · have hd : Int.tdiv a 4 = -((-a) / 4) := by
      have h1 := Int.neg_tdiv a 4
      have h2 : Int.tdiv (-a) 4 = (-a) / 4 := Int.tdiv_eq_ediv (by omega) (by decide)
      omega
    refine ⟨Int.tmod a 4, ?_, ?_, ?_, rfl, ?_, ?_⟩ <;> omega

/-- The plan of `createFileRanges` written out, for every `int64` size. -/
theorem createFileRanges_eq (fileSize : Int) (hlo : -2 ^ 63 ≤ fileSize)
    (hhi : fileSize < 2 ^ 63) :
    (Int.tdiv fileSize 4 = 0 →
      createFileRanges fileSize = [⟨0, wrapInt64 (fileSize - 1), 0⟩])
    ∧ (Int.tdiv fileSize 4 ≠ 0 →
      createFileRanges fileSize =
        [⟨0, Int.tdiv fileSize 4 - 1, 0⟩,
         ⟨Int.tdiv fileSize 4, 2 * Int.tdiv fileSize 4 - 1, 0⟩,
         ⟨2 * Int.tdiv fileSize 4, 3 * Int.tdiv fileSize 4 - 1, 0⟩,
         ⟨3 * Int.tdiv fileSize 4, wrapInt64 (fileSize - 1), 0⟩]) := by
  obtain ⟨r, hr, hr1, hr2, _, _, _⟩ := tdiv_four_spec fileSize
  generalize hc : Int.tdiv fileSize 4 = c at *
  constructor
  · intro h0
    simp [createFileRanges, hc, h0]
  · intro hne
    have hr4 : List.range 4 = [0, 1, 2, 3] := by decide
    simp only [createFileRanges, hc, if_neg hne, hr4, List.map_cons, List.map_nil]
    norm_num
    refine ⟨⟨?_, ?_⟩, ⟨?_, ?_⟩, ⟨?_, ?_⟩, ?_⟩
    · rw [wrapInt64_eq_self] <;> omega
    · rw [wrapInt64_eq_self 0, wrapInt64_eq_self (0 + c), wrapInt64_eq_self] <;> omega
    · rw [wrapInt64_eq_self] <;> omega
    · rw [wrapInt64_eq_self c, wrapInt64_eq_self (c + c), wrapInt64_eq_self] <;> omega
    · rw [wrapInt64_eq_self] <;> omega
    · rw [wrapInt64_eq_self (2 * c), wrapInt64_eq_self (2 * c + c), wrapInt64_eq_self]
        <;> omega
    · rw [wrapInt64_eq_self] <;> omega

/-- C4: for a file size of at least one byte, the planner returns four ranges
when the size is at least four and one range otherwise; the first range
starts at 0, every later range starts one past the end of the previous one,
the last range ends at `fileSize - 1`, no range is empty, the lengths add up
to the file size, and every byte position of the file lies in a range, the
ranges being pairwise disjoint and ascending. -/
theorem createFileRanges_partition (fileSize : Int) (hpos : 1 ≤ fileSize)
    (hhi : fileSize < 2 ^ 63) :
    (4 ≤ fileSize → (createFileRanges fileSize).length = 4)
    ∧ (fileSize < 4 → (createFileRanges fileSize).length = 1)
    ∧ (createFileRanges fileSize).head?.map (fun r => r.from_) = some 0
    ∧ (createFileRanges fileSize).getLast?.map (fun r => r.to_) = some (fileSize - 1)
    ∧ List.Chain' (fun a b => b.from_ = a.to_ + 1) (createFileRanges fileSize)
    ∧ (∀ r ∈ createFileRanges fileSize, r.from_ ≤ r.to_)
    ∧ ((createFileRanges fileSize).map (fun r => r.to_ - r.from_ + 1)).sum = fileSize
    ∧ (∀ x : Int, (0 ≤ x ∧ x ≤ fileSize - 1)
        ↔ ∃ r ∈ createFileRanges fileSize, r.from_ ≤ x ∧ x ≤ r.to_)
    ∧ List.Pairwise (fun a b => a.to_ < b.from_) (createFileRanges fileSize) := by
  obtain ⟨r, hr, _, hr2, _, hnn, _⟩ := tdiv_four_spec fileSize
  obtain ⟨hr0, hc0⟩ := hnn (by omega)
  obtain ⟨hzero, hnonzero⟩ := createFileRanges_eq fileSize (by omega) hhi
  have hw : wrapInt64 (fileSize - 1) = fileSize - 1 := by
    rw [wrapInt64_eq_self] <;> omega
  by_cases hc : Int.tdiv fileSize 4 = 0
  · rw [hzero hc, hw]
    refine ⟨?_, ?_, ?_, ?_, ?_, ?_, ?_, ?_, ?_⟩
    · intro h4; omega
    · intro _; rfl
    · rfl
    · rfl
    · simp
    · intro q hq
      simp only [List.mem_singleton] at hq
      subst hq
      show (0 : Int) ≤ fileSize - 1
      omega
    · simp
    · intro x
      simp
    · simp
  · rw [hnonzero hc, hw]
    generalize Int.tdiv fileSize 4 = c at *
    have hc1 : 1 ≤ c := by omega
    refine ⟨?_, ?_, ?_, ?_, ?_, ?_, ?_, ?_, ?_⟩
    · intro _; rfl
    · intro h4; omega
    · rfl
    · rfl
    · simp only [List.chain'_cons, List.chain'_singleton, and_true]
      refine ⟨?_, ?_, ?_⟩ <;> omega
    · intro q hq
      simp only [List.mem_cons, List.mem_singleton, List.not_mem_nil, or_false] at hq
      rcases hq with rfl | rfl | rfl | rfl <;> simp only <;> omega
    · simp only [List.map_cons, List.map_nil, List.sum_cons, List.sum_nil]
      omega
    · intro x
      simp only [List.mem_cons, List.mem_singleton, List.not_mem_nil, or_false,
        exists_eq_or_imp, exists_eq_left]
      omega
    · simp only [List.pairwise_cons, List.mem_cons, List.mem_singleton, List.not_mem_nil,
        or_false, forall_eq_or_imp, forall_eq, List.Pairwise.nil, and_true, IsEmpty.forall_iff,
        implies_true]
      omega

/-- C4, at the file size 20. -/
theorem createFileRanges_partition_witness :
    (createFileRanges 20).length = 4
    ∧ ((createFileRanges 20).map (fun r => r.to_ - r.from_ + 1)).sum = 20 :=
  ⟨(createFileRanges_partition 20 (by decide) (by decide)).1 (by decide),
   (createFileRanges_partition 20 (by decide) (by decide)).2.2.2.2.2.2.1⟩

/-- C5: with `chunk = fileSize / 4` (truncated), for every `int64` file size
the planner returns, when `chunk ≠ 0`, the ranges `[i * chunk, (i + 1) * chunk
- 1]` for `i = 0, 1, 2` and `[3 * chunk, fileSize - 1]`, and when `chunk = 0`
the single range `[0, fileSize - 1]`, every range with downloaded size 0;
`fileSize - 1` is the `int64` difference, equal to the integer `fileSize - 1`
for every size but the least `int64`, and then the first three ranges have
length `chunk` and the last has length `chunk + fileSize mod 4`. -/
theorem createFileRanges_bounds (fileSize : Int) (hlo : -2 ^ 63 ≤ fileSize)
    (hhi : fileSize < 2 ^ 63) :
    (Int.tdiv fileSize 4 ≠ 0 →
      createFileRanges fileSize =
        [⟨0, Int.tdiv fileSize 4 - 1, 0⟩,
         ⟨Int.tdiv fileSize 4, 2 * Int.tdiv fileSize 4 - 1, 0⟩,
         ⟨2 * Int.tdiv fileSize 4, 3 * Int.tdiv fileSize 4 - 1, 0⟩,
         ⟨3 * Int.tdiv fileSize 4, wrapInt64 (fileSize - 1), 0⟩])
    ∧ (Int.tdiv fileSize 4 = 0 →
      createFileRanges fileSize = [⟨0, wrapInt64 (fileSize - 1), 0⟩])
    ∧ (∀ r ∈ createFileRanges fileSize, r.availableSize = 0)
    ∧ (-2 ^ 63 < fileSize →
        wrapInt64 (fileSize - 1) = fileSize - 1
        ∧ (Int.tdiv fileSize 4 ≠ 0 →
            (createFileRanges fileSize).map (fun r => r.to_ - r.from_ + 1)
              = [Int.tdiv fileSize 4, Int.tdiv fileSize 4, Int.tdiv fileSize 4,
                 Int.tdiv fileSize 4 + Int.tmod fileSize 4])) := by
  obtain ⟨hzero, hnonzero⟩ := createFileRanges_eq fileSize hlo hhi
  refine ⟨hnonzero, hzero, ?_, ?_⟩
  · intro r hr
    by_cases hc : Int.tdiv fileSize 4 = 0
    · rw [hzero hc] at hr
      simp only [List.mem_singleton] at hr
      subst hr
      rfl
    · rw [hnonzero hc] at hr
      simp only [List.mem_cons, List.mem_singleton, List.not_mem_nil, or_false] at hr
      rcases hr with rfl | rfl | rfl | rfl <;> rfl
  · intro hmin
    have hw : wrapInt64 (fileSize - 1) = fileSize - 1 := by
      rw [wrapInt64_eq_self] <;> omega
    refine ⟨hw, ?_⟩
    intro hc
    have hdef := Int.tmod_def fileSize 4
    rw [hnonzero hc, hw]
    simp only [List.map_cons, List.map_nil, List.cons.injEq, and_true]
    refine ⟨?_, ?_, ?_, ?_⟩ <;> omega

/-- C5, at the file size 20: the ranges `[0,4]`, `[5,9]`, `[10,14]`,
`[15,19]`. -/
theorem createFileRanges_bounds_witness :
    createFileRanges 20 = [⟨0, 4, 0⟩, ⟨5, 9, 0⟩, ⟨10, 14, 0⟩, ⟨15, 19, 0⟩] :=
  (createFileRanges_bounds 20 (by decide) (by decide)).1 (by decide)

/-! ## Reconciliation with the part files -/

/-- The fold of `reconcileRange` never changes `from` and `to`. -/
theorem reconcileFold_bounds (v : FileRanges) (parts : List FileRanges) (cur : FileRanges) :
    (parts.foldl (fun cur fr =>
      if v.from_ = fr.from_ ∧ v.to_ = fr.to_ then { cur with availableSize := fr.availableSize }
      else cur) cur).bounds = cur.bounds := by
  induction parts generalizing cur with
  | nil => rfl
  | cons p ps ih =>
    rw [List.foldl_cons, ih]
    split <;> rfl

/-- Parts with other bounds leave the available size as it is. -/
theorem reconcileFold_no_match (v : FileRanges) (parts : List FileRanges) (cur : FileRanges)
    (hno : ∀ p ∈ parts, p.bounds ≠ v.bounds) :
    (parts.foldl (fun cur fr =>
      if v.from_ = fr.from_ ∧ v.to_ = fr.to_ then { cur with availableSize := fr.availableSize }
      else cur) cur).availableSize = cur.availableSize := by
  induction parts generalizing cur with
  | nil => rfl
  | cons p ps ih =>
    rw [List.foldl_cons, ih _ (fun q hq => hno q (List.mem_cons_of_mem _ hq))]
    have hp : p.bounds ≠ v.bounds := hno p (List.mem_cons_self _ _)
    have hcond : ¬ (v.from_ = p.from_ ∧ v.to_ = p.to_) := by
      rintro ⟨h1, h2⟩
      exact hp (by simp [FileRanges.bounds, h1, h2])
    rw [if_neg hcond]

/-- With pairwise distinct bounds among the parts, the part with the bounds
of `v` decides the available size. -/
theorem reconcileFold_match (v : FileRanges) (parts : List FileRanges) (cur q : FileRanges)
    (hnodup : (parts.map FileRanges.bounds).Nodup) (hq : q ∈ parts)
    (hqv : q.bounds = v.bounds) :
    (parts.foldl (fun cur fr =>
      if v.from_ = fr.from_ ∧ v.to_ = fr.to_ then { cur with availableSize := fr.availableSize }
      else cur) cur).availableSize = q.availableSize := by
  induction parts generalizing cur with
  | nil => exact absurd hq (List.not_mem_nil _)
  | cons p ps ih =>
    rw [List.map_cons, List.nodup_cons] at hnodup
    obtain ⟨hnot, hnd⟩ := hnodup
    rw [List.foldl_cons]
    rcases List.mem_cons.mp hq with rfl | hq
    · have hno : ∀ p ∈ ps, p.bounds ≠ v.bounds := by
        intro p hp hpv
        apply hnot
        rw [hqv, ← hpv]
        exact List.mem_map_of_mem _ hp
      rw [reconcileFold_no_match v ps _ hno]
      have hcond : v.from_ = q.from_ ∧ v.to_ = q.to_ := by
        have h1 := congrArg Prod.fst hqv
        have h2 := congrArg Prod.snd hqv
        exact ⟨h1.symm, h2.symm⟩
      rw [if_pos hcond]
    · exact ih _ hnd hq

/-- C6: when the discovered parts are as many as the planned ranges and carry
exactly the pairwise distinct `(from, to)` pairs of the plan, the reconciled
plan has the length of the plan and the same `(from, to)` pairs in the same
order, every range of it has a part with its bounds, and its downloaded size
is the size of that part. -/
theorem reconcile_annotates (plan parts : List FileRanges)
    (hnodup : (plan.map FileRanges.bounds).Nodup)
    (hsame : (parts.map FileRanges.bounds).Perm (plan.map FileRanges.bounds)) :
    (reconcile plan (.ok parts)).length = plan.length
    ∧ (reconcile plan (.ok parts)).map FileRanges.bounds = plan.map FileRanges.bounds
    ∧ (∀ r ∈ reconcile plan (.ok parts), ∃ q ∈ parts, q.bounds = r.bounds)
    ∧ (∀ r ∈ reconcile plan (.ok parts), ∀ q ∈ parts,
        q.bounds = r.bounds → r.availableSize = q.availableSize) := by
  have hlen : plan.length = parts.length := by
    have := hsame.length_eq
    simpa using this.symm
  have hnd : (parts.map FileRanges.bounds).Nodup := hsame.nodup_iff.mpr hnodup
  have hrec : reconcile plan (.ok parts) = plan.map (fun v => reconcileRange v parts) := by
    simp [reconcile, hlen]
  have hb : ∀ v, (reconcileRange v parts).bounds = v.bounds :=
    fun v => reconcileFold_bounds v parts v
  rw [hrec]
  refine ⟨by simp, ?_, ?_, ?_⟩
  · rw [List.map_map]
    apply List.map_congr_left
    intro v _
    exact hb v
  · intro r hr
    obtain ⟨v, hv, rfl⟩ := List.mem_map.mp hr
    have hvb : v.bounds ∈ parts.map FileRanges.bounds :=
      hsame.mem_iff.mpr (List.mem_map_of_mem _ hv)
    obtain ⟨q, hq, hqb⟩ := List.mem_map.mp hvb
    exact ⟨q, hq, by rw [hb v, hqb]⟩
  · intro r hr q hq hqr
    obtain ⟨v, _, rfl⟩ := List.mem_map.mp hr
    rw [hb v] at hqr
    exact reconcileFold_match v parts v q hnd hq hqr

/-- C6, at the plan of a 20-byte file with its four parts on disk, listed in
another order. -/
theorem reconcile_annotates_witness :
    reconcile (createFileRanges 20)
        (.ok [⟨15, 19, 5⟩, ⟨0, 4, 3⟩, ⟨10, 14, 0⟩, ⟨5, 9, 5⟩])
      = [⟨0, 4, 3⟩, ⟨5, 9, 5⟩, ⟨10, 14, 0⟩, ⟨15, 19, 5⟩]
    ∧ (∀ r ∈ reconcile (createFileRanges 20)
          (.ok [⟨15, 19, 5⟩, ⟨0, 4, 3⟩, ⟨10, 14, 0⟩, ⟨5, 9, 5⟩]),
        ∀ q ∈ [(⟨15, 19, 5⟩ : FileRanges), ⟨0, 4, 3⟩, ⟨10, 14, 0⟩, ⟨5, 9, 5⟩],
          q.bounds = r.bounds → r.availableSize = q.availableSize) :=
  ⟨by decide,
   (reconcile_annotates (createFileRanges 20)
      [⟨15, 19, 5⟩, ⟨0, 4, 3⟩, ⟨10, 14, 0⟩, ⟨5, 9, 5⟩] (by decide) (by decide)).2.2.2⟩

/-! ## Settlement transactions -/

theorem totalFileSize_fold (sizes : List Nat) (acc : Nat) (hacc : acc < 2 ^ 64) :
    sizes.foldl (fun acc v => (acc + v) % 2 ^ 64) acc = (acc + sizes.sum) % 2 ^ 64 := by
  induction sizes generalizing acc with
  | nil =>
    simp only [List.foldl_nil, List.sum_nil, Nat.add_zero]
    omega
  | cons v rest ih =>
    rw [List.foldl_cons, ih _ (Nat.mod_lt _ (by decide)), List.sum_cons]
    omega

/-- The `uint64` total of the sizes is their sum modulo `2 ^ 64`. -/
theorem totalFileSize_eq (sizes : List Nat) : totalFileSize sizes = sizes.sum % 2 ^ 64 := by
  unfold totalFileSize
  rw [totalFileSize_fold sizes 0 (by decide)]
  simp

/-- What a successful pass of the loop body has read and built. -/
theorem buildTransaction_ok (env : SettlementEnv) (key : UnlockedKey) (transactionFees : Int)
    (currentNounce : Nat) (v : String) (JSONTx : JSONTransaction) (totalFees : Int)
    (h : buildTransaction env key transactionFees currentNounce v = .ok (JSONTx, totalFees)) :
    ∃ downloadContract fileHosterFees verifierFees,
      env.getContract v = some downloadContract
      ∧ env.decodeBig downloadContract.FileHosterResponse.FeesPerByte = some fileHosterFees
      ∧ env.decodeBig downloadContract.VerifierFees = some verifierFees
      ∧ totalFees = fileHosterFees * (totalFileSize downloadContract.FileHashesNeededSizes : Int)
          + verifierFees
      ∧ JSONTx.Value = env.encodeBig totalFees
      ∧ JSONTx.Nounce = env.encodeUint64BytesToHexString (encodeUint64ToBytes currentNounce)
      ∧ JSONTx.TransactionFees = env.encodeBig transactionFees
      ∧ JSONTx.From = key.Address
      ∧ env.rawPublicToAddress downloadContract.VerifierPublicKey = some JSONTx.To
      ∧ (env.marshalJSON JSONTx).isSome := by
  unfold buildTransaction at h
  cases hc : env.getContract v with
  | none => simp [hc] at h
  | some dc =>
    simp only [hc] at h
    split at h
    · simp at h
    · split at h
      · simp at h
      · split at h
        · simp at h
        · rename_i addr haddr
          split at h
          · simp at h
          · split at h
            · simp at h
            · rename_i f hf
              split at h
              · simp at h
              · rename_i vf hvf
                split at h
                · simp at h
                · split at h
                  · split at h
                    · simp at h
                    · rename_i s hs
                      simp only [Except.ok.injEq, Prod.mk.injEq] at h
                      obtain ⟨hj, ht⟩ := h
                      subst hj
                      subst ht
                      exact ⟨dc, f, vf, rfl, hf, hvf, rfl, rfl, rfl, rfl, rfl, haddr,
                        by simp [hs]⟩
                  · simp at h

/-- A successful run of the loop has built one transaction per contract hash,
in order, each with the nonce one above the previous, and has added every
`totalFees` to the running total. -/
theorem settlementLoop_ok (env : SettlementEnv) (key : UnlockedKey) (transactionFees : Int)
    (hashes : List String) (currentNounce : Nat) (allFees : Int) (out : List JSONTransaction)
    (out1 : List JSONTransaction) (allFees1 : Int)
    (h : settlementLoop env key transactionFees hashes currentNounce allFees out
      = .ok (out1, allFees1)) :
    ∃ built : List (JSONTransaction × Int),
      built.length = hashes.length
      ∧ out1 = out ++ built.map Prod.fst
      ∧ allFees1 = allFees + (built.map Prod.snd).sum
      ∧ ∀ (k : Nat) (v : String), hashes[k]? = some v → ∃ b, built[k]? = some b
          ∧ buildTransaction env key transactionFees ((currentNounce + (k + 1)) % 2 ^ 64) v
              = .ok b := by
  induction hashes generalizing currentNounce allFees out with
  | nil =>
    simp only [settlementLoop, Except.ok.injEq, Prod.mk.injEq] at h
    obtain ⟨h1, h2⟩ := h
    exact ⟨[], rfl, by simp [h1], by simp [h2], by simp⟩
  | cons v rest ih =>
    unfold settlementLoop at h
    dsimp only at h
    cases hb : buildTransaction env key transactionFees ((currentNounce + 1) % 2 ^ 64) v with
    | error e =>
      rw [hb] at h
      simp at h
    | ok b =>
      obtain ⟨JSONTx, totalFees⟩ := b
      rw [hb] at h
      simp only at h
      obtain ⟨built, hlen, hout, hall, hk⟩ := ih _ _ _ h
      refine ⟨(JSONTx, totalFees) :: built, by simp [hlen], by simp [hout],
        by simp [hall]; ring, ?_⟩
      intro k w hw
      cases k with
      | zero =>
        simp only [List.getElem?_cons_zero, Option.some.injEq] at hw
        subst hw
        exact ⟨(JSONTx, totalFees), by simp, by simpa using hb⟩
      | succ k =>
        simp only [List.getElem?_cons_succ] at hw
        obtain ⟨b, hb1, hb2⟩ := hk k w hw
        refine ⟨b, by simpa using hb1, ?_⟩
        have hn : ((currentNounce + 1) % 2 ^ 64 + (k + 1)) % 2 ^ 64
            = (currentNounce + (k + 1 + 1)) % 2 ^ 64 := by omega
        rw [← hn]
        exact hb2

/-- A successful settlement comes from a successful loop over the contract
hashes, started at the decoded nonce with total zero. -/
theorem settlementTransactions_ok (env : SettlementEnv)
    (args : CreateTransactionDataPayloadFromContractHashesArgs)
    (txs : List JSONTransaction) (total : String)
    (h : settlementTransactions env args = .ok (txs, total)) :
    ∃ key currentNounce transactionFees allFees,
      env.decodeUint64 args.CurrentNounce = some currentNounce
      ∧ env.decodeBig args.TransactionFeesToBeUsed = some transactionFees
      ∧ settlementLoop env key transactionFees args.ContractHashes (currentNounce % 2 ^ 64) 0 []
          = .ok (txs, allFees)
      ∧ total = env.encodeBig allFees := by
  unfold settlementTransactions at h
  split at h
  · simp at h
  · rename_i ok key _
    split at h
    · simp at h
    · split at h
      · simp at h
      · rename_i currentNounce hn
        split at h
        · simp at h
        · rename_i transactionFees hf
          split at h
          · simp at h
          · rename_i out allFees hloop
            simp only [Except.ok.injEq, Prod.mk.injEq] at h
            obtain ⟨h1, h2⟩ := h
            subst h1
            exact ⟨key, currentNounce, transactionFees, allFees, hn, hf, hloop, h2.symm⟩

/-- The eight bytes of `encodeUint64ToBytes`, read most significant first,
give the number back. -/
theorem encodeUint64ToBytes_value (n : Nat) (hn : n < 2 ^ 64) :
    (encodeUint64ToBytes n).length = 8
    ∧ (∀ b ∈ encodeUint64ToBytes n, b < 256)
    ∧ (encodeUint64ToBytes n).foldl (fun acc b => acc * 256 + b) 0 = n := by
  have hr8 : List.range 8 = [0, 1, 2, 3, 4, 5, 6, 7] := by decide
  unfold encodeUint64ToBytes
  rw [hr8]
  refine ⟨rfl, ?_, ?_⟩
  · intro b hb
    simp only [List.map_cons, List.map_nil, List.mem_cons, List.mem_singleton,
      List.not_mem_nil, or_false] at hb
    rcases hb with rfl | rfl | rfl | rfl | rfl | rfl | rfl | rfl <;>
      exact Nat.mod_lt _ (by decide)
  · simp only [List.map_cons, List.map_nil, List.foldl_cons, List.foldl_nil]
    norm_num
    omega

/-- A successful settlement, transaction by transaction: what was built for
the `k`-th contract hash, with the nonce `k + 1` above the decoded one. -/
theorem settlement_built (env : SettlementEnv)
    (args : CreateTransactionDataPayloadFromContractHashesArgs)
    (txs : List JSONTransaction) (total : String)
    (h : settlementTransactions env args = .ok (txs, total)) :
    ∃ key currentNounce transactionFees, ∃ built : List (JSONTransaction × Int),
      env.decodeUint64 args.CurrentNounce = some currentNounce
      ∧ env.decodeBig args.TransactionFeesToBeUsed = some transactionFees
      ∧ built.length = args.ContractHashes.length
      ∧ txs = built.map Prod.fst
      ∧ total = env.encodeBig (built.map Prod.snd).sum
      ∧ ∀ (k : Nat) (v : String), args.ContractHashes[k]? = some v → ∃ b, built[k]? = some b
          ∧ buildTransaction env key transactionFees ((currentNounce + (k + 1)) % 2 ^ 64) v
              = .ok b := by
  obtain ⟨key, c, fees, allFees, hc, hf, hloop, htot⟩ :=
    settlementTransactions_ok env args txs total h
  obtain ⟨built, hlen, hout, hall, hk⟩ := settlementLoop_ok _ _ _ _ _ _ _ _ _ hloop
  refine ⟨key, c, fees, built, hc, hf, hlen, by simpa using hout, ?_, ?_⟩
  · rw [htot, hall]
    simp
  · intro k v hv
    obtain ⟨b, hb1, hb2⟩ := hk k v hv
    refine ⟨b, hb1, ?_⟩
    have hn : (c % 2 ^ 64 + (k + 1)) % 2 ^ 64 = (c + (k + 1)) % 2 ^ 64 := by omega
    rw [← hn]
    exact hb2

/-- Every element of a list sits at some position below the length of a list
of the same length. -/
theorem exists_index_of_mem {α β : Type} (built : List α) (hashes : List β)
    (hlen : built.length = hashes.length) (b : α) (hb : b ∈ built) :
    ∃ (k : Nat) (v : β), hashes[k]? = some v ∧ built[k]? = some b := by
  obtain ⟨k, hk, hkb⟩ := List.mem_iff_getElem.mp hb
  have hk2 : k < hashes.length := hlen ▸ hk
  exact ⟨k, hashes[k], List.getElem?_eq_getElem hk2, by rw [List.getElem?_eq_getElem hk, hkb]⟩

theorem map_eq_filterMap_of_isSome {α β : Type} (f : α → Option β) (l : List α)
    (hall : ∀ x ∈ l, (f x).isSome) : l.map f = (l.filterMap f).map some := by
  induction l with
  | nil => rfl
  | cons x xs ih =>
    have hx := hall x (List.mem_cons_self _ _)
    obtain ⟨y, hy⟩ := Option.isSome_iff_exists.mp hx
    rw [List.map_cons, List.filterMap_cons_some hy, List.map_cons, hy,
      ih (fun z hz => hall z (List.mem_cons_of_mem _ hz))]

/-- C7: in a successful settlement, the transaction built for a stored
contract whose sizes add up to less than `2 ^ 64` and whose fee strings
decode carries the value `hoster fee per byte * sum of the sizes + verifier
fees`, as an unbounded integer rendered by `hexutil.EncodeBig`. -/
theorem settlement_value (env : SettlementEnv)
    (args : CreateTransactionDataPayloadFromContractHashesArgs)
    (txs : List JSONTransaction) (total : String)
    (h : settlementTransactions env args = .ok (txs, total))
    (k : Nat) (v : String) (hv : args.ContractHashes[k]? = some v)
    (downloadContract : DownloadContractProto) (fileHosterFees verifierFees : Int)
    (hget : env.getContract v = some downloadContract)
    (hfee : env.decodeBig downloadContract.FileHosterResponse.FeesPerByte = some fileHosterFees)
    (hver : env.decodeBig downloadContract.VerifierFees = some verifierFees)
    (hsum : downloadContract.FileHashesNeededSizes.sum < 2 ^ 64) :
    ∃ tx, txs[k]? = some tx
      ∧ tx.Value = env.encodeBig
          (fileHosterFees * (downloadContract.FileHashesNeededSizes.sum : Int) + verifierFees) := by
  obtain ⟨key, c, fees, allFees, _, _, hloop, _⟩ := settlementTransactions_ok env args txs total h
  obtain ⟨built, _, hout, _, hk⟩ := settlementLoop_ok _ _ _ _ _ _ _ _ _ hloop
  obtain ⟨b, hb1, hb2⟩ := hk k v hv
  obtain ⟨JSONTx, totalFees⟩ := b
  obtain ⟨dc, f, vf, hdc, hf, hvf, htot, hval, _⟩ := buildTransaction_ok _ _ _ _ _ _ _ hb2
  rw [hget] at hdc
  cases hdc
  rw [hfee] at hf
  cases hf
  rw [hver] at hvf
  cases hvf
  refine ⟨JSONTx, ?_, ?_⟩
  · rw [hout]
    simp [hb1]
  · rw [hval, htot, totalFileSize_eq, Nat.mod_eq_of_lt hsum]

/-- C7, at the sample call: the transaction built for the sample contract
(sizes 100 and 200, fee `0x2`, verifier fees `0x10`) has the value
2 * 300 + 16 = 616, in hexadecimal `0x268`. -/
theorem settlement_value_witness :
    settlementTransactions sampleEnv sampleArgs = .ok ([sampleJSONTx], "0x268")
    ∧ ∃ tx, [sampleJSONTx][0]? = some tx
        ∧ tx.Value = sampleEnv.encodeBig
            (2 * (sampleContract.FileHashesNeededSizes.sum : Int) + 16) :=
  ⟨by rfl,
   settlement_value sampleEnv sampleArgs [sampleJSONTx] "0x268" (by rfl) 0 "0xc1" (by rfl)
     sampleContract 2 16 (by rfl) (by rfl) (by rfl) (by decide)⟩

/-- C8: when the settlement call succeeds, the returned texts are the JSON
forms of the built transactions, one per contract hash, the value fields of
these transactions encode integers whose sum the returned total encodes (zero
for no contract), and each of these integers is `hoster fee per byte * total
size + verifier fees` of its contract: the network transaction fee is no part
of it. -/
theorem settlement_total (env : SettlementEnv)
    (args : CreateTransactionDataPayloadFromContractHashesArgs)
    (resp : CreateTransactionDataPayloadFromContractHashesResponse)
    (h : CreateTransactionsWithDataPayloadFromContractHashes env args = .ok resp) :
    ∃ (txs : List JSONTransaction) (vals : List Int),
      settlementTransactions env args = .ok (txs, resp.TotalFeesForTransactions)
      ∧ txs.map env.marshalJSON = resp.TransactionDataBytesHex.map some
      ∧ txs.map (fun tx => tx.Value) = vals.map env.encodeBig
      ∧ resp.TotalFeesForTransactions = env.encodeBig vals.sum
      ∧ vals.length = args.ContractHashes.length
      ∧ (args.ContractHashes = [] → resp.TotalFeesForTransactions = env.encodeBig 0)
      ∧ ∀ (k : Nat) (v : String), args.ContractHashes[k]? = some v →
          ∃ downloadContract fileHosterFees verifierFees,
            env.getContract v = some downloadContract
            ∧ env.decodeBig downloadContract.FileHosterResponse.FeesPerByte
                = some fileHosterFees
            ∧ env.decodeBig downloadContract.VerifierFees = some verifierFees
            ∧ vals[k]? = some (fileHosterFees
                * (totalFileSize downloadContract.FileHashesNeededSizes : Int) + verifierFees) := by
  unfold CreateTransactionsWithDataPayloadFromContractHashes at h
  cases hs : settlementTransactions env args with
  | error e =>
    rw [hs] at h
    simp at h
  | ok r =>
    obtain ⟨txs, total⟩ := r
    rw [hs] at h
    simp only [Except.ok.injEq] at h
    subst h
    obtain ⟨key, c, fees, built, _, _, hlen, htxs, htot, hk⟩ :=
      settlement_built env args txs total hs
    have hok : ∀ b ∈ built, ∃ n v, buildTransaction env key fees n v = .ok b := by
      intro b hb
      obtain ⟨k, v, hv, hkb⟩ := exists_index_of_mem built args.ContractHashes hlen b hb
      obtain ⟨b1, hb1, hb2⟩ := hk k v hv
      rw [hkb] at hb1
      cases hb1
      exact ⟨_, _, hb2⟩
    refine ⟨txs, built.map Prod.snd, rfl, ?_, ?_, htot, by simp [hlen], ?_, ?_⟩
    · apply map_eq_filterMap_of_isSome
      intro tx htx
      rw [htxs] at htx
      obtain ⟨b, hb, rfl⟩ := List.mem_map.mp htx
      obtain ⟨n, v, hbv⟩ := hok b hb
      obtain ⟨_, _, _, _, _, _, _, _, _, _, _, _, hm⟩ :=
        buildTransaction_ok env key fees n v b.1 b.2 hbv
      exact hm
    · rw [htxs, List.map_map, List.map_map]
      apply List.map_congr_left
      intro b hb
      obtain ⟨n, v, hbv⟩ := hok b hb
      obtain ⟨_, _, _, _, _, _, _, hval, _⟩ := buildTransaction_ok env key fees n v b.1 b.2 hbv
      exact hval
    · intro hnil
      rw [hnil] at hlen
      have hb : built = [] := List.length_eq_zero.mp hlen
      rw [htot, hb]
      rfl
    · intro k v hv
      obtain ⟨b, hb1, hb2⟩ := hk k v hv
      obtain ⟨dc, f, vf, hdc, hf, hvf, htotal, _⟩ :=
        buildTransaction_ok env key fees _ v b.1 b.2 hb2
      refine ⟨dc, f, vf, hdc, hf, hvf, ?_⟩
      rw [List.getElem?_map, hb1, Option.map_some', htotal]

/-- C8, at the sample call: one contract, one returned transaction, total
`0x268`. -/
theorem settlement_total_witness :
    CreateTransactionsWithDataPayloadFromContractHashes sampleEnv sampleArgs
      = .ok ⟨["0x6,0x268,0x1"], "0x268"⟩
    ∧ ∃ (txs : List JSONTransaction) (vals : List Int),
      settlementTransactions sampleEnv sampleArgs = .ok (txs, "0x268")
      ∧ txs.map sampleEnv.marshalJSON = ["0x6,0x268,0x1"].map some
      ∧ txs.map (fun tx => tx.Value) = vals.map sampleEnv.encodeBig
      ∧ "0x268" = sampleEnv.encodeBig vals.sum
      ∧ vals.length = sampleArgs.ContractHashes.length
      ∧ (sampleArgs.ContractHashes = [] → "0x268" = sampleEnv.encodeBig 0)
      ∧ ∀ (k : Nat) (v : String), sampleArgs.ContractHashes[k]? = some v →
          ∃ downloadContract fileHosterFees verifierFees,
            sampleEnv.getContract v = some downloadContract
            ∧ sampleEnv.decodeBig downloadContract.FileHosterResponse.FeesPerByte
                = some fileHosterFees
            ∧ sampleEnv.decodeBig downloadContract.VerifierFees = some verifierFees
            ∧ vals[k]? = some (fileHosterFees
                * (totalFileSize downloadContract.FileHashesNeededSizes : Int) + verifierFees) :=
  ⟨by rfl,
   settlement_total sampleEnv sampleArgs ⟨["0x6,0x268,0x1"], "0x268"⟩ (by rfl)⟩

/-- A successful call of the RPC returns, in order, the JSON text of every
transaction the settlement has built. -/
theorem settlement_reply (env : SettlementEnv)
    (args : CreateTransactionDataPayloadFromContractHashesArgs)
    (resp : CreateTransactionDataPayloadFromContractHashesResponse)
    (h : CreateTransactionsWithDataPayloadFromContractHashes env args = .ok resp) :
    ∃ txs : List JSONTransaction,
      settlementTransactions env args = .ok (txs, resp.TotalFeesForTransactions)
      ∧ txs.map env.marshalJSON = resp.TransactionDataBytesHex.map some := by
  unfold CreateTransactionsWithDataPayloadFromContractHashes at h
  cases hs : settlementTransactions env args with
  | error e =>
    rw [hs] at h
    simp at h
  | ok r =>
    obtain ⟨txs, total⟩ := r
    rw [hs] at h
    simp only [Except.ok.injEq] at h
    subst h
    obtain ⟨key, c, fees, built, _, _, hlen, htxs, _, hk⟩ :=
      settlement_built env args txs total hs
    refine ⟨txs, rfl, ?_⟩
    apply map_eq_filterMap_of_isSome
    intro tx htx
    rw [htxs] at htx
    obtain ⟨b, hb, rfl⟩ := List.mem_map.mp htx
    obtain ⟨k, v, hv, hkb⟩ := exists_index_of_mem built args.ContractHashes hlen b hb
    obtain ⟨b1, hb1, hb2⟩ := hk k v hv
    rw [hkb] at hb1
    cases hb1
    obtain ⟨_, _, _, _, _, _, _, _, _, _, _, _, hm⟩ :=
      buildTransaction_ok env key fees _ v b.1 b.2 hb2
    exact hm

/-- C9: when the RPC succeeds on `n` contract hashes, started from the nonce
`c` with `c + n < 2 ^ 64`, it returns exactly `n` texts, and the `k`-th text
is the JSON form of the transaction built for the `k`-th contract hash (it
pays the verifier of that contract), whose nonce is the eight bytes, most
significant first, of `c + k` (counting `k` from one). -/
theorem settlement_nonces (env : SettlementEnv)
    (args : CreateTransactionDataPayloadFromContractHashesArgs)
    (resp : CreateTransactionDataPayloadFromContractHashesResponse) (c : Nat)
    (h : CreateTransactionsWithDataPayloadFromContractHashes env args = .ok resp)
    (hc : env.decodeUint64 args.CurrentNounce = some c)
    (hbound : c + args.ContractHashes.length < 2 ^ 64) :
    resp.TransactionDataBytesHex.length = args.ContractHashes.length
    ∧ ∀ (k : Nat) (v : String), args.ContractHashes[k]? = some v →
        ∃ (tx : JSONTransaction) (text : String),
          resp.TransactionDataBytesHex[k]? = some text
          ∧ env.marshalJSON tx = some text
          ∧ tx.Nounce = env.encodeUint64BytesToHexString (encodeUint64ToBytes (c + (k + 1)))
          ∧ (encodeUint64ToBytes (c + (k + 1))).length = 8
          ∧ (∀ b ∈ encodeUint64ToBytes (c + (k + 1)), b < 256)
          ∧ (encodeUint64ToBytes (c + (k + 1))).foldl (fun acc b => acc * 256 + b) 0
              = c + (k + 1)
          ∧ ∃ downloadContract, env.getContract v = some downloadContract
              ∧ env.rawPublicToAddress downloadContract.VerifierPublicKey = some tx.To := by
  obtain ⟨txs, hs, hjson⟩ := settlement_reply env args resp h
  obtain ⟨key, c1, fees, built, hc1, _, hlen, htxs, _, hk⟩ :=
    settlement_built env args txs resp.TotalFeesForTransactions hs
  rw [hc] at hc1
  cases hc1
  have hcount : resp.TransactionDataBytesHex.length = args.ContractHashes.length := by
    have := congrArg List.length hjson
    simp only [List.length_map] at this
    rw [← this, htxs, List.length_map, hlen]
  refine ⟨hcount, ?_⟩
  intro k v hv
  obtain ⟨b, hb1, hb2⟩ := hk k v hv
  have hklt : k < args.ContractHashes.length := by
    rcases List.getElem?_eq_some_iff.mp hv with ⟨hlt, _⟩
    exact hlt
  have hlt : c + (k + 1) < 2 ^ 64 := by omega
  rw [Nat.mod_eq_of_lt hlt] at hb2
  obtain ⟨dc, _, _, hdc, _, _, _, _, hnonce, _, _, haddr, _⟩ :=
    buildTransaction_ok env key fees _ v b.1 b.2 hb2
  obtain ⟨h8, h256, hvalue⟩ := encodeUint64ToBytes_value (c + (k + 1)) hlt
  have htx : txs[k]? = some b.1 := by
    rw [htxs, List.getElem?_map, hb1]
    rfl
  have hk2 := congrArg (fun l => l[k]?) hjson
  simp only [List.getElem?_map, htx, Option.map_some'] at hk2
  cases htext : resp.TransactionDataBytesHex[k]? with
  | none =>
    rw [htext] at hk2
    simp at hk2
  | some text =>
    rw [htext] at hk2
    simp only [Option.map_some', Option.some.injEq] at hk2
    exact ⟨b.1, text, rfl, hk2, hnonce, h8, h256, hvalue, dc, hdc, haddr⟩

/-- C9, at the sample call with nonce `0x05`: one text is returned, the JSON
form of a transaction with the nonce bytes `00 00 00 00 00 00 00 06`. -/
theorem settlement_nonces_witness :
    encodeUint64ToBytes (5 + (0 + 1)) = [0, 0, 0, 0, 0, 0, 0, 6]
    ∧ CreateTransactionsWithDataPayloadFromContractHashes sampleEnv sampleArgs
      = .ok ⟨["0x6,0x268,0x1"], "0x268"⟩
    ∧ ["0x6,0x268,0x1"].length = sampleArgs.ContractHashes.length
    ∧ ∀ (k : Nat) (v : String), sampleArgs.ContractHashes[k]? = some v →
        ∃ (tx : JSONTransaction) (text : String),
          ["0x6,0x268,0x1"][k]? = some text
          ∧ sampleEnv.marshalJSON tx = some text
          ∧ tx.Nounce
              = sampleEnv.encodeUint64BytesToHexString (encodeUint64ToBytes (5 + (k + 1)))
          ∧ (encodeUint64ToBytes (5 + (k + 1))).length = 8
          ∧ (∀ b ∈ encodeUint64ToBytes (5 + (k + 1)), b < 256)
          ∧ (encodeUint64ToBytes (5 + (k + 1))).foldl (fun acc b => acc * 256 + b) 0
              = 5 + (k + 1)
          ∧ ∃ downloadContract, sampleEnv.getContract v = some downloadContract
              ∧ sampleEnv.rawPublicToAddress downloadContract.VerifierPublicKey
                  = some tx.To :=
  ⟨by decide, by rfl,
   settlement_nonces sampleEnv sampleArgs ⟨["0x6,0x268,0x1"], "0x268"⟩ 5 (by rfl) (by rfl)
     (by decide)⟩

/-! ## Selection of the signed contracts -/

theorem selectSignedDownloadContracts_eq (pool unsigned selected : List DownloadContractProto) :
    selectSignedDownloadContracts pool unsigned selected
      = selected ++ unsigned.filterMap
          (fun v => pool.find? (fun signedContract => sameNeededHashes v signedContract)) := by
  induction unsigned generalizing selected with
  | nil => simp [selectSignedDownloadContracts]
  | cons v rest ih =>
    unfold selectSignedDownloadContracts
    cases hfind : pool.find? (fun signedContract => sameNeededHashes v signedContract) with
    | none =>
      have hc : (v :: rest).filterMap
          (fun v => pool.find? (fun signedContract => sameNeededHashes v signedContract))
          = rest.filterMap
              (fun v => pool.find? (fun signedContract => sameNeededHashes v signedContract)) :=
        List.filterMap_cons_none hfind
      simp only [ih, hc]
    | some s =>
      have hc : (v :: rest).filterMap
          (fun v => pool.find? (fun signedContract => sameNeededHashes v signedContract))
          = s :: rest.filterMap
              (fun v => pool.find? (fun signedContract => sameNeededHashes v signedContract)) :=
        List.filterMap_cons_some hfind
      simp only [ih, hc]
      simp

theorem storeSelected_eq {σ : Type} (createContract : σ → DownloadContractProto → σ)
    (encode : Bytes → String) (selected : List DownloadContractProto) (store : σ)
    (hashes : List String) :
    storeSelected createContract encode selected store hashes
      = (selected.foldl createContract store,
         hashes ++ selected.map (fun v => encode v.ContractHash)) := by
  induction selected generalizing store hashes with
  | nil => simp [storeSelected]
  | cons v rest ih => simp [storeSelected, ih]

theorem isSome_of_length_filterMap_eq {α β : Type} (f : α → Option β) (l : List α)
    (hlen : (l.filterMap f).length = l.length) : ∀ x ∈ l, (f x).isSome := by
  induction l with
  | nil => intro x hx; exact absurd hx (List.not_mem_nil _)
  | cons a rest ih =>
    cases hfa : f a with
    | none =>
      rw [List.filterMap_cons_none hfa] at hlen
      have := List.length_filterMap_le f rest
      simp only [List.length_cons] at hlen
      omega
    | some b =>
      rw [List.filterMap_cons_some hfa] at hlen
      simp only [List.length_cons, Nat.add_right_cancel_iff] at hlen
      intro x hx
      rcases List.mem_cons.mp hx with rfl | hx
      · simp [hfa]
      · exact ih hlen x hx

/-- C10: when the stage of `CreateContractsFromDataQueryResponses` from the
verifier peers found succeeds on the unsigned contracts `u_1..u_n` and the
shuffled pool, it has
stored, in order, `n` contracts and returned their `n` hashes, and the `i`-th
of them is the first element of the pool whose joined needed hashes equal the
joined needed hashes of `u_i`. -/
theorem contract_selection {σ : Type} (createContract : σ → DownloadContractProto → σ)
    (encode : Bytes → String) (store : σ) (addrsInfos : List String)
    (downloadContracts signedDownloadContracts : List DownloadContractProto)
    (store1 : σ) (contractHashes : List String)
    (h : createContractsFromSigned createContract encode store addrsInfos downloadContracts
      signedDownloadContracts = .ok (store1, contractHashes)) :
    ∃ selected : List DownloadContractProto,
      selected.length = downloadContracts.length
      ∧ store1 = selected.foldl createContract store
      ∧ contractHashes = selected.map (fun v => encode v.ContractHash)
      ∧ ∀ (i : Nat) (u : DownloadContractProto), downloadContracts[i]? = some u →
          ∃ s, selected[i]? = some s
            ∧ signedDownloadContracts.find?
                (fun signedContract =>
                  u.FileHashesNeeded.flatten == signedContract.FileHashesNeeded.flatten)
                = some s
            ∧ s.FileHashesNeeded.flatten = u.FileHashesNeeded.flatten
            ∧ ∃ before after, signedDownloadContracts = before ++ s :: after
                ∧ ∀ a ∈ before, a.FileHashesNeeded.flatten ≠ u.FileHashesNeeded.flatten := by
  unfold createContractsFromSigned at h
  simp only [selectSignedDownloadContracts_eq, List.nil_append, storeSelected_eq] at h
  split at h
  swap
  · simp at h
  split at h
  · simp at h
  · rename_i hlen
    simp only [ne_eq, Decidable.not_not] at hlen
    simp only [Except.ok.injEq, Prod.mk.injEq] at h
    obtain ⟨h1, h2⟩ := h
    refine ⟨_, hlen, h1.symm, h2.symm, ?_⟩
    intro i u hu
    have hsome := isSome_of_length_filterMap_eq _ _ hlen
    have hmap := map_eq_filterMap_of_isSome _ _ hsome
    have hi := congrArg (fun l => l[i]?) hmap
    simp only [List.getElem?_map, hu, Option.map_some'] at hi
    cases hsel : (downloadContracts.filterMap
        (fun v => signedDownloadContracts.find?
          (fun signedContract => sameNeededHashes v signedContract)))[i]? with
    | none =>
      rw [hsel] at hi
      simp at hi
    | some s =>
      rw [hsel] at hi
      simp only [Option.map_some', Option.some.injEq] at hi
      have hfind : signedDownloadContracts.find?
          (fun signedContract =>
            u.FileHashesNeeded.flatten == signedContract.FileHashesNeeded.flatten)
          = some s := hi
      obtain ⟨hp, before, after, hsplit, hbefore⟩ := List.find?_eq_some.mp hfind
      refine ⟨s, rfl, hfind, ?_, before, after, hsplit, ?_⟩
      · exact (beq_iff_eq.mp hp).symm
      · intro a ha heq
        have := hbefore a ha
        simp [heq] at this

/-- C10, at two unsigned contracts and a pool of three signed ones in which
the second unsigned contract has two counterparts: the first of them in the
pool is taken. -/
theorem contract_selection_witness :
    createContractsFromSigned (fun (st : List DownloadContractProto) c => st ++ [c])
        sampleEnv.encode [] ["verifier7", "verifier8"]
        [sampleUnsigned 1 [hashAA, hashBB] [10, 20], sampleUnsigned 2 [hashCC] [30]]
        [sampleSigned (sampleUnsigned 2 [hashCC] [30]) 8,
         sampleSigned (sampleUnsigned 1 [hashAA, hashBB] [10, 20]) 7,
         sampleSigned (sampleUnsigned 2 [hashCC] [30]) 7]
      = .ok ([sampleSigned (sampleUnsigned 1 [hashAA, hashBB] [10, 20]) 7,
              sampleSigned (sampleUnsigned 2 [hashCC] [30]) 8], ["0xc07", "0xc08"])
    ∧ ∃ selected : List DownloadContractProto,
      selected.length = 2
      ∧ [sampleSigned (sampleUnsigned 1 [hashAA, hashBB] [10, 20]) 7,
          sampleSigned (sampleUnsigned 2 [hashCC] [30]) 8]
          = selected.foldl (fun (st : List DownloadContractProto) c => st ++ [c]) []
      ∧ ["0xc07", "0xc08"] = selected.map (fun v => sampleEnv.encode v.ContractHash) :=
  ⟨by rfl, by
    obtain ⟨selected, h1, h2, h3, _⟩ := contract_selection
      (fun (st : List DownloadContractProto) c => st ++ [c]) sampleEnv.encode []
      ["verifier7", "verifier8"]
      [sampleUnsigned 1 [hashAA, hashBB] [10, 20], sampleUnsigned 2 [hashCC] [30]]
      [sampleSigned (sampleUnsigned 2 [hashCC] [30]) 8,
       sampleSigned (sampleUnsigned 1 [hashAA, hashBB] [10, 20]) 7,
       sampleSigned (sampleUnsigned 2 [hashCC] [30]) 7]
      [sampleSigned (sampleUnsigned 1 [hashAA, hashBB] [10, 20]) 7,
       sampleSigned (sampleUnsigned 2 [hashCC] [30]) 8] ["0xc07", "0xc08"] (by rfl)
    exact ⟨selected, h1, h2, h3⟩⟩

theorem length_filterMap_lt_of_none {α β : Type} (f : α → Option β) (l : List α)
    (hnone : ∃ x ∈ l, f x = none) : (l.filterMap f).length < l.length := by
  induction l with
  | nil =>
    obtain ⟨x, hx, _⟩ := hnone
    exact absurd hx (List.not_mem_nil _)
  | cons a rest ih =>
    cases hfa : f a with
    | none =>
      rw [List.filterMap_cons_none hfa]
      have := List.length_filterMap_le f rest
      simp only [List.length_cons]
      omega
    | some b =>
      rw [List.filterMap_cons_some hfa]
      obtain ⟨x, hx, hfx⟩ := hnone
      rcases List.mem_cons.mp hx with rfl | hx
      · rw [hfa] at hfx
        cases hfx
      · have := ih ⟨x, hx, hfx⟩
        simp only [List.length_cons]
        omega

/-- An unsigned contract without counterpart in the pool makes the stage
after the verifier peers were found fail with the incomplete-contracts
error, with the store as it was and no hash in the reply. -/
theorem createContractsFromSignedRun_incomplete {σ : Type}
    (createContract : σ → DownloadContractProto → σ) (encode : Bytes → String) (store : σ)
    (addrsInfos : List String)
    (downloadContracts signedDownloadContracts : List DownloadContractProto)
    (hpeers : addrsInfos ≠ [])
    (hmiss : ∃ u ∈ downloadContracts, ∀ s ∈ signedDownloadContracts,
      s.FileHashesNeeded.flatten ≠ u.FileHashesNeeded.flatten) :
    createContractsFromSignedRun createContract encode store addrsInfos downloadContracts
        signedDownloadContracts = ((store, []), some .incompleteContracts)
    ∧ createContractsFromSigned createContract encode store addrsInfos downloadContracts
        signedDownloadContracts = .error .incompleteContracts := by
  have hpos : addrsInfos.length > 0 := List.length_pos.mpr hpeers
  have hlt : (selectSignedDownloadContracts signedDownloadContracts downloadContracts []).length
      ≠ downloadContracts.length := by
    rw [selectSignedDownloadContracts_eq, List.nil_append]
    apply Nat.ne_of_lt
    apply length_filterMap_lt_of_none
    obtain ⟨u, hu, hno⟩ := hmiss
    refine ⟨u, hu, ?_⟩
    rw [List.find?_eq_none]
    intro s hs hsame
    apply hno s hs
    unfold sameNeededHashes at hsame
    exact (beq_iff_eq.mp hsame).symm
  constructor
  · unfold createContractsFromSignedRun
    simp only [hpos, hlt, ne_eq, not_false_eq_true, if_true]
  · unfold createContractsFromSigned
    simp only [hpos, hlt, ne_eq, not_false_eq_true, if_true]

/-- Without a verifier peer the stage fails with the no-verifiers error,
whatever the unsigned contracts and the pool, with the store as it was and no
hash in the reply. -/
theorem createContractsFromSignedRun_noVerifiers {σ : Type}
    (createContract : σ → DownloadContractProto → σ) (encode : Bytes → String) (store : σ)
    (downloadContracts signedDownloadContracts : List DownloadContractProto) :
    createContractsFromSignedRun createContract encode store [] downloadContracts
        signedDownloadContracts = ((store, []), some .noVerifiers)
    ∧ createContractsFromSigned createContract encode store [] downloadContracts
        signedDownloadContracts = .error .noVerifiers := by
  constructor
  · simp [createContractsFromSignedRun]
  · simp [createContractsFromSigned]

/-- The handler, once the query, its responses, the selection and the public
key of the node are there, is the stage from the verifier peers found, run on
the unsigned contracts of the selection and the pool of the verifiers. -/
theorem CreateContractsFromDataQueryResponses_eq {σ : Type} (env : CreateContractsEnv)
    (createContract : σ → DownloadContractProto → σ)
    (args : CreateContractsFromDataQueryResponsesArgs) (store : σ)
    (requests : DataQueryRequest) (responses : List DataQueryResponse)
    (filesNeeded : List filesNeededInDataQueryResponse) (requesterPubKeyBytes : Bytes)
    (hreq : env.getQueryHistory args.DataQueryRequestHash = some requests)
    (hresp : env.getQueryResponse args.DataQueryRequestHash = some responses)
    (hneeded : getFilesNeededFromDataQueryResponses requests responses = .ok filesNeeded)
    (hkey : env.requesterPublicKeyRaw = some requesterPubKeyBytes) :
    CreateContractsFromDataQueryResponses env createContract args store
      = ⟨(createContractsFromSignedRun createContract env.encode store
            (env.findPeers (verifierPeerIDs env))
            (unsignedDownloadContracts requesterPubKeyBytes filesNeeded)
            (signedDownloadContractsOf env (env.findPeers (verifierPeerIDs env))
              (unsignedDownloadContracts requesterPubKeyBytes filesNeeded))).1.1,
         (createContractsFromSignedRun createContract env.encode store
            (env.findPeers (verifierPeerIDs env))
            (unsignedDownloadContracts requesterPubKeyBytes filesNeeded)
            (signedDownloadContractsOf env (env.findPeers (verifierPeerIDs env))
              (unsignedDownloadContracts requesterPubKeyBytes filesNeeded))).1.2,
         (createContractsFromSignedRun createContract env.encode store
            (env.findPeers (verifierPeerIDs env))
            (unsignedDownloadContracts requesterPubKeyBytes filesNeeded)
            (signedDownloadContractsOf env (env.findPeers (verifierPeerIDs env))
              (unsignedDownloadContracts requesterPubKeyBytes filesNeeded))).2⟩ := by
  unfold CreateContractsFromDataQueryResponses
  simp only [hreq, hresp, hneeded, hkey]

/-- C11, as stated, fails: with no verifier found in the network the pool is
empty and the unsigned contracts have no counterpart, yet the handler returns
the no-verifiers error of line 1165, not the incomplete-contracts error. -/
theorem incomplete_contracts_counterexample :
    ¬ ∀ (env : CreateContractsEnv) (args : CreateContractsFromDataQueryResponsesArgs)
        (store : List DownloadContractProto) (requests : DataQueryRequest)
        (responses : List DataQueryResponse)
        (filesNeeded : List filesNeededInDataQueryResponse) (requesterPubKeyBytes : Bytes),
        env.getQueryHistory args.DataQueryRequestHash = some requests →
        env.getQueryResponse args.DataQueryRequestHash = some responses →
        getFilesNeededFromDataQueryResponses requests responses = .ok filesNeeded →
        env.requesterPublicKeyRaw = some requesterPubKeyBytes →
        (∃ u ∈ unsignedDownloadContracts requesterPubKeyBytes filesNeeded,
          ∀ s ∈ signedDownloadContractsOf env (env.findPeers (verifierPeerIDs env))
              (unsignedDownloadContracts requesterPubKeyBytes filesNeeded),
            s.FileHashesNeeded.flatten ≠ u.FileHashesNeeded.flatten) →
        (CreateContractsFromDataQueryResponses env
          (fun (st : List DownloadContractProto) c => st ++ [c]) args store).error
          = some .incompleteContracts := by
  intro hall
  have hpool : signedDownloadContractsOf sampleContractsEnvNoVerifier
      (sampleContractsEnvNoVerifier.findPeers (verifierPeerIDs sampleContractsEnvNoVerifier))
      (unsignedDownloadContracts [3]
        [⟨sampleResponse 1 [hashAA, hashBB] [10, 20] [hashCC], [hashAA, hashBB], [10, 20]⟩,
         ⟨sampleResponse 2 [hashCC] [30] [hashAA, hashBB], [hashCC], [30]⟩]) = [] := by rfl
  have h := hall sampleContractsEnvNoVerifier ⟨"0xq1"⟩ [sampleContract]
    ⟨[hashAA, hashBB, hashCC]⟩
    [sampleResponse 1 [hashAA, hashBB] [10, 20] [hashCC],
     sampleResponse 2 [hashCC] [30] [hashAA, hashBB]]
    [⟨sampleResponse 1 [hashAA, hashBB] [10, 20] [hashCC], [hashAA, hashBB], [10, 20]⟩,
     ⟨sampleResponse 2 [hashCC] [30] [hashAA, hashBB], [hashCC], [30]⟩]
    [3] (by rfl) (by rfl) (by rfl) (by rfl)
    ⟨_, List.mem_cons_self _ _, by rw [hpool]; intro s hs; exact absurd hs (List.not_mem_nil _)⟩
  have hres : (CreateContractsFromDataQueryResponses sampleContractsEnvNoVerifier
      (fun (st : List DownloadContractProto) c => st ++ [c]) ⟨"0xq1"⟩ [sampleContract]).error
      = some .noVerifiers := by rfl
  rw [hres] at h
  cases h

/-- C11 (amended): once the query, its responses, the selection of the solver
and the public key of the node are there, if some unsigned contract has no
element of the pool with the same joined needed hashes, the handler returns
the incomplete-contracts error when at least one verifier peer was found and
the no-verifiers error when none was found; in both cases the contract store
is the one it started with (no `CreateContract`) and no contract hash is in
the reply. The same holds for the stage from the verifier peers found on
every list of unsigned contracts and every pool. -/
theorem incomplete_contracts_atomic {σ : Type} (env : CreateContractsEnv)
    (createContract : σ → DownloadContractProto → σ)
    (args : CreateContractsFromDataQueryResponsesArgs) (store : σ)
    (requests : DataQueryRequest) (responses : List DataQueryResponse)
    (filesNeeded : List filesNeededInDataQueryResponse) (requesterPubKeyBytes : Bytes)
    (hreq : env.getQueryHistory args.DataQueryRequestHash = some requests)
    (hresp : env.getQueryResponse args.DataQueryRequestHash = some responses)
    (hneeded : getFilesNeededFromDataQueryResponses requests responses = .ok filesNeeded)
    (hkey : env.requesterPublicKeyRaw = some requesterPubKeyBytes)
    (hmiss : ∃ u ∈ unsignedDownloadContracts requesterPubKeyBytes filesNeeded,
      ∀ s ∈ signedDownloadContractsOf env (env.findPeers (verifierPeerIDs env))
          (unsignedDownloadContracts requesterPubKeyBytes filesNeeded),
        s.FileHashesNeeded.flatten ≠ u.FileHashesNeeded.flatten) :
    (env.findPeers (verifierPeerIDs env) ≠ [] →
      CreateContractsFromDataQueryResponses env createContract args store
        = ⟨store, [], some .incompleteContracts⟩)
    ∧ (env.findPeers (verifierPeerIDs env) = [] →
      CreateContractsFromDataQueryResponses env createContract args store
        = ⟨store, [], some .noVerifiers⟩)
    ∧ (∀ (addrsInfos : List String)
        (downloadContracts signedDownloadContracts : List DownloadContractProto),
        (∃ u ∈ downloadContracts, ∀ s ∈ signedDownloadContracts,
          s.FileHashesNeeded.flatten ≠ u.FileHashesNeeded.flatten) →
        createContractsFromSignedRun createContract env.encode store addrsInfos
            downloadContracts signedDownloadContracts
          = ((store, []),
             some (if addrsInfos = [] then ContractsError.noVerifiers
                   else ContractsError.incompleteContracts))) := by
  have heq := CreateContractsFromDataQueryResponses_eq env createContract args store requests
    responses filesNeeded requesterPubKeyBytes hreq hresp hneeded hkey
  refine ⟨?_, ?_, ?_⟩
  · intro hpeers
    rw [heq, (createContractsFromSignedRun_incomplete createContract env.encode store _ _ _
      hpeers hmiss).1]
  · intro hnone
    rw [heq, hnone, (createContractsFromSignedRun_noVerifiers createContract env.encode store
      _ _).1]
  · intro addrsInfos downloadContracts signedDownloadContracts hmiss2
    by_cases hpeers : addrsInfos = []
    · rw [hpeers, if_pos rfl]
      exact (createContractsFromSignedRun_noVerifiers createContract env.encode store _ _).1
    · rw [if_neg hpeers]
      exact (createContractsFromSignedRun_incomplete createContract env.encode store _ _ _
        hpeers hmiss2).1

/-- C11 (amended), at the sample query on a store that already holds one
contract: the verifier found accepts only the contract for `aa` and `bb`, so
the contract for `cc` has no counterpart and the call ends with the
incomplete-contracts error, the store and the reply untouched; with a
verifier that accepts both, two contracts are stored. -/
theorem incomplete_contracts_atomic_witness :
    CreateContractsFromDataQueryResponses sampleContractsEnv
        (fun (st : List DownloadContractProto) c => st ++ [c]) ⟨"0xq1"⟩ [sampleContract]
      = ⟨[sampleContract], [], some .incompleteContracts⟩
    ∧ (CreateContractsFromDataQueryResponses sampleContractsEnvAccepting
        (fun (st : List DownloadContractProto) c => st ++ [c]) ⟨"0xq1"⟩
        [sampleContract]).ContractHashes = ["0xc07", "0xc07"]
    ∧ ((CreateContractsFromDataQueryResponses sampleContractsEnvAccepting
        (fun (st : List DownloadContractProto) c => st ++ [c]) ⟨"0xq1"⟩
        [sampleContract]).store).length = 3 :=
  ⟨(incomplete_contracts_atomic sampleContractsEnv
      (fun (st : List DownloadContractProto) c => st ++ [c]) ⟨"0xq1"⟩ [sampleContract]
      ⟨[hashAA, hashBB, hashCC]⟩
      [sampleResponse 1 [hashAA, hashBB] [10, 20] [hashCC],
       sampleResponse 2 [hashCC] [30] [hashAA, hashBB]]
      [⟨sampleResponse 1 [hashAA, hashBB] [10, 20] [hashCC], [hashAA, hashBB], [10, 20]⟩,
       ⟨sampleResponse 2 [hashCC] [30] [hashAA, hashBB], [hashCC], [30]⟩]
      [3] (by rfl) (by rfl) (by rfl) (by rfl)
      ⟨_, List.mem_cons_of_mem _ (List.mem_cons_self _ _), by decide⟩).1 (by decide),
   by rfl, by rfl⟩

/-! ## The responses named by a selection -/

/-- C12: the solver evaluated on the request `[aa, bb, cc, dd, ee]` with the
valid responses R1 = (`aa`, `dd`, `ee`; `bb`, `cc`), R2 = (`bb`, `ee`; `cc`,
`aa`, `dd`) and R3 = (`cc`; `aa`, `bb`, `dd`, `ee`). The packing loop claims
`bb` while it visits R2 and `cc` while it visits R3, but both entries hold the
address of the loop variable: the selection returned names R3 as the response
of the entry that claims `bb`, and R3 does not offer `bb`. -/
theorem solver_entry_names_last_response :
    (∀ r ∈ [sampleResponse 1 [hashAA, hashDD, hashEE] [1, 4, 5] [hashBB, hashCC],
            sampleResponse 2 [hashBB, hashEE] [2, 5] [hashCC, hashAA, hashDD],
            sampleResponse 3 [hashCC] [3] [hashAA, hashBB, hashDD, hashEE]],
        ResponseInvariant ⟨[hashAA, hashBB, hashCC, hashDD, hashEE]⟩ r)
    ∧ greedyPack
        [sampleResponse 1 [hashAA, hashDD, hashEE] [1, 4, 5] [hashBB, hashCC],
         sampleResponse 2 [hashBB, hashEE] [2, 5] [hashCC, hashAA, hashDD],
         sampleResponse 3 [hashCC] [3] [hashAA, hashBB, hashDD, hashEE]]
        [⟨sampleResponse 1 [hashAA, hashDD, hashEE] [1, 4, 5] [hashBB, hashCC],
          [hashAA, hashDD, hashEE], [1, 4, 5]⟩]
        [hashBB, hashCC]
      = .ok ([⟨sampleResponse 1 [hashAA, hashDD, hashEE] [1, 4, 5] [hashBB, hashCC],
               [hashAA, hashDD, hashEE], [1, 4, 5]⟩,
              ⟨sampleResponse 2 [hashBB, hashEE] [2, 5] [hashCC, hashAA, hashDD],
               [hashBB], [2]⟩,
              ⟨sampleResponse 3 [hashCC] [3] [hashAA, hashBB, hashDD, hashEE],
               [hashCC], [3]⟩], [])
    ∧ getFilesNeededFromDataQueryResponses ⟨[hashAA, hashBB, hashCC, hashDD, hashEE]⟩
        [sampleResponse 1 [hashAA, hashDD, hashEE] [1, 4, 5] [hashBB, hashCC],
         sampleResponse 2 [hashBB, hashEE] [2, 5] [hashCC, hashAA, hashDD],
         sampleResponse 3 [hashCC] [3] [hashAA, hashBB, hashDD, hashEE]]
      = .ok [⟨sampleResponse 1 [hashAA, hashDD, hashEE] [1, 4, 5] [hashBB, hashCC],
              [hashAA, hashDD, hashEE], [1, 4, 5]⟩,
             ⟨sampleResponse 3 [hashCC] [3] [hashAA, hashBB, hashDD, hashEE],
              [hashBB], [2]⟩,
             ⟨sampleResponse 3 [hashCC] [3] [hashAA, hashBB, hashDD, hashEE],
              [hashCC], [3]⟩]
    ∧ hashBB ∉ (sampleResponse 3 [hashCC] [3] [hashAA, hashBB, hashDD, hashEE]).FileHashes := by
  refine ⟨by decide, by rfl, by rfl, by decide⟩

/-! ## The file size of a download -/

/-- Needed hashes other than `fileHash` leave the size found so far. -/
theorem findFileSize_append_of_not_mem (fileHash : Bytes) (pre rest : List Bytes)
    (i : Nat) (sizes : List Nat) (fileSize : Nat) (hpre : fileHash ∉ pre) :
    findFileSize fileHash (pre ++ rest) i sizes fileSize
      = findFileSize fileHash rest (i + pre.length) sizes fileSize := by
  induction pre generalizing i with
  | nil => simp
  | cons p ps ih =>
    have hp : ¬ p = fileHash := fun h => hpre (h ▸ List.mem_cons_self _ _)
    have hps : fileHash ∉ ps := fun h => hpre (List.mem_cons_of_mem _ h)
    simp only [List.cons_append, findFileSize, beq_iff_eq, hp, if_false, List.length_cons]
    show findFileSize fileHash (ps ++ rest) (i + 1) sizes fileSize = _
    rw [ih (i + 1) hps]
    congr 1
    omega

/-- With a size for every needed hash, the loop ends normally: with the size
it started from when `fileHash` is not needed, with one of the sizes when it
is. -/
theorem findFileSize_ok (fileHash : Bytes) (needed : List Bytes) (i : Nat) (sizes : List Nat)
    (fileSize : Nat) (hlen : i + needed.length ≤ sizes.length) :
    ∃ r, findFileSize fileHash needed i sizes fileSize = .ok r
      ∧ (fileHash ∉ needed → r = fileSize) ∧ (fileHash ∈ needed → r ∈ sizes) := by
  induction needed generalizing i fileSize with
  | nil => exact ⟨fileSize, rfl, fun _ => rfl, fun h => absurd h (List.not_mem_nil _)⟩
  | cons v rest ih =>
    simp only [List.length_cons] at hlen
    by_cases hv : v = fileHash
    · have hi : i < sizes.length := by omega
      obtain ⟨r, hr, hnot, hmem⟩ := ih (i + 1) sizes[i] (by omega)
      refine ⟨r, ?_, ?_, ?_⟩
      · simp only [findFileSize, beq_iff_eq, hv, if_true, List.getElem?_eq_getElem hi]
        exact hr
      · intro hnotmem
        exact absurd (hv ▸ List.mem_cons_self _ _) hnotmem
      · intro _
        by_cases hrest : fileHash ∈ rest
        · exact hmem hrest
        · rw [hnot hrest]
          exact List.getElem_mem _
    · obtain ⟨r, hr, hnot, hmem⟩ := ih (i + 1) fileSize (by omega)
      refine ⟨r, ?_, ?_, ?_⟩
      · simp only [findFileSize, beq_iff_eq, hv, if_false]
        exact hr
      · intro hnotmem
        exact hnot (fun h => hnotmem (List.mem_cons_of_mem _ h))
      · intro hm
        rcases List.mem_cons.mp hm with h | h
        · exact absurd h.symm hv
        · exact hmem h

/-- C13, as stated, fails: for the contract with the single needed hash `aa`
of size `2 ^ 63`, `DownloadFile` gives `2 ^ 63` to `SetFileSize`, but the range
planner receives the size converted to `int64`, which is `-2 ^ 63`. -/
theorem download_planner_size_counterexample :
    (DownloadFile
        { sampleDownloadEnv with getContract := fun _ => some sampleHugeContract }
        ⟨"0xc1", "aa", false⟩)
      = ⟨none, [("0xc1", hashAA, 2 ^ 63)],
          some ⟨sampleHugeContract, hashAA, "peer", 2 ^ 63, false⟩, "started"⟩
    ∧ plannerInput ⟨sampleHugeContract, hashAA, "peer", 2 ^ 63, false⟩ = -2 ^ 63
    ∧ sampleHugeContract.FileHashesNeededSizes[0]? = some (2 ^ 63)
    ∧ (-2 ^ 63 : Int) ≠ ((2 ^ 63 : Nat) : Int) := by
  refine ⟨by rfl, by decide, by rfl, by decide⟩

/-- C13 (amended): for a stored contract with as many sizes as needed hashes,
all positive, and a call that gets past the lookup of the contract and the
decoding of the file hash and of the hoster, `DownloadFile` returns the
file-size error exactly when the file hash is not among the needed hashes;
it then calls no `SetFileSize` and starts nothing; when the hash occurs
exactly once, `SetFileSize` and the started download get the size at the same
position, and the range planner gets that size converted to `int64`, the
same number when the size is below `2 ^ 63`. -/
theorem download_file_size (env : DownloadFileEnv) (args : DownloadFileArgs)
    (downloadContract : DownloadContractProto) (fileHash : Bytes) (fileHoster : String)
    (hget : env.getContract args.ContractHash = some downloadContract)
    (hdec : env.decodeNoPrefix args.FileHash = some fileHash)
    (hpeer : env.peerDecode downloadContract.FileHosterResponse.FromPeerAddr = some fileHoster)
    (hlen : downloadContract.FileHashesNeeded.length
      = downloadContract.FileHashesNeededSizes.length)
    (hpos : ∀ size ∈ downloadContract.FileHashesNeededSizes, 0 < size) :
    ((DownloadFile env args).error = some .fileSizeZero
        ↔ fileHash ∉ downloadContract.FileHashesNeeded)
    ∧ ((DownloadFile env args).error = some .fileSizeZero →
        (DownloadFile env args).setFileSizeCalls = []
        ∧ (DownloadFile env args).started = none)
    ∧ (∀ (pre post : List Bytes) (size : Nat),
        downloadContract.FileHashesNeeded = pre ++ fileHash :: post →
        fileHash ∉ pre → fileHash ∉ post →
        downloadContract.FileHashesNeededSizes[pre.length]? = some size →
        DownloadFile env args
          = ⟨none, [(args.ContractHash, fileHash, size)],
              some ⟨downloadContract, fileHash, fileHoster, size, args.ReDownload⟩, "started"⟩
        ∧ plannerInput ⟨downloadContract, fileHash, fileHoster, size, args.ReDownload⟩
            = wrapInt64 (size : Int)
        ∧ (size < 2 ^ 63 →
            plannerInput ⟨downloadContract, fileHash, fileHoster, size, args.ReDownload⟩
              = (size : Int))) := by
  obtain ⟨r, hr, hnot, hmem⟩ := findFileSize_ok fileHash downloadContract.FileHashesNeeded 0
    downloadContract.FileHashesNeededSizes 0 (by omega)
  have hrun : DownloadFile env args
      = if r = 0 then ⟨some .fileSizeZero, [], none, ""⟩
        else ⟨none, [(args.ContractHash, fileHash, r)],
          some ⟨downloadContract, fileHash, fileHoster, r, args.ReDownload⟩, "started"⟩ := by
    simp only [DownloadFile, hget, hdec, hpeer, hr]
  refine ⟨?_, ?_, ?_⟩
  · rw [hrun]
    constructor
    · intro herr hm
      have hrpos := hpos r (hmem hm)
      rw [if_neg (by omega)] at herr
      simp at herr
    · intro hnm
      rw [if_pos (hnot hnm)]
  · intro herr
    rw [hrun] at herr ⊢
    by_cases h0 : r = 0
    · simp [h0]
    · rw [if_neg h0] at herr
      simp at herr
  · intro pre post size hsplit hpre hpost hsize
    have hfind : findFileSize fileHash downloadContract.FileHashesNeeded 0
        downloadContract.FileHashesNeededSizes 0 = .ok size := by
      rw [hsplit, findFileSize_append_of_not_mem _ _ _ _ _ _ hpre]
      simp only [findFileSize, beq_self_eq_true, if_true, Nat.zero_add, hsize]
      have := findFileSize_append_of_not_mem fileHash post [] (pre.length + 1)
        downloadContract.FileHashesNeededSizes size hpost
      rw [List.append_nil] at this
      rw [this]
      rfl
    rw [hfind] at hr
    cases hr
    have hrpos : 0 < r := hpos r (List.getElem?_mem hsize)
    refine ⟨?_, rfl, ?_⟩
    · rw [hrun, if_neg (by omega)]
    · intro hlt
      unfold plannerInput
      apply wrapInt64_eq_self <;> simp only [] <;> omega

/-- C13 (amended), at the sample contract (needed hashes `aa`, `bb` of sizes
100 and 200) and the file `bb`. -/
theorem download_file_size_witness :
    DownloadFile sampleDownloadEnv ⟨"0xc1", "bb", false⟩
      = ⟨none, [("0xc1", hashBB, 200)],
          some ⟨sampleContract, hashBB, "peer", 200, false⟩, "started"⟩
    ∧ plannerInput ⟨sampleContract, hashBB, "peer", 200, false⟩ = 200
    ∧ ((DownloadFile sampleDownloadEnv ⟨"0xc1", "cc", false⟩).error = some .fileSizeZero
        ↔ hashCC ∉ sampleContract.FileHashesNeeded) :=
  ⟨((download_file_size sampleDownloadEnv ⟨"0xc1", "bb", false⟩ sampleContract hashBB "peer"
      (by rfl) (by rfl) (by rfl) (by decide) (by decide)).2.2
      [hashAA] [] 200 (by rfl) (by decide) (by decide) (by rfl)).1,
   by decide,
   (download_file_size sampleDownloadEnv ⟨"0xc1", "cc", false⟩ sampleContract hashCC "peer"
      (by rfl) (by rfl) (by rfl) (by decide) (by decide)).1⟩

/-! ## Authorization of the settlement -/

/-- C14: when the keystore reports an error or does not accept the access
token, the settlement call returns the authorization error, whatever the
nonce decoder, the fee decoder and the contract store would answer: no
transaction and no total is returned. -/
theorem settlement_unauthorized (env : SettlementEnv)
    (args : CreateTransactionDataPayloadFromContractHashesArgs)
    (hno : ∀ key, env.authorized args.AccessToken ≠ .ok (true, key))
    (decodeUint64 : String → Option Nat) (decodeBig : String → Option Int)
    (getContract : String → Option DownloadContractProto) :
    CreateTransactionsWithDataPayloadFromContractHashes
        { env with decodeUint64 := decodeUint64, decodeBig := decodeBig,
                   getContract := getContract } args
      = .error .unauthorized
    ∧ settlementTransactions
        { env with decodeUint64 := decodeUint64, decodeBig := decodeBig,
                   getContract := getContract } args
      = .error .unauthorized
    ∧ CreateTransactionsWithDataPayloadFromContractHashes env args = .error .unauthorized := by
  have key : ∀ (e : SettlementEnv), e.authorized = env.authorized →
      settlementTransactions e args = .error .unauthorized := by
    intro e he
    unfold settlementTransactions
    rw [he]
    cases hauth : env.authorized args.AccessToken with
    | error msg => rfl
    | ok r =>
      obtain ⟨ok, k⟩ := r
      cases ok with
      | false => rfl
      | true => exact absurd hauth (hno k)
  refine ⟨?_, key _ rfl, ?_⟩
  · unfold CreateTransactionsWithDataPayloadFromContractHashes
    rw [key { env with decodeUint64 := decodeUint64, decodeBig := decodeBig,
                       getContract := getContract } rfl]
  · unfold CreateTransactionsWithDataPayloadFromContractHashes
    rw [key env rfl]

/-- C14, at the sample environment with a token the keystore does not
know. -/
theorem settlement_unauthorized_witness :
    CreateTransactionsWithDataPayloadFromContractHashes sampleEnv
        { sampleArgs with AccessToken := "stolen" } = .error .unauthorized :=
  (settlement_unauthorized sampleEnv { sampleArgs with AccessToken := "stolen" }
    (by intro key h; cases h) sampleEnv.decodeUint64 sampleEnv.decodeBig
    sampleEnv.getContract).2.2

/-! ## The size of a selection -/

/-- C15, as stated, fails: on the request of seven hashes with the valid
responses R1 = (`aa`, `bb`, `cc`, `dd`, `ee`; `ff`, `ab`), R2 = (`aa`, `bb`,
`cc`, `ff`; `dd`, `ee`, `ab`) and R3 = (`dd`, `ee`, `ab`; `aa`, `bb`, `cc`,
`ff`) the solver returns three entries (all of R1, then `ff` and `ab` from the
packing loop), although R2 and R3 together offer every requested hash. -/
theorem solver_minimal_cover_counterexample :
    ¬ ∀ (requests : DataQueryRequest) (responses : List DataQueryResponse)
        (selection : List filesNeededInDataQueryResponse),
        getFilesNeededFromDataQueryResponses requests responses = .ok selection →
        ∀ sub : List DataQueryResponse, (∀ r ∈ sub, r ∈ responses) →
          (∀ h ∈ requests.FileHashes, ∃ r ∈ sub, h ∈ r.FileHashes) →
          selection.length ≤ sub.length := by
  intro hall
  have hres : getFilesNeededFromDataQueryResponses
      ⟨[hashAA, hashBB, hashCC, hashDD, hashEE, hashFF, hashAB]⟩
      [sampleResponse 1 [hashAA, hashBB, hashCC, hashDD, hashEE] [1, 2, 3, 4, 5] [hashFF, hashAB],
       sampleResponse 2 [hashAA, hashBB, hashCC, hashFF] [1, 2, 3, 6] [hashDD, hashEE, hashAB],
       sampleResponse 3 [hashDD, hashEE, hashAB] [4, 5, 7] [hashAA, hashBB, hashCC, hashFF]]
      = .ok [⟨sampleResponse 1 [hashAA, hashBB, hashCC, hashDD, hashEE] [1, 2, 3, 4, 5]
                [hashFF, hashAB], [hashAA, hashBB, hashCC, hashDD, hashEE], [1, 2, 3, 4, 5]⟩,
             ⟨sampleResponse 3 [hashDD, hashEE, hashAB] [4, 5, 7]
                [hashAA, hashBB, hashCC, hashFF], [hashFF], [6]⟩,
             ⟨sampleResponse 3 [hashDD, hashEE, hashAB] [4, 5, 7]
                [hashAA, hashBB, hashCC, hashFF], [hashAB], [7]⟩] := by rfl
  have hle := hall _ _ _ hres
    [sampleResponse 2 [hashAA, hashBB, hashCC, hashFF] [1, 2, 3, 6] [hashDD, hashEE, hashAB],
     sampleResponse 3 [hashDD, hashEE, hashAB] [4, 5, 7] [hashAA, hashBB, hashCC, hashFF]]
    (by decide) (by decide)
  simp at hle

/-- The validation phase lets no empty request through to a selection. -/
theorem getFilesNeededFromSorted_ok_inv (requests : DataQueryRequest)
    (responses copyResponses : List DataQueryResponse)
    (selection : List filesNeededInDataQueryResponse)
    (h : getFilesNeededFromSorted requests responses copyResponses = .ok selection) :
    requests.FileHashes ≠ []
    ∧ ∃ filesNeeded, filesNeeded.length ≠ 0
        ∧ selectFromSorted requests filesNeeded copyResponses = .ok selection := by
  unfold getFilesNeededFromSorted at h
  cases hval : validateRequest responses requests.FileHashes [] with
  | error e =>
    rw [hval] at h
    simp at h
  | ok m =>
    rw [hval] at h
    simp only at h
    have hm : m.length ≠ 0 := by
      intro h0
      simp [selectFromSorted, h0] at h
    refine ⟨?_, m, hm, h⟩
    intro hnil
    rw [hnil] at hval
    simp only [validateRequest, Except.ok.injEq] at hval
    rw [← hval] at hm
    exact hm rfl

/-- C15 (amended): on responses whose offered and unavailable hashes are
disjoint and whose unavailable hashes are drawn from the request, a selection
of at most two entries is minimal: no list of fewer of the given responses
offers every requested hash, whatever order the sort produces. -/
theorem solver_minimal_up_to_two (requests : DataQueryRequest)
    (responses copyResponses : List DataQueryResponse)
    (hsort : IsSortSliceOf copyResponses responses)
    (hinv : ∀ r ∈ responses, (∀ h ∈ r.FileHashes, h ∉ r.UnavailableFileHashes)
      ∧ (∀ h ∈ r.UnavailableFileHashes, h ∈ requests.FileHashes))
    (selection : List filesNeededInDataQueryResponse)
    (hsel : getFilesNeededFromSorted requests responses copyResponses = .ok selection)
    (htwo : selection.length ≤ 2)
    (sub : List DataQueryResponse) (hsub : ∀ r ∈ sub, r ∈ responses)
    (hcover : ∀ h ∈ requests.FileHashes, ∃ r ∈ sub, h ∈ r.FileHashes) :
    selection.length ≤ sub.length := by
  obtain ⟨hne, m, hm, hselect⟩ := getFilesNeededFromSorted_ok_inv _ _ _ _ hsel
  match hs : sub with
  | [] =>
    obtain ⟨h, hh⟩ := List.exists_mem_of_ne_nil _ hne
    obtain ⟨r, hr, _⟩ := hcover h hh
    exact absurd hr (List.not_mem_nil _)
  | _ :: _ :: _ =>
    simp only [List.length_cons]
    omega
  | [r] =>
    have hr : r ∈ responses := hsub r (List.mem_singleton_self r)
    have hall : ∀ h ∈ requests.FileHashes, h ∈ r.FileHashes := by
      intro h hh
      obtain ⟨r1, hr1, hmem⟩ := hcover h hh
      rw [List.mem_singleton.mp hr1] at hmem
      exact hmem
    have hun : r.UnavailableFileHashes = [] := by
      cases hu : r.UnavailableFileHashes with
      | nil => rfl
      | cons u us =>
        have humem : u ∈ r.UnavailableFileHashes := by
          rw [hu]
          exact List.mem_cons_self _ _
        exact absurd humem ((hinv r hr).1 u (hall u ((hinv r hr).2 u humem)))
    have hrc : r ∈ copyResponses := hsort.1.mem_iff.mpr hr
    cases hcopy : copyResponses with
    | nil =>
      rw [hcopy] at hrc
      exact absurd hrc (List.not_mem_nil _)
    | cons first rest =>
      have hfirst : first.UnavailableFileHashes.length = 0 := by
        rw [hcopy] at hrc
        rcases List.mem_cons.mp hrc with rfl | hrest
        · simp [hun]
        · have hsorted := hsort.2
          rw [hcopy] at hsorted
          have hle : lessEqUnavailable first r := List.rel_of_sorted_cons hsorted r hrest
          unfold lessEqUnavailable at hle
          rw [hun] at hle
          simpa using hle
      rw [hcopy] at hselect
      simp only [selectFromSorted, hm, if_false, hfirst, if_true, Except.ok.injEq] at hselect
      rw [← hselect]
      simp

/-- C15 (amended), at the two-hoster request `[aa, bb, cc]` with R1 = (`aa`,
`bb`; `cc`) and R2 = (`cc`; `aa`, `bb`): the selection of two entries is no
longer than the cover by both responses. -/
theorem solver_minimal_up_to_two_witness :
    getFilesNeededFromSorted ⟨[hashAA, hashBB, hashCC]⟩
        [sampleResponse 1 [hashAA, hashBB] [10, 20] [hashCC],
         sampleResponse 2 [hashCC] [30] [hashAA, hashBB]]
        (sortSlice [sampleResponse 1 [hashAA, hashBB] [10, 20] [hashCC],
                    sampleResponse 2 [hashCC] [30] [hashAA, hashBB]])
      = .ok [⟨sampleResponse 1 [hashAA, hashBB] [10, 20] [hashCC], [hashAA, hashBB], [10, 20]⟩,
             ⟨sampleResponse 2 [hashCC] [30] [hashAA, hashBB], [hashCC], [30]⟩]
    ∧ [(⟨sampleResponse 1 [hashAA, hashBB] [10, 20] [hashCC], [hashAA, hashBB], [10, 20]⟩ :
          filesNeededInDataQueryResponse),
        ⟨sampleResponse 2 [hashCC] [30] [hashAA, hashBB], [hashCC], [30]⟩].length
      ≤ [sampleResponse 1 [hashAA, hashBB] [10, 20] [hashCC],
         sampleResponse 2 [hashCC] [30] [hashAA, hashBB]].length :=
  ⟨by rfl,
   solver_minimal_up_to_two ⟨[hashAA, hashBB, hashCC]⟩
      [sampleResponse 1 [hashAA, hashBB] [10, 20] [hashCC],
       sampleResponse 2 [hashCC] [30] [hashAA, hashBB]]
      (sortSlice [sampleResponse 1 [hashAA, hashBB] [10, 20] [hashCC],
                  sampleResponse 2 [hashCC] [30] [hashAA, hashBB]])
      (sortSlice_isSortSliceOf _) (by decide)
      [⟨sampleResponse 1 [hashAA, hashBB] [10, 20] [hashCC], [hashAA, hashBB], [10, 20]⟩,
       ⟨sampleResponse 2 [hashCC] [30] [hashAA, hashBB], [hashCC], [30]⟩]
      (by rfl) (by decide)
      [sampleResponse 1 [hashAA, hashBB] [10, 20] [hashCC],
       sampleResponse 2 [hashCC] [30] [hashAA, hashBB]]
      (by decide) (by decide)⟩

/-! ## The plan of a download and its transfer requests -/

/-- A fresh plan has nothing downloaded, for every argument. -/
theorem createFileRanges_availableSize (fileSize : Int) :
    ∀ r ∈ createFileRanges fileSize, r.availableSize = 0 := by
  intro r hr
  unfold createFileRanges at hr
  simp only at hr
  split at hr
  · simp only [List.mem_singleton] at hr
    rw [hr]
  · obtain ⟨i, _, hi⟩ := List.mem_map.mp hr
    rw [← hi]

/-- C16: when `getDownloadedPartsInfo` fails, or returns a number of parts
other than the number of planned ranges, the reconciliation leaves the plan
as it is; the plan of the download is then the fresh plan of
`createFileRanges`, every range with downloaded size 0. -/
theorem reconcile_disabled (plan : List FileRanges) (job : DownloadJob)
    (parts : Except String (List FileRanges))
    (hmis : ∀ fromParts, parts = .ok fromParts → plan.length ≠ fromParts.length) :
    reconcile plan parts = plan
    ∧ (plan = createFileRanges (plannerInput job) →
        downloadPlan job parts = createFileRanges (plannerInput job)
        ∧ ∀ r ∈ downloadPlan job parts, r.availableSize = 0) := by
  have hrec : reconcile plan parts = plan := by
    cases parts with
    | error e => rfl
    | ok fromParts =>
      have := hmis fromParts rfl
      simp [reconcile, this]
  refine ⟨hrec, ?_⟩
  intro hplan
  have hd : downloadPlan job parts = createFileRanges (plannerInput job) := by
    unfold downloadPlan
    rw [← hplan]
    exact hrec
  refine ⟨hd, ?_⟩
  rw [hd]
  exact createFileRanges_availableSize _

/-- C16, at the download of 20 bytes with a single part file on disk, and
with a directory that cannot be read. -/
theorem reconcile_disabled_witness :
    (reconcile (createFileRanges 20) (.ok [⟨0, 4, 3⟩]) = createFileRanges 20
      ∧ (createFileRanges 20 = createFileRanges (plannerInput sampleJob) →
          downloadPlan sampleJob (.ok [⟨0, 4, 3⟩]) = createFileRanges (plannerInput sampleJob)
          ∧ ∀ r ∈ downloadPlan sampleJob (.ok [⟨0, 4, 3⟩]), r.availableSize = 0))
    ∧ (reconcile (createFileRanges 20) (.error "no such directory") = createFileRanges 20
      ∧ (createFileRanges 20 = createFileRanges (plannerInput sampleJob) →
          downloadPlan sampleJob (.error "no such directory")
            = createFileRanges (plannerInput sampleJob)
          ∧ ∀ r ∈ downloadPlan sampleJob (.error "no such directory"), r.availableSize = 0)) :=
  ⟨reconcile_disabled (createFileRanges 20) sampleJob (.ok [⟨0, 4, 3⟩])
      (by intro fromParts h; cases h; decide),
   reconcile_disabled (createFileRanges 20) sampleJob (.error "no such directory")
      (by intro fromParts h; cases h)⟩

/-- A range that counts as downloaded, without `int64` wrap-around. -/
theorem alreadyDownloaded_iff (v : FileRanges) (hle : v.from_ ≤ v.to_)
    (hlen : v.to_ - v.from_ + 1 < 2 ^ 63) :
    alreadyDownloaded v = true ↔ v.availableSize = v.to_ - v.from_ + 1 := by
  unfold alreadyDownloaded
  rw [wrapInt64_eq_self (v.to_ - v.from_) (by omega) (by omega),
    wrapInt64_eq_self (v.to_ - v.from_ + 1) (by omega) hlen, beq_iff_eq]
  constructor <;> intro h <;> exact h.symm

/-- The requests of a plan without `int64` wrap-around in the lengths: one for
every range whose downloaded size differs from its length, in plan order. -/
theorem transferRequests_eq (contractHash fileHash : Bytes) (fileSize : Nat)
    (plan : List FileRanges)
    (hb : ∀ v ∈ plan, v.from_ ≤ v.to_ ∧ v.to_ - v.from_ + 1 < 2 ^ 63) :
    transferRequests contractHash fileHash fileSize plan
      = (plan.filter (fun v => decide (v.availableSize ≠ v.to_ - v.from_ + 1))).map
          (fun v => ⟨contractHash, fileHash, fileSize,
            wrapInt64 (v.from_ + v.availableSize), v.to_⟩) := by
  induction plan with
  | nil => rfl
  | cons v rest ih =>
    obtain ⟨h2, h4⟩ := hb v (List.mem_cons_self _ _)
    have ih1 := ih (fun w hw => hb w (List.mem_cons_of_mem _ hw))
    unfold transferRequests at ih1 ⊢
    by_cases hd : v.availableSize = v.to_ - v.from_ + 1
    · have ha : alreadyDownloaded v = true := (alreadyDownloaded_iff v h2 h4).mpr hd
      rw [List.filterMap_cons_none (by simp [ha]), ih1, List.filter_cons_of_neg (by simp [hd])]
    · have ha : alreadyDownloaded v = false := by
        cases hc : alreadyDownloaded v with
        | false => rfl
        | true => exact absurd ((alreadyDownloaded_iff v h2 h4).mp hc) hd
      rw [List.filterMap_cons_some (by simp [ha]; rfl), ih1,
        List.filter_cons_of_pos (by simp [hd]), List.map_cons]

/-- The requests of a plan in which no range is complete: one per range. -/
theorem transferRequests_all (contractHash fileHash : Bytes) (fileSize : Nat)
    (plan : List FileRanges)
    (hb : ∀ v ∈ plan, 0 ≤ v.from_ ∧ v.from_ ≤ v.to_ ∧ v.to_ + 1 < 2 ^ 63
      ∧ 0 ≤ v.availableSize ∧ v.availableSize < v.to_ - v.from_ + 1) :
    transferRequests contractHash fileHash fileSize plan
      = plan.map (fun v => ⟨contractHash, fileHash, fileSize,
          v.from_ + v.availableSize, v.to_⟩) := by
  rw [transferRequests_eq contractHash fileHash fileSize plan
    (fun v hv => ⟨(hb v hv).2.1, by have := hb v hv; omega⟩)]
  have hfilter : plan.filter (fun v => decide (v.availableSize ≠ v.to_ - v.from_ + 1)) = plan := by
    rw [List.filter_eq_self]
    intro v hv
    have := hb v hv
    simp only [ne_eq, decide_not, Bool.not_eq_true', decide_eq_false_iff_not]
    omega
  rw [hfilter]
  apply List.map_congr_left
  intro v hv
  have := hb v hv
  rw [wrapInt64_eq_self] <;> omega

/-- The fresh plan of a file of at least one byte: ranges with `0 ≤ from ≤
to`, nothing downloaded, pairwise distinct bounds. -/
theorem createFileRanges_valid (fileSize : Int) (hpos : 1 ≤ fileSize)
    (hhi : fileSize < 2 ^ 63) :
    (∀ r ∈ createFileRanges fileSize, 0 ≤ r.from_ ∧ r.from_ ≤ r.to_ ∧ r.to_ + 1 < 2 ^ 63
      ∧ r.availableSize = 0)
    ∧ ((createFileRanges fileSize).map FileRanges.bounds).Nodup := by
  obtain ⟨r, hr, _, hr2, _, hnn, _⟩ := tdiv_four_spec fileSize
  obtain ⟨hr0, hc0⟩ := hnn (by omega)
  obtain ⟨hzero, hnonzero⟩ := createFileRanges_eq fileSize (by omega) hhi
  have hw : wrapInt64 (fileSize - 1) = fileSize - 1 := by
    rw [wrapInt64_eq_self] <;> omega
  by_cases hc : Int.tdiv fileSize 4 = 0
  · rw [hzero hc, hw]
    constructor
    · intro q hq
      simp only [List.mem_singleton] at hq
      subst hq
      refine ⟨?_, ?_, ?_, rfl⟩ <;> simp only <;> omega
    · simp
  · rw [hnonzero hc, hw]
    generalize Int.tdiv fileSize 4 = c at *
    have hc1 : 1 ≤ c := by omega
    constructor
    · intro q hq
      simp only [List.mem_cons, List.mem_singleton, List.not_mem_nil, or_false] at hq
      rcases hq with rfl | rfl | rfl | rfl <;>
        refine ⟨?_, ?_, ?_, rfl⟩ <;> simp only <;> omega
    · simp only [List.map_cons, List.map_nil, FileRanges.bounds, List.nodup_cons,
        List.mem_cons, List.mem_singleton, List.not_mem_nil, or_false, Prod.mk.injEq,
        not_or, not_and, List.nodup_nil, and_true, not_false_eq_true]
      omega

/-- C17, as stated, fails: with the parts `[0,4]` of size 7 and `[5,9]` of
size 5 on disk for a file of 20 bytes, the range `[0,4]`, whose downloaded
size 7 is not below its length 5, gets a request, from 7 to 4; only `[5,9]`
is skipped. -/
theorem transfer_requests_counterexample :
    reconcile (createFileRanges 20)
        (.ok [⟨0, 4, 7⟩, ⟨5, 9, 5⟩, ⟨10, 14, 0⟩, ⟨15, 19, 0⟩])
      = [⟨0, 4, 7⟩, ⟨5, 9, 5⟩, ⟨10, 14, 0⟩, ⟨15, 19, 0⟩]
    ∧ transferRequests [0xc1] hashAA 20
        (reconcile (createFileRanges 20)
          (.ok [⟨0, 4, 7⟩, ⟨5, 9, 5⟩, ⟨10, 14, 0⟩, ⟨15, 19, 0⟩]))
      = [⟨[0xc1], hashAA, 20, 7, 4⟩, ⟨[0xc1], hashAA, 20, 10, 14⟩,
         ⟨[0xc1], hashAA, 20, 15, 19⟩]
    ∧ ¬ ((7 : Int) < 4 - 0 + 1) ∧ ¬ ((7 : Int) ≤ 4) := by
  refine ⟨by decide, by decide, by decide, by decide⟩

/-- C17 (amended): for a plan of ranges with `0 ≤ from ≤ to` and a length
below `2 ^ 63`, a transfer request is issued for exactly the ranges whose
downloaded size differs from `to - from + 1`, in plan order, from `from +
downloaded size` (in `int64`) to `to`; a range with downloaded size `to -
from + 1` is skipped; and for a range with `0 ≤ downloaded size < to - from +
1` the request satisfies `from ≤ request.From = from + downloaded size ≤
request.To = to`. -/
theorem transfer_requests_spec (contractHash fileHash : Bytes) (fileSize : Nat)
    (plan : List FileRanges)
    (hb : ∀ v ∈ plan, 0 ≤ v.from_ ∧ v.from_ ≤ v.to_ ∧ v.to_ < 2 ^ 63
      ∧ v.to_ - v.from_ + 1 < 2 ^ 63) :
    transferRequests contractHash fileHash fileSize plan
      = (plan.filter (fun v => decide (v.availableSize ≠ v.to_ - v.from_ + 1))).map
          (fun v => ⟨contractHash, fileHash, fileSize,
            wrapInt64 (v.from_ + v.availableSize), v.to_⟩)
    ∧ (∀ v ∈ plan, v.availableSize = v.to_ - v.from_ + 1 →
        transferRequests contractHash fileHash fileSize [v] = [])
    ∧ (∀ v ∈ plan, 0 ≤ v.availableSize → v.availableSize < v.to_ - v.from_ + 1 →
        (⟨contractHash, fileHash, fileSize, v.from_ + v.availableSize, v.to_⟩ :
            FileTransferInfoProto) ∈ transferRequests contractHash fileHash fileSize plan
        ∧ v.from_ ≤ v.from_ + v.availableSize ∧ v.from_ + v.availableSize ≤ v.to_) := by
  have hlist := transferRequests_eq contractHash fileHash fileSize plan
    (fun v hv => ⟨(hb v hv).2.1, (hb v hv).2.2.2⟩)
  refine ⟨hlist, ?_, ?_⟩
  · intro v hv hd
    obtain ⟨_, h2, _, h4⟩ := hb v hv
    have ha : alreadyDownloaded v = true := (alreadyDownloaded_iff v h2 h4).mpr hd
    simp [transferRequests, ha]
  · intro v hv h0 hlt
    obtain ⟨h1, h2, h3, _⟩ := hb v hv
    refine ⟨?_, by omega, by omega⟩
    rw [hlist, List.mem_map]
    refine ⟨v, ?_, ?_⟩
    · rw [List.mem_filter]
      exact ⟨hv, by simp; omega⟩
    · rw [wrapInt64_eq_self] <;> omega

/-- C17 (amended), at the plan of a 20-byte file with the parts `[0,4]` of
size 3 and `[5,9]` of size 5: requests from 3 to 4, from 10 to 14 and from 15
to 19. -/
theorem transfer_requests_spec_witness :
    transferRequests [0xc1] hashAA 20
        [⟨0, 4, 3⟩, ⟨5, 9, 5⟩, ⟨10, 14, 0⟩, ⟨15, 19, 0⟩]
      = [⟨[0xc1], hashAA, 20, 3, 4⟩, ⟨[0xc1], hashAA, 20, 10, 14⟩,
         ⟨[0xc1], hashAA, 20, 15, 19⟩]
    ∧ ((⟨[0xc1], hashAA, 20, 0 + 3, 4⟩ : FileTransferInfoProto)
        ∈ transferRequests [0xc1] hashAA 20
            [⟨0, 4, 3⟩, ⟨5, 9, 5⟩, ⟨10, 14, 0⟩, ⟨15, 19, 0⟩]
      ∧ (0 : Int) ≤ 0 + 3 ∧ (0 : Int) + 3 ≤ 4) :=
  ⟨by decide,
   (transfer_requests_spec [0xc1] hashAA 20
      [⟨0, 4, 3⟩, ⟨5, 9, 5⟩, ⟨10, 14, 0⟩, ⟨15, 19, 0⟩] (by decide)).2.2
      ⟨0, 4, 3⟩ (by decide) (by decide) (by decide)⟩

/-- C18, as stated, fails: for the file of 20 bytes with the single part file
`[0,4]` of size 3 on disk, the number of parts (1) differs from the number of
planned ranges (4), the reconciliation is skipped, and the requests are
`(0,4)`, `(5,9)`, `(10,14)`, `(15,19)`: the first one is not `(3,4)`. -/
theorem resume_requests_counterexample :
    plannerInput sampleJob = 20
    ∧ transferRequests sampleJob.downloadContract.ContractHash sampleJob.fileHash
        sampleJob.fileSize (downloadPlan sampleJob (.ok [⟨0, 4, 3⟩]))
      = [⟨[0xc1], hashAA, 20, 0, 4⟩, ⟨[0xc1], hashAA, 20, 5, 9⟩,
         ⟨[0xc1], hashAA, 20, 10, 14⟩, ⟨[0xc1], hashAA, 20, 15, 19⟩]
    ∧ (⟨[0xc1], hashAA, 20, 0, 4⟩ : FileTransferInfoProto) ≠ ⟨[0xc1], hashAA, 20, 3, 4⟩ := by
  refine ⟨by decide, by decide, by decide⟩

/-- C18 (amended): for a file of `1 ≤ size < 2 ^ 63` bytes, when the number
of discovered parts differs from the number of planned ranges (part files for
only some of the ranges), every planned range is requested in full; when the
discovered parts carry exactly the bounds of the planned ranges and each is
smaller than its range, every range `r` is requested from `r.from` plus the
size of its part to `r.to`. -/
theorem resume_requests (job : DownloadJob) (hpos : 1 ≤ job.fileSize)
    (hlt : job.fileSize < 2 ^ 63) (fromParts : List FileRanges) :
    (fromParts.length ≠ (createFileRanges (job.fileSize : Int)).length →
      transferRequests job.downloadContract.ContractHash job.fileHash job.fileSize
          (downloadPlan job (.ok fromParts))
        = (createFileRanges (job.fileSize : Int)).map (fun r =>
            ⟨job.downloadContract.ContractHash, job.fileHash, job.fileSize, r.from_, r.to_⟩))
    ∧ ((fromParts.map FileRanges.bounds).Perm
          ((createFileRanges (job.fileSize : Int)).map FileRanges.bounds) →
        (∀ q ∈ fromParts, 0 ≤ q.availableSize ∧ q.availableSize < q.to_ - q.from_ + 1) →
        transferRequests job.downloadContract.ContractHash job.fileHash job.fileSize
            (downloadPlan job (.ok fromParts))
          = (downloadPlan job (.ok fromParts)).map (fun r =>
              ⟨job.downloadContract.ContractHash, job.fileHash, job.fileSize,
                r.from_ + r.availableSize, r.to_⟩)
        ∧ (downloadPlan job (.ok fromParts)).map FileRanges.bounds
            = (createFileRanges (job.fileSize : Int)).map FileRanges.bounds
        ∧ ∀ r ∈ downloadPlan job (.ok fromParts), ∃ q ∈ fromParts,
            q.bounds = r.bounds ∧ r.availableSize = q.availableSize) := by
  have hin : plannerInput job = (job.fileSize : Int) := by
    unfold plannerInput
    apply wrapInt64_eq_self <;> omega
  obtain ⟨hvalid, hnodup⟩ := createFileRanges_valid (job.fileSize : Int) (by omega) (by omega)
  constructor
  · intro hmis
    have hplan : downloadPlan job (.ok fromParts) = createFileRanges (job.fileSize : Int) := by
      unfold downloadPlan
      rw [hin]
      simp [reconcile, Ne.symm hmis]
    rw [hplan, transferRequests_all _ _ _ _ (fun v hv => by
      obtain ⟨h1, h2, h3, h4⟩ := hvalid v hv
      exact ⟨h1, h2, h3, by omega, by omega⟩)]
    apply List.map_congr_left
    intro v hv
    rw [(hvalid v hv).2.2.2, Int.add_zero]
  · intro hperm hsmall
    have hlen : (createFileRanges (job.fileSize : Int)).length = fromParts.length := by
      have := hperm.length_eq
      simpa using this.symm
    have hnd : (fromParts.map FileRanges.bounds).Nodup := hperm.nodup_iff.mpr hnodup
    have hplan : downloadPlan job (.ok fromParts)
        = (createFileRanges (job.fileSize : Int)).map (fun v => reconcileRange v fromParts) := by
      unfold downloadPlan
      rw [hin]
      simp [reconcile, hlen]
    have hb : ∀ v, (reconcileRange v fromParts).bounds = v.bounds :=
      fun v => reconcileFold_bounds v fromParts v
    have hpart : ∀ r ∈ downloadPlan job (.ok fromParts),
        ∃ v ∈ createFileRanges (job.fileSize : Int), ∃ q ∈ fromParts,
          r.bounds = v.bounds ∧ q.bounds = r.bounds ∧ r.availableSize = q.availableSize := by
      intro r hr
      rw [hplan] at hr
      obtain ⟨v, hv, rfl⟩ := List.mem_map.mp hr
      have hvb : v.bounds ∈ fromParts.map FileRanges.bounds :=
        hperm.mem_iff.mpr (List.mem_map_of_mem _ hv)
      obtain ⟨q, hq, hqb⟩ := List.mem_map.mp hvb
      exact ⟨v, hv, q, hq, hb v, by rw [hb v, hqb],
        reconcileFold_match v fromParts v q hnd hq hqb⟩
    refine ⟨?_, ?_, ?_⟩
    · apply transferRequests_all
      intro r hr
      obtain ⟨v, hv, q, hq, hrv, hqr, hsize⟩ := hpart r hr
      obtain ⟨h1, h2, h3, _⟩ := hvalid v hv
      obtain ⟨h5, h6⟩ := hsmall q hq
      have hf : r.from_ = v.from_ := congrArg Prod.fst hrv
      have ht : r.to_ = v.to_ := congrArg Prod.snd hrv
      have hf2 : q.from_ = r.from_ := congrArg Prod.fst hqr
      have ht2 : q.to_ = r.to_ := congrArg Prod.snd hqr
      refine ⟨?_, ?_, ?_, ?_, ?_⟩ <;> omega
    · rw [hplan, List.map_map]
      apply List.map_congr_left
      intro v _
      exact hb v
    · intro r hr
      obtain ⟨_, _, q, hq, _, hqr, hsize⟩ := hpart r hr
      exact ⟨q, hq, hqr, hsize⟩

/-- C18 (amended), at the file of 20 bytes: with the single part `[0,4]` of
size 3 every range is requested in full; with a part for every range, of the
sizes 3, 0, 2 and 0, the requests are `(3,4)`, `(5,9)`, `(12,14)`, `(15,19)`. -/
theorem resume_requests_witness :
    transferRequests sampleJob.downloadContract.ContractHash sampleJob.fileHash
        sampleJob.fileSize (downloadPlan sampleJob (.ok [⟨0, 4, 3⟩]))
      = (createFileRanges (sampleJob.fileSize : Int)).map (fun r =>
          ⟨sampleJob.downloadContract.ContractHash, sampleJob.fileHash, sampleJob.fileSize,
            r.from_, r.to_⟩)
    ∧ transferRequests sampleJob.downloadContract.ContractHash sampleJob.fileHash
        sampleJob.fileSize
        (downloadPlan sampleJob (.ok [⟨0, 4, 3⟩, ⟨5, 9, 0⟩, ⟨10, 14, 2⟩, ⟨15, 19, 0⟩]))
      = (downloadPlan sampleJob
          (.ok [⟨0, 4, 3⟩, ⟨5, 9, 0⟩, ⟨10, 14, 2⟩, ⟨15, 19, 0⟩])).map (fun r =>
          ⟨sampleJob.downloadContract.ContractHash, sampleJob.fileHash, sampleJob.fileSize,
            r.from_ + r.availableSize, r.to_⟩)
    ∧ transferRequests sampleJob.downloadContract.ContractHash sampleJob.fileHash
        sampleJob.fileSize
        (downloadPlan sampleJob (.ok [⟨0, 4, 3⟩, ⟨5, 9, 0⟩, ⟨10, 14, 2⟩, ⟨15, 19, 0⟩]))
      = [⟨[0xc1], hashAA, 20, 3, 4⟩, ⟨[0xc1], hashAA, 20, 5, 9⟩,
         ⟨[0xc1], hashAA, 20, 12, 14⟩, ⟨[0xc1], hashAA, 20, 15, 19⟩] :=
  ⟨(resume_requests sampleJob (by decide) (by decide) [⟨0, 4, 3⟩]).1 (by decide),
   ((resume_requests sampleJob (by decide) (by decide)
      [⟨0, 4, 3⟩, ⟨5, 9, 0⟩, ⟨10, 14, 2⟩, ⟨15, 19, 0⟩]).2 (by decide) (by decide)).1,
   by decide⟩

/-! ## The settlement scenario -/

/-- C19, as stated, fails: in the scenario (sizes 100 and 200, fee per byte
`0x2`, verifier fees `0x10`, nonce `0x05`, transaction fees `0x1`) the one
transaction built has the value field `0x268`, which is 616 = 2 * 300 + 16,
and not `0x260`, which is 608. -/
theorem settlement_scenario_counterexample :
    sampleContract.FileHashesNeededSizes = [100, 200]
    ∧ sampleContract.FileHosterResponse.FeesPerByte = "0x2"
    ∧ sampleContract.VerifierFees = "0x10"
    ∧ sampleArgs.CurrentNounce = "0x05"
    ∧ sampleArgs.TransactionFeesToBeUsed = "0x1"
    ∧ settlementTransactions scenarioEnv sampleArgs = .ok ([sampleJSONTx], "0x268")
    ∧ sampleJSONTx.Value = "0x268"
    ∧ decodeBigHex "0x268" = some 616
    ∧ decodeBigHex "0x260" = some 608
    ∧ sampleJSONTx.Value ≠ "0x260" := by
  refine ⟨by rfl, by rfl, by rfl, by rfl, by rfl, by rfl, by rfl, by rfl, by rfl, by decide⟩

/-- C19 (amended): with the hex codecs of the spec, the transaction a
successful settlement builds for a contract with the sizes 100 and 200, the
hoster fee `0x2` per byte and the verifier fees `0x10` has the value field
`0x268`. -/
theorem settlement_scenario_value (env : SettlementEnv)
    (args : CreateTransactionDataPayloadFromContractHashesArgs)
    (txs : List JSONTransaction) (total : String)
    (hdec : env.decodeBig = decodeBigHex) (henc : env.encodeBig = encodeBigHex)
    (h : settlementTransactions env args = .ok (txs, total))
    (k : Nat) (v : String) (hv : args.ContractHashes[k]? = some v)
    (downloadContract : DownloadContractProto)
    (hget : env.getContract v = some downloadContract)
    (hsizes : downloadContract.FileHashesNeededSizes = [100, 200])
    (hfee : downloadContract.FileHosterResponse.FeesPerByte = "0x2")
    (hver : downloadContract.VerifierFees = "0x10") :
    ∃ tx, txs[k]? = some tx ∧ tx.Value = "0x268" := by
  obtain ⟨key, c, fees, built, _, _, _, htxs, _, hk⟩ := settlement_built env args txs total h
  obtain ⟨b, hb1, hb2⟩ := hk k v hv
  obtain ⟨dc, f, vf, hdc, hf, hvf, htot, hval, _⟩ :=
    buildTransaction_ok env key fees _ v b.1 b.2 hb2
  rw [hget] at hdc
  cases hdc
  rw [hdec, hfee] at hf
  rw [hdec, hver] at hvf
  have hf2 : f = 2 := by
    have h2 : decodeBigHex "0x2" = some 2 := by rfl
    rw [h2] at hf
    exact (Option.some.inj hf).symm
  have hvf2 : vf = 16 := by
    have h16 : decodeBigHex "0x10" = some 16 := by rfl
    rw [h16] at hvf
    exact (Option.some.inj hvf).symm
  refine ⟨b.1, ?_, ?_⟩
  · rw [htxs, List.getElem?_map, hb1]
    rfl
  · rw [hval, htot, hsizes, hf2, hvf2, henc]
    rfl

/-- C19 (amended), at the scenario call. -/
theorem settlement_scenario_value_witness :
    ∃ tx, [sampleJSONTx][0]? = some tx ∧ tx.Value = "0x268" :=
  settlement_scenario_value scenarioEnv sampleArgs [sampleJSONTx] "0x268" (by rfl) (by rfl)
    (by rfl) 0 "0xc1" (by rfl) sampleContract (by rfl) (by rfl) (by rfl) (by rfl)

/-! ## The decrypted paths -/

/-- A lookup by key after a map that keeps the keys. -/
theorem find?_map_key {α : Type} (f : Bytes × α → Bytes × α) (hkey : ∀ kv, (f kv).1 = kv.1)
    (l : List (Bytes × α)) (key : Bytes) :
    (l.map f).find? (fun kv => kv.1 == key) = (l.find? (fun kv => kv.1 == key)).map f := by
  induction l with
  | nil => rfl
  | cons kv rest ih =>
    rw [List.map_cons, List.find?_cons, List.find?_cons, hkey kv]
    cases hk : kv.1 == key with
    | true => rfl
    | false => exact ih

/-- Reading the store after a status update. -/
theorem getContractFileInfo_set (store : FileStore) (fileHash : Bytes)
    (status : FileDecryptionStatus) (other : Bytes) :
    getContractFileInfo (setFileDecryptionStatus store fileHash status) other
      = if other = fileHash then
          (getContractFileInfo store fileHash).map
            (fun fileInfo => { fileInfo with FileDecryptionStatus := status })
        else getContractFileInfo store other := by
  unfold getContractFileInfo setFileDecryptionStatus
  rw [find?_map_key _ (by intro kv; split <;> rfl)]
  cases hfind : store.find? (fun kv => kv.1 == other) with
  | none =>
    by_cases ho : other = fileHash
    · subst ho
      simp [hfind]
    · simp [ho]
  | some kv =>
    have hkv : kv.1 = other := by
      have := List.find?_some hfind
      exact beq_iff_eq.mp this
    by_cases ho : other = fileHash
    · subst ho
      simp [hfind, hkv]
    · have hne : ¬ kv.1 = fileHash := fun h => ho (hkv ▸ h)
      simp [ho, hne]

/-- A run of the decryption loop without error appends, in the order of the
reply, one decrypted path for every entry whose file was not in the state
`FileDecrypting` when the loop started. -/
theorem decryptLoop_paths (env : DecryptEnv) (args : RequestEncryptionDataFromVerifierArgs)
    (keyIvs : List KeyIVProto) (reply : List KeyIVRandomizedFileSegmentsProto)
    (store : FileStore) (paths : List String)
    (hok : (decryptLoop env args keyIvs reply store paths).error = none) :
    ∃ newPaths,
      (decryptLoop env args keyIvs reply store paths).DecryptedFilePaths = paths ++ newPaths
      ∧ List.Forall₂ (DecryptedAs env args keyIvs) newPaths
          (reply.filter (fun v => !isDecrypting store v.FileHash)) := by
  induction reply generalizing store paths with
  | nil => exact ⟨[], by simp [decryptLoop], by simp⟩
  | cons v rest ih =>
    unfold decryptLoop at hok ⊢
    cases hidx : keyIvs.findIdx? (fun w => v.FileHash == w.FileHash) with
    | none =>
      rw [hidx] at hok
      simp at hok
    | some foundIdx =>
      rw [hidx] at hok
      simp only [hidx] at hok ⊢
      cases hinfo : getContractFileInfo store v.FileHash with
      | none =>
        rw [hinfo] at hok
        simp at hok
      | some fileInfo =>
        simp only [hinfo] at hok ⊢
        by_cases hst : fileInfo.FileDecryptionStatus = .FileDecrypting
        · simp only [hst, if_true] at hok ⊢
          obtain ⟨newPaths, hp, hall⟩ := ih store paths hok
          refine ⟨newPaths, hp, ?_⟩
          have hdec : isDecrypting store v.FileHash = true := by
            simp [isDecrypting, hinfo, hst]
          rw [List.filter_cons_of_neg (by simp [hdec])]
          exact hall
        · simp only [hst, if_false] at hok ⊢
          cases hout : args.RestoredFilePaths[foundIdx]? with
          | none =>
            rw [hout] at hok
            simp at hok
          | some outputPathOfFile =>
            simp only [hout] at hok ⊢
            cases hdecrypt : env.decryptFile
                (env.joinPath [env.downloadDirectory, env.encode v.ContractHash,
                  env.encodeNoPrefix v.FileHash])
                outputPathOfFile v.Key v.Iv v.EncryptionType v.RandomizedSegments
                (decide (fileInfo.FileDecryptionStatus = .FileDecrypted)) with
            | none =>
              rw [hdecrypt] at hok
              simp at hok
            | some decryptedPath =>
              simp only [hdecrypt] at hok ⊢
              obtain ⟨newPaths, hp, hall⟩ := ih _ _ hok
              have hnot : isDecrypting store v.FileHash = false := by
                simp [isDecrypting, hinfo, hst]
              have hsame : ∀ other,
                  isDecrypting
                    (setFileDecryptionStatus
                      (setFileDecryptionStatus store v.FileHash .FileDecrypting)
                      v.FileHash .FileDecrypted) other
                    = isDecrypting store other := by
                intro other
                unfold isDecrypting
                rw [getContractFileInfo_set]
                by_cases ho : other = v.FileHash
                · subst ho
                  rw [getContractFileInfo_set]
                  simp only [if_true, hinfo, Option.map_some']
                  simpa using hst
                · simp only [ho, if_false]
                  rw [getContractFileInfo_set]
                  simp only [ho, if_false]
              refine ⟨decryptedPath :: newPaths, ?_, ?_⟩
              · rw [hp]
                simp
              · rw [List.filter_cons_of_pos (by simp [hnot])]
                refine List.Forall₂.cons ⟨foundIdx, outputPathOfFile, _, hidx, hout, hdecrypt⟩ ?_
                have hfilter : rest.filter (fun w => !isDecrypting
                    (setFileDecryptionStatus
                      (setFileDecryptionStatus store v.FileHash .FileDecrypting)
                      v.FileHash .FileDecrypted) w.FileHash)
                    = rest.filter (fun w => !isDecrypting store w.FileHash) := by
                  apply List.filter_congr
                  intro w _
                  rw [hsame]
                rw [← hfilter]
                exact hall

/-- C20, as stated, fails: for the request of the files `aa`, `bb` with the
restored paths `/out/a`, `/out/b` and a verifier that answers `bb` before
`aa`, the call succeeds and returns the paths in the order of the reply,
`/out/b` before `/out/a`, not in the order of the request. -/
theorem decrypted_paths_counterexample :
    sampleDecryptArgs.FileHashes = ["aa", "bb"]
    ∧ sampleDecryptArgs.RestoredFilePaths = ["/out/a", "/out/b"]
    ∧ (RequestEncryptionDataFromVerifierAndDecrypt sampleDecryptEnv sampleDecryptArgs
        sampleFileStore).error = none
    ∧ (RequestEncryptionDataFromVerifierAndDecrypt sampleDecryptEnv sampleDecryptArgs
        sampleFileStore).DecryptedFilePaths = ["/out/b", "/out/a"]
    ∧ ["/out/b", "/out/a"] ≠ ["/out/a", "/out/b"] := by
  refine ⟨by rfl, by rfl, by rfl, by rfl, by decide⟩

/-- C20 (amended): when the handler succeeds, it has asked the verifier for
the requested files and `decrypted_file_paths` lists, in the order of the
entries of the verifier's reply, the path `DecryptFile` returned for every
entry whose file was not in the state `FileDecrypting`, decrypted to the
restored path at the position of that file in the request. -/
theorem decrypted_paths_reply_order (env : DecryptEnv)
    (args : RequestEncryptionDataFromVerifierArgs) (store : FileStore)
    (hok : (RequestEncryptionDataFromVerifierAndDecrypt env args store).error = none) :
    ∃ (keyIvs : List KeyIVProto) (verifierID : String)
      (encryptionData : List KeyIVRandomizedFileSegmentsProto),
      buildKeyIVRequests env store args args.FileHashes 0 [] = .ok keyIvs
      ∧ env.requestEncryptionData verifierID keyIvs = some encryptionData
      ∧ List.Forall₂ (DecryptedAs env args keyIvs)
          (RequestEncryptionDataFromVerifierAndDecrypt env args store).DecryptedFilePaths
          (encryptionData.filter (fun v => !isDecrypting store v.FileHash)) := by
  unfold RequestEncryptionDataFromVerifierAndDecrypt at hok ⊢
  split at hok
  · simp at hok
  · rename_i hlen
    rw [if_neg hlen]
    cases hc : env.getContract args.ContractHash with
    | none =>
      rw [hc] at hok
      simp at hok
    | some downloadContract =>
      simp only [hc] at hok ⊢
      cases hb : buildKeyIVRequests env store args args.FileHashes 0 [] with
      | error e =>
        rw [hb] at hok
        simp at hok
      | ok keyIvs =>
        simp only [hb] at hok ⊢
        cases hpk : env.publicKeyFromBytes downloadContract.VerifierPublicKey with
        | none =>
          rw [hpk] at hok
          simp at hok
        | some publicKey =>
          simp only [hpk] at hok ⊢
          cases hid : env.idFromPublicKey publicKey with
          | none =>
            rw [hid] at hok
            simp at hok
          | some verifierID =>
            simp only [hid] at hok ⊢
            cases hreq : env.requestEncryptionData verifierID keyIvs with
            | none =>
              rw [hreq] at hok
              simp at hok
            | some encryptionData =>
              simp only [hreq] at hok ⊢
              obtain ⟨newPaths, hp, hall⟩ :=
                decryptLoop_paths env args keyIvs encryptionData store [] hok
              refine ⟨keyIvs, verifierID, encryptionData, rfl, hreq, ?_⟩
              rw [hp, List.nil_append]
              exact hall

/-- C20 (amended), at the sample request: the paths come in the order of the
reply, `bb` first. -/
theorem decrypted_paths_reply_order_witness :
    (RequestEncryptionDataFromVerifierAndDecrypt sampleDecryptEnv sampleDecryptArgs
        sampleFileStore).DecryptedFilePaths = ["/out/b", "/out/a"]
    ∧ ∃ (keyIvs : List KeyIVProto) (verifierID : String)
      (encryptionData : List KeyIVRandomizedFileSegmentsProto),
      buildKeyIVRequests sampleDecryptEnv sampleFileStore sampleDecryptArgs
          sampleDecryptArgs.FileHashes 0 [] = .ok keyIvs
      ∧ sampleDecryptEnv.requestEncryptionData verifierID keyIvs = some encryptionData
      ∧ List.Forall₂ (DecryptedAs sampleDecryptEnv sampleDecryptArgs keyIvs)
          (RequestEncryptionDataFromVerifierAndDecrypt sampleDecryptEnv sampleDecryptArgs
            sampleFileStore).DecryptedFilePaths
          (encryptionData.filter (fun v => !isDecrypting sampleFileStore v.FileHash)) :=
  ⟨by rfl,
   decrypted_paths_reply_order sampleDecryptEnv sampleDecryptArgs sampleFileStore (by rfl)⟩

/-! ## The two-hoster path -/

/-- C23: for a request with at least one hash, responses with at least as
many sizes as hashes and every requested hash offered by some response
(validation passes), when the response sorted first has a non-empty
unavailable list `U` and some response has an unavailable list disjoint from
`U`, the solver returns exactly two entries: the first sorted response, which
has the fewest unavailable hashes, with all its hashes and sizes, then the
earliest response of the sorted slice whose unavailable list is disjoint from
`U`, with all its hashes and sizes; the second is not the first. -/
theorem solver_two_hoster_fast_path (requests : DataQueryRequest)
    (responses copyResponses : List DataQueryResponse)
    (first : DataQueryResponse) (rest : List DataQueryResponse)
    (hsort : IsSortSliceOf copyResponses responses)
    (hcopy : copyResponses = first :: rest)
    (hne : requests.FileHashes ≠ [])
    (hlen : ∀ r ∈ responses, r.FileHashes.length ≤ r.FileHashesSizes.length)
    (hcov : ∀ h ∈ requests.FileHashes, ∃ r ∈ responses, h ∈ r.FileHashes)
    (hU : first.UnavailableFileHashes ≠ [])
    (hdis : ∃ r ∈ responses, ∀ u ∈ first.UnavailableFileHashes,
      u ∉ r.UnavailableFileHashes) :
    (∀ r ∈ responses,
        first.UnavailableFileHashes.length ≤ r.UnavailableFileHashes.length)
    ∧ ∃ before resp after,
        copyResponses = before ++ resp :: after
        ∧ (∀ u ∈ first.UnavailableFileHashes, u ∉ resp.UnavailableFileHashes)
        ∧ (∀ b ∈ before, ¬ ∀ u ∈ first.UnavailableFileHashes,
            u ∉ b.UnavailableFileHashes)
        ∧ resp ≠ first
        ∧ getFilesNeededFromSorted requests responses copyResponses
          = .ok [⟨first, first.FileHashes, first.FileHashesSizes⟩,
                 ⟨resp, resp.FileHashes, resp.FileHashesSizes⟩] := by
  obtain ⟨m1, hval, hm1, _⟩ := validateRequest_ok responses hlen requests.FileHashes hcov []
  have hm1ne : m1.length ≠ 0 := by
    intro h0
    exact hm1 hne (List.length_eq_zero.mp h0)
  have hun : first.UnavailableFileHashes.length ≠ 0 := by
    intro h0
    exact hU (List.length_eq_zero.mp h0)
  constructor
  · intro r hr
    have hmem : r ∈ copyResponses := hsort.1.mem_iff.mpr hr
    have hsorted := hsort.2
    rw [hcopy] at hmem hsorted
    rcases List.mem_cons.mp hmem with rfl | hrest
    · exact Nat.le_refl _
    · exact List.rel_of_sorted_cons hsorted r hrest
  · obtain ⟨r, hr, hdisj⟩ := hdis
    have hmem : r ∈ first :: rest := by
      rw [← hcopy]
      exact hsort.1.mem_iff.mpr hr
    have hfound : foundResponse first.UnavailableFileHashes r = true :=
      (foundResponse_eq_true_iff _ _).mpr hdisj
    cases hfind : (first :: rest).find? (foundResponse first.UnavailableFileHashes) with
    | none =>
      have := List.find?_eq_none.mp hfind r hmem
      exact absurd hfound this
    | some resp =>
      obtain ⟨hp, before, after, hsplit, hbefore⟩ := List.find?_eq_some.mp hfind
      refine ⟨before, resp, after, by rw [hcopy, hsplit],
        (foundResponse_eq_true_iff _ _).mp hp, ?_, ?_, ?_⟩
      · intro b hb hall
        have h1 := hbefore b hb
        rw [(foundResponse_eq_true_iff _ _).mpr hall] at h1
        simp at h1
      · intro heq
        obtain ⟨u, hu⟩ := List.exists_mem_of_ne_nil _ hU
        have := (foundResponse_eq_true_iff _ _).mp hp u hu
        rw [heq] at this
        exact this hu
      · rw [hcopy]
        simp [getFilesNeededFromSorted, hval, selectFromSorted, hm1ne, hun, hfind]

/-- C23, at the request `[aa, bb, cc]` with R1 = (`aa`, `bb`; `cc`
unavailable) and R2 = (`cc`; `aa`, `bb` unavailable): the solver returns R1
and R2 with all their hashes. -/
theorem solver_two_hoster_fast_path_witness :
    getFilesNeededFromDataQueryResponses ⟨[hashAA, hashBB, hashCC]⟩
        [sampleResponse 1 [hashAA, hashBB] [10, 20] [hashCC],
         sampleResponse 2 [hashCC] [30] [hashAA, hashBB]]
      = .ok [⟨sampleResponse 1 [hashAA, hashBB] [10, 20] [hashCC], [hashAA, hashBB], [10, 20]⟩,
             ⟨sampleResponse 2 [hashCC] [30] [hashAA, hashBB], [hashCC], [30]⟩]
    ∧ ∃ before resp after,
        [sampleResponse 1 [hashAA, hashBB] [10, 20] [hashCC],
         sampleResponse 2 [hashCC] [30] [hashAA, hashBB]] = before ++ resp :: after
        ∧ (∀ u ∈ (sampleResponse 1 [hashAA, hashBB] [10, 20] [hashCC]).UnavailableFileHashes,
            u ∉ resp.UnavailableFileHashes)
        ∧ (∀ b ∈ before,
            ¬ ∀ u ∈ (sampleResponse 1 [hashAA, hashBB] [10, 20] [hashCC]).UnavailableFileHashes,
              u ∉ b.UnavailableFileHashes)
        ∧ resp ≠ sampleResponse 1 [hashAA, hashBB] [10, 20] [hashCC]
        ∧ getFilesNeededFromSorted ⟨[hashAA, hashBB, hashCC]⟩
            [sampleResponse 1 [hashAA, hashBB] [10, 20] [hashCC],
             sampleResponse 2 [hashCC] [30] [hashAA, hashBB]]
            [sampleResponse 1 [hashAA, hashBB] [10, 20] [hashCC],
             sampleResponse 2 [hashCC] [30] [hashAA, hashBB]]
          = .ok [⟨sampleResponse 1 [hashAA, hashBB] [10, 20] [hashCC],
                  (sampleResponse 1 [hashAA, hashBB] [10, 20] [hashCC]).FileHashes,
                  (sampleResponse 1 [hashAA, hashBB] [10, 20] [hashCC]).FileHashesSizes⟩,
                 ⟨resp, resp.FileHashes, resp.FileHashesSizes⟩] :=
  ⟨by rfl,
   (solver_two_hoster_fast_path ⟨[hashAA, hashBB, hashCC]⟩
      [sampleResponse 1 [hashAA, hashBB] [10, 20] [hashCC],
       sampleResponse 2 [hashCC] [30] [hashAA, hashBB]]
      [sampleResponse 1 [hashAA, hashBB] [10, 20] [hashCC],
       sampleResponse 2 [hashCC] [30] [hashAA, hashBB]]
      (sampleResponse 1 [hashAA, hashBB] [10, 20] [hashCC])
      [sampleResponse 2 [hashCC] [30] [hashAA, hashBB]]
      (sortSlice_isSortSliceOf
        [sampleResponse 1 [hashAA, hashBB] [10, 20] [hashCC],
         sampleResponse 2 [hashCC] [30] [hashAA, hashBB]])
      rfl (by decide) (by decide) (by decide) (by decide)
      ⟨sampleResponse 2 [hashCC] [30] [hashAA, hashBB], by decide, by decide⟩).2⟩

/-! ## The greedy packing step -/

/-- C24: one step of the greedy packing loop evaluated at the working list
`[dd, ee, ff]` (no duplicates) and a response offering `dd` and `ee`: the
entry claims `[dd, ee]`, the positions to delete are 0 and 1, and deleting
position 0 and then position 1 of the shortened list leaves `[ee]`: the
claimed `ee` is kept and the unclaimed `ff` is dropped, where the old list
without the claimed hashes is `[ff]`. -/
theorem greedy_step_keeps_claimed_drops_unclaimed :
    [hashDD, hashEE, hashFF].Nodup
    ∧ neededFrom [hashDD, hashEE, hashFF] [hashDD, hashEE] 0 [4, 5]
        = .ok ([hashDD, hashEE], [4, 5])
    ∧ whichIndexesToRemove [hashDD, hashEE, hashFF] [hashDD, hashEE] = [0, 1]
    ∧ greedyPack [sampleResponse 2 [hashDD, hashEE] [4, 5] [hashFF]] []
          [hashDD, hashEE, hashFF]
        = .ok ([⟨sampleResponse 2 [hashDD, hashEE] [4, 5] [hashFF], [hashDD, hashEE], [4, 5]⟩],
               [hashEE])
    ∧ [hashDD, hashEE, hashFF].filter (fun u => decide (u ∉ [hashDD, hashEE])) = [hashFF] := by
  refine ⟨by decide, by rfl, by rfl, by rfl, by rfl⟩

/-- With a size for every hash, collecting the needed hashes of a response
reads no size past the end. -/
theorem neededFrom_ok (unavailable hashes : List Bytes) (idx : Nat) (sizes : List Nat)
    (hlen : idx + hashes.length ≤ sizes.length) :
    ∃ r, neededFrom unavailable hashes idx sizes = .ok r := by
  induction hashes generalizing idx with
  | nil => exact ⟨([], []), rfl⟩
  | cons h rest ih =>
    have hrest : idx + 1 + rest.length ≤ sizes.length := by
      simp only [List.length_cons] at hlen
      omega
    obtain ⟨r, hr⟩ := ih (idx + 1) hrest
    unfold neededFrom
    by_cases hk : (unavailable.filter (fun na => na == h)).length = 0
    · simp only [hk, if_true]
      exact ⟨r, hr⟩
    · simp only [hk, if_false]
      have hidx : idx < sizes.length := by
        simp only [List.length_cons] at hlen
        omega
      rw [List.getElem?_eq_getElem hidx, hr]
      exact ⟨_, rfl⟩

/-- The deletions fail only as a slice expression out of bounds. -/
theorem removeIndexes_ne_indexOutOfRange (u : List Bytes) (indexes : List Nat) :
    removeIndexes u indexes ≠ .error .indexOutOfRange := by
  induction indexes generalizing u with
  | nil => simp [removeIndexes]
  | cons remove rest ih =>
    unfold removeIndexes
    split
    · exact ih _
    · simp

/-- With a size for every hash of every response, the packing loop reads no
size past the end. -/
theorem greedyPack_ne_indexOutOfRange (copyResponses : List DataQueryResponse)
    (hlen : ∀ r ∈ copyResponses, r.FileHashes.length ≤ r.FileHashesSizes.length)
    (wanted : List filesNeededInDataQueryResponse) (unavailable : List Bytes) :
    greedyPack copyResponses wanted unavailable ≠ .error .indexOutOfRange := by
  induction copyResponses generalizing wanted unavailable with
  | nil => simp [greedyPack]
  | cons v rest ih =>
    have hrest : ∀ r ∈ rest, r.FileHashes.length ≤ r.FileHashesSizes.length :=
      fun r hr => hlen r (List.mem_cons_of_mem _ hr)
    obtain ⟨r, hr⟩ := neededFrom_ok unavailable v.FileHashes 0 v.FileHashesSizes
      (by have := hlen v (List.mem_cons_self _ _); omega)
    unfold greedyPack
    rw [hr]
    simp only
    split
    · cases hrem : removeIndexes unavailable (whichIndexesToRemove unavailable r.1) with
      | error e =>
        simp only
        intro heq
        have := removeIndexes_ne_indexOutOfRange unavailable
          (whichIndexesToRemove unavailable r.1)
        rw [hrem] at this
        simp only [Except.error.injEq] at heq
        rw [heq] at this
        exact this rfl
      | ok u1 => exact ih hrest _ _
    · exact ih hrest _ _

/-- With a size for every hash of every response, the solver never reads
past the end of a slice, whatever order the sort produces: the first sorted
response is read only when there is one, and every size read exists. What is
left of the run-time failures is the slice expression of the deletions. -/
theorem solver_ne_indexOutOfRange (requests : DataQueryRequest)
    (responses copyResponses : List DataQueryResponse)
    (hsort : IsSortSliceOf copyResponses responses)
    (hlen : ∀ r ∈ responses, r.FileHashes.length ≤ r.FileHashesSizes.length) :
    getFilesNeededFromSorted requests responses copyResponses ≠ .error .indexOutOfRange := by
  by_cases hcov : ∀ h ∈ requests.FileHashes, ∃ r ∈ responses, h ∈ r.FileHashes
  · obtain ⟨m1, hval, _, _⟩ := validateRequest_ok responses hlen requests.FileHashes hcov []
    have hlenCopy : ∀ r ∈ copyResponses, r.FileHashes.length ≤ r.FileHashesSizes.length :=
      fun r hr => hlen r (hsort.1.mem_iff.mp hr)
    unfold getFilesNeededFromSorted
    rw [hval]
    simp only
    unfold selectFromSorted
    split
    · simp
    · rename_i hm1
      cases hcopy : copyResponses with
      | nil =>
        exfalso
        apply hm1
        cases hreq : requests.FileHashes with
        | nil =>
          rw [hreq] at hval
          simp only [validateRequest, Except.ok.injEq] at hval
          rw [← hval]
          rfl
        | cons h rest =>
          obtain ⟨r, hr, _⟩ := hcov h (by rw [hreq]; exact List.mem_cons_self _ _)
          have hmem : r ∈ copyResponses := hsort.1.mem_iff.mpr hr
          rw [hcopy] at hmem
          exact absurd hmem (List.not_mem_nil _)
      | cons first rest =>
        simp only
        split
        · simp
        · split
          · simp
          · have hg := greedyPack_ne_indexOutOfRange (first :: rest)
              (by rw [← hcopy]; exact hlenCopy)
              [⟨first, first.FileHashes, first.FileHashesSizes⟩] first.UnavailableFileHashes
            split
            · rename_i e he
              intro heq
              simp only [Except.error.injEq] at heq
              rw [heq] at he
              exact hg he
            · split <;> simp
  · have hmiss : ∃ h ∈ requests.FileHashes, ∀ r ∈ responses, h ∉ r.FileHashes := by
      push_neg at hcov
      exact hcov
    obtain ⟨h, _, _, hres⟩ := validateRequest_missing responses hlen requests.FileHashes hmiss []
    simp [getFilesNeededFromSorted, hres]

/-- C25: the solver evaluated at the request `[aa, .., ff]` with R1 = (`aa`,
`bb`, `cc`; `dd`, `ee`, `ff` unavailable), R2 = (`dd`, `ff`; `ee`, `aa`, `bb`,
`cc`) and R3 = (`ee`; `aa`, `bb`, `cc`, `dd`, `ff`), every response with as
many sizes as hashes and within the invariants of the data model: R2 claims
`dd` and `ff` at the positions 0 and 2 of `[dd, ee, ff]`; after the deletion of
position 0 the list is `[ee, ff]`, and the deletion of position 2 is a slice
expression out of bounds. -/
theorem solver_slice_bounds_failure :
    (∀ r ∈ [sampleResponse 1 [hashAA, hashBB, hashCC] [1, 2, 3] [hashDD, hashEE, hashFF],
            sampleResponse 2 [hashDD, hashFF] [4, 6] [hashEE, hashAA, hashBB, hashCC],
            sampleResponse 3 [hashEE] [5] [hashAA, hashBB, hashCC, hashDD, hashFF]],
        ResponseInvariant ⟨[hashAA, hashBB, hashCC, hashDD, hashEE, hashFF]⟩ r)
    ∧ whichIndexesToRemove [hashDD, hashEE, hashFF] [hashDD, hashFF] = [0, 2]
    ∧ removeIndexes [hashDD, hashEE, hashFF] [0, 2] = .error .sliceBoundsOutOfRange
    ∧ getFilesNeededFromDataQueryResponses
        ⟨[hashAA, hashBB, hashCC, hashDD, hashEE, hashFF]⟩
        [sampleResponse 1 [hashAA, hashBB, hashCC] [1, 2, 3] [hashDD, hashEE, hashFF],
         sampleResponse 2 [hashDD, hashFF] [4, 6] [hashEE, hashAA, hashBB, hashCC],
         sampleResponse 3 [hashEE] [5] [hashAA, hashBB, hashCC, hashDD, hashFF]]
      = .error .sliceBoundsOutOfRange := by
  refine ⟨by decide, by rfl, by rfl, by rfl⟩

/-! ## The decryption states -/

/-- The state of a file after a status update. -/
theorem decryptionStatus_set (store : FileStore) (fileHash : Bytes)
    (status : FileDecryptionStatus) (other : Bytes) :
    decryptionStatus (setFileDecryptionStatus store fileHash status) other
      = if other = fileHash then (decryptionStatus store fileHash).map (fun _ => status)
        else decryptionStatus store other := by
  unfold decryptionStatus
  rw [getContractFileInfo_set]
  by_cases ho : other = fileHash
  · simp only [ho, if_true]
    cases getContractFileInfo store fileHash <;> rfl
  · simp only [ho, if_false]

/-- The states the decryption loop leaves when no index is out of range:
every file has the state it had, or it was in the store in a state other than
`FileDecrypting` and is now in `FileDecrypted` or `FileDecryptionError`. -/
theorem decryptLoop_states (env : DecryptEnv) (args : RequestEncryptionDataFromVerifierArgs)
    (keyIvs : List KeyIVProto) (reply : List KeyIVRandomizedFileSegmentsProto)
    (store : FileStore) (paths : List String)
    (hno : (decryptLoop env args keyIvs reply store paths).error ≠ some .indexOutOfRange)
    (other : Bytes) :
    decryptionStatus (decryptLoop env args keyIvs reply store paths).store other
        = decryptionStatus store other
    ∨ (decryptionStatus store other ≠ some .FileDecrypting
        ∧ decryptionStatus store other ≠ none
        ∧ (decryptionStatus (decryptLoop env args keyIvs reply store paths).store other
              = some .FileDecrypted
            ∨ decryptionStatus (decryptLoop env args keyIvs reply store paths).store other
              = some .FileDecryptionError)) := by
  induction reply generalizing store paths with
  | nil => exact Or.inl rfl
  | cons v rest ih =>
    unfold decryptLoop at hno ⊢
    cases hidx : keyIvs.findIdx? (fun w => v.FileHash == w.FileHash) with
    | none => exact Or.inl (by simp)
    | some foundIdx =>
      simp only [hidx] at hno ⊢
      cases hinfo : getContractFileInfo store v.FileHash with
      | none => exact Or.inl (by simp)
      | some fileInfo =>
        simp only [hinfo] at hno ⊢
        have hstore : decryptionStatus store v.FileHash = some fileInfo.FileDecryptionStatus := by
          simp [decryptionStatus, hinfo]
        by_cases hst : fileInfo.FileDecryptionStatus = .FileDecrypting
        · simp only [hst, if_true] at hno ⊢
          exact ih store paths hno
        · simp only [hst, if_false] at hno ⊢
          cases hout : args.RestoredFilePaths[foundIdx]? with
          | none =>
            rw [hout] at hno
            simp at hno
          | some outputPathOfFile =>
            simp only [hout] at hno ⊢
            cases hdecrypt : env.decryptFile
                (env.joinPath [env.downloadDirectory, env.encode v.ContractHash,
                  env.encodeNoPrefix v.FileHash])
                outputPathOfFile v.Key v.Iv v.EncryptionType v.RandomizedSegments
                (decide (fileInfo.FileDecryptionStatus = .FileDecrypted)) with
            | none =>
              simp only []
              by_cases ho : other = v.FileHash
              · right
                subst ho
                refine ⟨?_, ?_, Or.inr ?_⟩
                · rw [hstore]
                  simpa using hst
                · rw [hstore]
                  simp
                · simp only [decryptionStatus_set, if_true, hstore, Option.map_some']
              · left
                simp only [decryptionStatus_set, ho, if_false]
            | some decryptedPath =>
              simp only [hdecrypt] at hno ⊢
              have hstep : ∀ o, decryptionStatus
                  (setFileDecryptionStatus
                    (setFileDecryptionStatus store v.FileHash .FileDecrypting)
                    v.FileHash .FileDecrypted) o
                  = if o = v.FileHash then some .FileDecrypted
                    else decryptionStatus store o := by
                intro o
                by_cases ho : o = v.FileHash
                · subst ho
                  simp only [decryptionStatus_set, if_true, hstore, Option.map_some']
                · simp only [decryptionStatus_set, ho, if_false]
              have hih := ih _ _ hno
              rw [hstep] at hih
              by_cases ho : other = v.FileHash
              · subst ho
                simp only [if_true] at hih
                right
                refine ⟨?_, ?_, ?_⟩
                · rw [hstore]
                  simpa using hst
                · rw [hstore]
                  simp
                · rcases hih with h1 | ⟨_, _, h3⟩
                  · exact Or.inl h1
                  · exact h3
              · simp only [ho, if_false] at hih
                exact hih

/-- C27: the handler evaluated at a request for the file `aa` with one merkle
root and no restored path: the length check passes, the verifier answers, and
the access `RestoredFilePaths[0]` is out of range. -/
theorem restored_path_index_out_of_range :
    (["aa"] : List String).length = (["0x01"] : List String).length
    ∧ (RequestEncryptionDataFromVerifierAndDecrypt sampleDecryptEnv
        { ContractHash := "0xc1", FileHashes := ["aa"], FileMerkleRootHashes := ["0x01"],
          RestoredFilePaths := [] }
        sampleFileStore).error = some .indexOutOfRange := by
  refine ⟨by rfl, by rfl⟩

/-- C21: the handler evaluated at a request for the files `aa` and `bb` with
a single restored path: the entry of `bb`, answered first, is set to
`FileDecrypting` and then the access `RestoredFilePaths[1]` is out of range,
so the call ends with `bb`, not decrypted before, left in `FileDecrypting` and
the decryption primitive never called for it. -/
theorem decryption_left_in_decrypting :
    getContractFileInfo sampleFileStore hashBB = some ⟨"", 200, 200, .FileNotDecrypted⟩
    ∧ RequestEncryptionDataFromVerifierAndDecrypt sampleDecryptEnv
        { sampleDecryptArgs with RestoredFilePaths := ["/out/a"] } sampleFileStore
      = ⟨[(hashAA, ⟨"", 100, 100, .FileNotDecrypted⟩),
          (hashBB, ⟨"", 200, 200, .FileDecrypting⟩)], [], some .indexOutOfRange⟩
    ∧ isDecrypting
        (RequestEncryptionDataFromVerifierAndDecrypt sampleDecryptEnv
          { sampleDecryptArgs with RestoredFilePaths := ["/out/a"] } sampleFileStore).store
        hashBB = true := by
  refine ⟨by rfl, by rfl, by rfl⟩

/-! ## The wrapping size total -/

/-- C28: in a successful settlement, with no bound on the sizes, the
transaction built for a stored contract whose fee strings decode carries the
value `hoster fee per byte * (sum of the sizes mod 2 ^ 64) + verifier fees`;
this is `hoster fee per byte * sum of the sizes + verifier fees` exactly when
the sum is below `2 ^ 64` or the fee per byte is 0. -/
theorem settlement_value_wraps (env : SettlementEnv)
    (args : CreateTransactionDataPayloadFromContractHashesArgs)
    (txs : List JSONTransaction) (total : String)
    (h : settlementTransactions env args = .ok (txs, total))
    (k : Nat) (v : String) (hv : args.ContractHashes[k]? = some v)
    (downloadContract : DownloadContractProto) (fileHosterFees verifierFees : Int)
    (hget : env.getContract v = some downloadContract)
    (hfee : env.decodeBig downloadContract.FileHosterResponse.FeesPerByte = some fileHosterFees)
    (hver : env.decodeBig downloadContract.VerifierFees = some verifierFees) :
    (∃ tx, txs[k]? = some tx
      ∧ tx.Value = env.encodeBig
          (fileHosterFees * ((downloadContract.FileHashesNeededSizes.sum % 2 ^ 64 : Nat) : Int)
            + verifierFees))
    ∧ (fileHosterFees * ((downloadContract.FileHashesNeededSizes.sum % 2 ^ 64 : Nat) : Int)
          + verifierFees
        = fileHosterFees * (downloadContract.FileHashesNeededSizes.sum : Int) + verifierFees
      ↔ downloadContract.FileHashesNeededSizes.sum < 2 ^ 64 ∨ fileHosterFees = 0) := by
  constructor
  · obtain ⟨key, c, fees, built, _, _, _, hout, _, hk⟩ := settlement_built env args txs total h
    obtain ⟨b, hb1, hb2⟩ := hk k v hv
    obtain ⟨JSONTx, totalFees⟩ := b
    obtain ⟨dc, f, vf, hdc, hf, hvf, htot, hval, _⟩ := buildTransaction_ok _ _ _ _ _ _ _ hb2
    rw [hget] at hdc
    cases hdc
    rw [hfee] at hf
    cases hf
    rw [hver] at hvf
    cases hvf
    refine ⟨JSONTx, ?_, ?_⟩
    · rw [hout]
      simp [hb1]
    · rw [hval, htot, totalFileSize_eq]
  · generalize downloadContract.FileHashesNeededSizes.sum = s
    constructor
    · intro heq
      by_cases hf0 : fileHosterFees = 0
      · exact Or.inr hf0
      · left
        have h1 : fileHosterFees * ((s % 2 ^ 64 : Nat) : Int) = fileHosterFees * (s : Int) := by
          linarith
        have h2 : ((s % 2 ^ 64 : Nat) : Int) = (s : Int) := mul_left_cancel₀ hf0 h1
        have h3 : s % 2 ^ 64 = s := by exact_mod_cast h2
        have := Nat.mod_lt s (show 0 < 2 ^ 64 by decide)
        omega
    · rintro (hlt | hf0)
      · rw [Nat.mod_eq_of_lt hlt]
      · rw [hf0]
        simp

/-- C28, at a contract with the sizes `2 ^ 63` and `2 ^ 63 + 1`, fee `0x2`
and verifier fees `0x10`: the total wraps to 1 and the value is 2 * 1 + 16 =
18, in hexadecimal `0x12`. -/
theorem settlement_value_wraps_witness :
    settlementTransactions sampleWrapEnv sampleArgs
      = .ok ([{ sampleJSONTx with Value := "0x12" }], "0x12")
    ∧ (∃ tx, [{ sampleJSONTx with Value := "0x12" }][0]? = some tx
      ∧ tx.Value = sampleWrapEnv.encodeBig
          (2 * ((sampleWrapContract.FileHashesNeededSizes.sum % 2 ^ 64 : Nat) : Int) + 16))
    ∧ ¬ (sampleWrapContract.FileHashesNeededSizes.sum < 2 ^ 64 ∨ (2 : Int) = 0) :=
  ⟨by rfl,
   (settlement_value_wraps sampleWrapEnv sampleArgs [{ sampleJSONTx with Value := "0x12" }]
      "0x12" (by rfl) 0 "0xc1" (by rfl) sampleWrapContract 2 16 (by rfl) (by rfl)
      (by rfl)).1,
   by decide⟩

/-! ## The plan for sizes past the signed range -/

/-- The fresh plan of a file of at least one byte starts at 0, ends at
`fileSize - 1`, is contiguous, and covers exactly the positions of the file. -/
theorem createFileRanges_cover (fileSize : Int) (hpos : 1 ≤ fileSize)
    (hhi : fileSize < 2 ^ 63) :
    (createFileRanges fileSize).head?.map (fun r => r.from_) = some 0
    ∧ (createFileRanges fileSize).getLast?.map (fun r => r.to_) = some (fileSize - 1)
    ∧ List.Chain' (fun a b => b.from_ = a.to_ + 1) (createFileRanges fileSize)
    ∧ (∀ x : Int, (0 ≤ x ∧ x ≤ fileSize - 1)
        ↔ ∃ r ∈ createFileRanges fileSize, r.from_ ≤ x ∧ x ≤ r.to_) := by
  obtain ⟨r, hr, _, hr2, _, hnn, _⟩ := tdiv_four_spec fileSize
  obtain ⟨hr0, hc0⟩ := hnn (by omega)
  obtain ⟨hzero, hnonzero⟩ := createFileRanges_eq fileSize (by omega) hhi
  have hw : wrapInt64 (fileSize - 1) = fileSize - 1 := by
    rw [wrapInt64_eq_self] <;> omega
  by_cases hc : Int.tdiv fileSize 4 = 0
  · rw [hzero hc, hw]
    refine ⟨rfl, rfl, by simp, ?_⟩
    intro x
    simp
  · rw [hnonzero hc, hw]
    generalize Int.tdiv fileSize 4 = c at *
    have hc1 : 1 ≤ c := by omega
    refine ⟨rfl, rfl, ?_, ?_⟩
    · simp only [List.chain'_cons, List.chain'_singleton, and_true]
      refine ⟨?_, ?_, ?_⟩ <;> omega
    · intro x
      simp only [List.mem_cons, List.mem_singleton, List.not_mem_nil, or_false,
        exists_eq_or_imp, exists_eq_left]
      omega

/-- C29, as stated, fails: for the size `2 ^ 63`, which is below `2 ^ 64`,
the conversion to `int64` gives `-2 ^ 63` and the plan has ranges that end
below 0, the first being `[0, -2305843009213693953]`. -/
theorem plan_unsigned_size_counterexample :
    ¬ ∀ job : DownloadJob, 1 ≤ job.fileSize → job.fileSize < 2 ^ 64 →
        ∀ r ∈ createFileRanges (plannerInput job), 0 ≤ r.from_ ∧ r.from_ ≤ r.to_ := by
  intro hall
  have hplan : createFileRanges (plannerInput sampleHugeJob)
      = [⟨0, -2305843009213693953, 0⟩,
         ⟨-2305843009213693952, -4611686018427387905, 0⟩,
         ⟨-4611686018427387904, -6917529027641081857, 0⟩,
         ⟨-6917529027641081856, 9223372036854775807, 0⟩] := by rfl
  have h := hall sampleHugeJob (by decide) (by decide) ⟨0, -2305843009213693953, 0⟩
    (by rw [hplan]; exact List.mem_cons_self _ _)
  exact absurd h.2 (by decide)

/-- C29 (amended): for a file size `s` with `1 ≤ s < 2 ^ 63`, the conversion
to `int64` keeps `s`, and the plan built from it consists of ranges with `0 ≤
from ≤ to`, the first starting at 0, each later one starting one past the end
of the previous one, the last ending at `s - 1`, which together cover exactly
the positions `0 .. s - 1`. -/
theorem plan_signed_size (job : DownloadJob) (hpos : 1 ≤ job.fileSize)
    (hhi : job.fileSize < 2 ^ 63) :
    plannerInput job = (job.fileSize : Int)
    ∧ (∀ r ∈ createFileRanges (plannerInput job), 0 ≤ r.from_ ∧ r.from_ ≤ r.to_)
    ∧ (createFileRanges (plannerInput job)).head?.map (fun r => r.from_) = some 0
    ∧ (createFileRanges (plannerInput job)).getLast?.map (fun r => r.to_)
        = some ((job.fileSize : Int) - 1)
    ∧ List.Chain' (fun a b => b.from_ = a.to_ + 1) (createFileRanges (plannerInput job))
    ∧ (∀ x : Int, (0 ≤ x ∧ x ≤ (job.fileSize : Int) - 1)
        ↔ ∃ r ∈ createFileRanges (plannerInput job), r.from_ ≤ x ∧ x ≤ r.to_) := by
  have hin : plannerInput job = (job.fileSize : Int) := by
    unfold plannerInput
    rw [wrapInt64_eq_self] <;> omega
  rw [hin]
  have hp : (1 : Int) ≤ (job.fileSize : Int) := by omega
  have hh : (job.fileSize : Int) < 2 ^ 63 := by omega
  obtain ⟨hvalid, _⟩ := createFileRanges_valid (job.fileSize : Int) hp hh
  obtain ⟨h1, h2, h3, h4⟩ := createFileRanges_cover (job.fileSize : Int) hp hh
  exact ⟨rfl, fun r hr => ⟨(hvalid r hr).1, (hvalid r hr).2.1⟩, h1, h2, h3, h4⟩

/-- C29 (amended), at the sample download of 20 bytes: the plan is `[0,4]`,
`[5,9]`, `[10,14]`, `[15,19]`. -/
theorem plan_signed_size_witness :
    createFileRanges (plannerInput sampleJob)
      = [⟨0, 4, 0⟩, ⟨5, 9, 0⟩, ⟨10, 14, 0⟩, ⟨15, 19, 0⟩]
    ∧ plannerInput sampleJob = ((sampleJob.fileSize : Nat) : Int)
    ∧ (createFileRanges (plannerInput sampleJob)).getLast?.map (fun r => r.to_)
        = some (((sampleJob.fileSize : Nat) : Int) - 1) :=
  ⟨by rfl,
   (plan_signed_size sampleJob (by decide) (by decide)).1,
   (plan_signed_size sampleJob (by decide) (by decide)).2.2.2.1⟩

/-! ## The file hashes of a query -/

/-- The loop over the pieces either stops at a piece that is not empty after
trimming and does not decode, or appends the decodings of all such pieces in
order. -/
theorem collectFileHashes_spec (env : SendDataQueryEnv) (list : List String)
    (fileHashes : List Bytes) :
    ((∃ t ∈ (list.map trimSpace).filter (fun t => decide (t ≠ "")),
        env.decodeNoPrefix t = none)
      → collectFileHashes env list fileHashes = .error .decodeFileHash)
    ∧ ((∀ t ∈ (list.map trimSpace).filter (fun t => decide (t ≠ "")),
        env.decodeNoPrefix t ≠ none)
      → ∃ decoded, collectFileHashes env list fileHashes = .ok (fileHashes ++ decoded)
          ∧ decoded.map some
            = ((list.map trimSpace).filter (fun t => decide (t ≠ ""))).map
                env.decodeNoPrefix) := by
  induction list generalizing fileHashes with
  | nil =>
    constructor
    · rintro ⟨t, ht, _⟩
      simp at ht
    · intro _
      exact ⟨[], by simp [collectFileHashes], by simp⟩
  | cons v rest ih =>
    by_cases hempty : trimSpace v = ""
    · have hfilter : ((v :: rest).map trimSpace).filter (fun t => decide (t ≠ ""))
          = (rest.map trimSpace).filter (fun t => decide (t ≠ "")) := by
        simp [hempty]
      have hstep : collectFileHashes env (v :: rest) fileHashes
          = collectFileHashes env rest fileHashes := by
        simp [collectFileHashes, hempty]
      rw [hfilter, hstep]
      exact ih fileHashes
    · have hfilter : ((v :: rest).map trimSpace).filter (fun t => decide (t ≠ ""))
          = trimSpace v :: (rest.map trimSpace).filter (fun t => decide (t ≠ "")) := by
        simp [hempty]
      rw [hfilter]
      cases hdec : env.decodeNoPrefix (trimSpace v) with
      | none =>
        constructor
        · intro _
          simp [collectFileHashes, hempty, hdec]
        · intro hall
          exact absurd hdec (hall _ (List.mem_cons_self _ _))
      | some fileHash =>
        have hstep : collectFileHashes env (v :: rest) fileHashes
            = collectFileHashes env rest (fileHashes ++ [fileHash]) := by
          simp [collectFileHashes, hempty, hdec]
        rw [hstep]
        obtain ⟨ih1, ih2⟩ := ih (fileHashes ++ [fileHash])
        constructor
        · rintro ⟨t, ht, hnone⟩
          rcases List.mem_cons.mp ht with rfl | ht
          · rw [hdec] at hnone
            cases hnone
          · exact ih1 ⟨t, ht, hnone⟩
        · intro hall
          obtain ⟨decoded, hok, hmap⟩ := ih2 (fun t ht => hall t (List.mem_cons_of_mem _ ht))
          refine ⟨fileHash :: decoded, ?_, ?_⟩
          · rw [hok]
            simp
          · simp [hmap, hdec]

/-- C22: with the tokens of the argument, the pieces between commas that are
not empty after trimming white space: the call fails when the argument is
empty; it fails with the decode error, with no request built, nothing put in
the query history and nothing published, when some token is not valid
un-prefixed hex; and when every token is valid, the request it builds holds
exactly the decodings of the tokens, in order, and this request is what any
entry of the query history holds. -/
theorem query_tokenization (env : SendDataQueryEnv) (args : SendDataQueryRequestArgs) :
    (args.FileHashes = "" →
      SendDataQueryRequest env args = ⟨some .noFiles, none, [], [], ""⟩)
    ∧ (args.FileHashes ≠ "" →
        (∃ t ∈ ((goSplit args.FileHashes ",").map trimSpace).filter
            (fun t => decide (t ≠ "")), env.decodeNoPrefix t = none) →
        SendDataQueryRequest env args = ⟨some .decodeFileHash, none, [], [], ""⟩)
    ∧ (args.FileHashes ≠ "" →
        (∀ t ∈ ((goSplit args.FileHashes ",").map trimSpace).filter
            (fun t => decide (t ≠ "")), env.decodeNoPrefix t ≠ none) →
        ∃ request,
          (SendDataQueryRequest env args).request = some request
          ∧ request.FileHashes.map some
            = (((goSplit args.FileHashes ",").map trimSpace).filter
                (fun t => decide (t ≠ ""))).map env.decodeNoPrefix
          ∧ (SendDataQueryRequest env args).error ≠ some .decodeFileHash
          ∧ (SendDataQueryRequest env args).error ≠ some .noFiles
          ∧ (∀ kv ∈ (SendDataQueryRequest env args).queryHistory, kv.2 = request)
          ∧ ((SendDataQueryRequest env args).error = none →
              (SendDataQueryRequest env args).queryHistory
                = [(env.encode request.Hash, request)]
              ∧ (SendDataQueryRequest env args).published.map some
                = [env.marshalQuery request]
              ∧ (SendDataQueryRequest env args).Hash = env.encode request.Hash)) := by
  obtain ⟨hbad, hgood⟩ := collectFileHashes_spec env (goSplit args.FileHashes ",") []
  refine ⟨?_, ?_, ?_⟩
  · intro h0
    simp [SendDataQueryRequest, h0]
  · intro hne hex
    simp [SendDataQueryRequest, hne, hbad hex]
  · intro hne hall
    obtain ⟨decoded, hok, hmap⟩ := hgood hall
    rw [List.nil_append] at hok
    unfold SendDataQueryRequest
    rw [if_neg hne, hok]
    dsimp only
    refine ⟨⟨decoded, env.hostID, env.now, env.getHash ⟨decoded, env.hostID, env.now, []⟩⟩,
      ?_, hmap, ?_, ?_, ?_, ?_⟩
    · split
      · rfl
      · split
        · rfl
        · split
          · rfl
          · split <;> rfl
    · split
      · simp
      · split
        · simp
        · split
          · simp
          · split <;> simp
    · split
      · simp
      · split
        · simp
        · split
          · simp
          · split <;> simp
    · split
      · simp
      · split
        · simp
        · split
          · simp
          · split <;> simp
    · split
      · simp
      · split
        · simp
        · split
          · simp
          · rename_i payloadBytes hmarshal
            split
            · simp
            · simp [hmarshal]

/-- C22, at the argument ` aa, bb ,,cc` and at `aa,zz,cc`: the first gives a
request with the hashes `aa`, `bb`, `cc`, stored and published once; the
second fails with the decode error at `zz`. -/
theorem query_tokenization_witness :
    ((goSplit " aa, bb ,,cc" ",").map trimSpace).filter (fun t => decide (t ≠ ""))
      = ["aa", "bb", "cc"]
    ∧ (∃ request,
        (SendDataQueryRequest sampleQueryEnv ⟨" aa, bb ,,cc"⟩).request = some request
        ∧ request.FileHashes.map some
          = (((goSplit " aa, bb ,,cc" ",").map trimSpace).filter
              (fun t => decide (t ≠ ""))).map sampleQueryEnv.decodeNoPrefix
        ∧ (SendDataQueryRequest sampleQueryEnv ⟨" aa, bb ,,cc"⟩).error
            ≠ some .decodeFileHash
        ∧ (SendDataQueryRequest sampleQueryEnv ⟨" aa, bb ,,cc"⟩).error ≠ some .noFiles
        ∧ (∀ kv ∈ (SendDataQueryRequest sampleQueryEnv ⟨" aa, bb ,,cc"⟩).queryHistory,
            kv.2 = request)
        ∧ ((SendDataQueryRequest sampleQueryEnv ⟨" aa, bb ,,cc"⟩).error = none →
            (SendDataQueryRequest sampleQueryEnv ⟨" aa, bb ,,cc"⟩).queryHistory
              = [(sampleQueryEnv.encode request.Hash, request)]
            ∧ (SendDataQueryRequest sampleQueryEnv ⟨" aa, bb ,,cc"⟩).published.map some
              = [sampleQueryEnv.marshalQuery request]
            ∧ (SendDataQueryRequest sampleQueryEnv ⟨" aa, bb ,,cc"⟩).Hash
              = sampleQueryEnv.encode request.Hash))
    ∧ SendDataQueryRequest sampleQueryEnv ⟨"aa,zz,cc"⟩
        = ⟨some .decodeFileHash, none, [], [], ""⟩
    ∧ SendDataQueryRequest sampleQueryEnv ⟨" aa, bb ,,cc"⟩
        = ⟨none, some ⟨[hashAA, hashBB, hashCC], "host", 1700000000, [3]⟩,
            [("0x3", ⟨[hashAA, hashBB, hashCC], "host", 1700000000, [3]⟩)],
            [[0xaa, 0xbb, 0xcc]], "0x3"⟩ :=
  ⟨by rfl,
   (query_tokenization sampleQueryEnv ⟨" aa, bb ,,cc"⟩).2.2 (by decide) (by decide),
   (query_tokenization sampleQueryEnv ⟨"aa,zz,cc"⟩).2.1 (by decide)
     ⟨"zz", by decide, by rfl⟩,
   by rfl⟩

/-! ## The names of the part files -/

/-- Characters other than the first of the separator pass into the current
piece. -/
theorem splitChars_pass (s0 : Char) (st pre rest cur : List Char)
    (hpre : ∀ c ∈ pre, c ≠ s0) :
    splitChars (s0 :: st) (pre ++ rest) 0 cur
      = splitChars (s0 :: st) rest 0 (pre.reverse ++ cur) := by
  induction pre generalizing cur with
  | nil => rfl
  | cons c pre ih =>
    have hc : c ≠ s0 := hpre c (List.mem_cons_self _ _)
    have hstart : (s0 :: st).isPrefixOf (c :: (pre ++ rest)) = false := by
      simp [List.isPrefixOf, Ne.symm hc]
    rw [List.cons_append, splitChars, if_neg (by simp [hstart]),
      ih _ (fun d hd => hpre d (List.mem_cons_of_mem _ hd))]
    simp

/-- A list starts every list that continues it. -/
theorem isPrefixOf_append_self (l rest : List Char) : l.isPrefixOf (l ++ rest) = true := by
  induction l with
  | nil => simp [List.isPrefixOf]
  | cons c l ih => simp [List.isPrefixOf, ih]

/-- The characters of a separator that was found are passed over. -/
theorem splitChars_skip (sep l rest cur : List Char) :
    splitChars sep (l ++ rest) l.length cur = splitChars sep rest 0 cur := by
  induction l with
  | nil => rfl
  | cons c l ih =>
    rw [List.cons_append, List.length_cons, splitChars]
    exact ih

/-- At an occurrence of the separator the current piece ends and a new one
starts after it. -/
theorem splitChars_sep (s0 : Char) (st rest cur : List Char) :
    splitChars (s0 :: st) ((s0 :: st) ++ rest) 0 cur
      = cur.reverse :: splitChars (s0 :: st) rest 0 [] := by
  have hstart : (s0 :: st).isPrefixOf (s0 :: (st ++ rest)) = true :=
    isPrefixOf_append_self (s0 :: st) rest
  rw [List.cons_append, splitChars, if_pos hstart]
  simp only [List.length_cons, Nat.add_sub_cancel]
  rw [splitChars_skip]

/-- The decimal digits and their values. -/
theorem digitChar_isDigit (m : Nat) (hm : m < 10) :
    (Nat.digitChar m).isDigit = true ∧ (Nat.digitChar m).toNat - '0'.toNat = m := by
  interval_cases m <;> exact ⟨by decide, by decide⟩

theorem toDigitsCore_append (fuel n : Nat) (acc : List Char) :
    Nat.toDigitsCore 10 fuel n acc = Nat.toDigitsCore 10 fuel n [] ++ acc := by
  induction fuel generalizing n acc with
  | zero => rfl
  | succ fuel ih =>
    simp only [Nat.toDigitsCore]
    split
    · rfl
    · rw [ih (n / 10) (Nat.digitChar (n % 10) :: acc), ih (n / 10) [Nat.digitChar (n % 10)]]
      simp

/-- The digits `%d` writes for a natural number: at least one, decimal
digits only, reading back as the number. -/
theorem toDigitsCore_spec (fuel n : Nat) (hfuel : n < fuel) :
    Nat.toDigitsCore 10 fuel n [] ≠ []
    ∧ (∀ c ∈ Nat.toDigitsCore 10 fuel n [], c.isDigit = true)
    ∧ (Nat.toDigitsCore 10 fuel n []).foldl (fun acc c => acc * 10 + (c.toNat - '0'.toNat)) 0
        = n := by
  induction fuel generalizing n with
  | zero => omega
  | succ fuel ih =>
    obtain ⟨hd1, hd2⟩ := digitChar_isDigit (n % 10) (Nat.mod_lt _ (by decide))
    simp only [Nat.toDigitsCore]
    split
    · rename_i h0
      refine ⟨by simp, ?_, ?_⟩
      · intro c hc
        simp only [List.mem_singleton] at hc
        rw [hc]
        exact hd1
      · simp only [List.foldl_cons, List.foldl_nil, Nat.zero_mul, Nat.zero_add]
        rw [hd2]
        omega
    · rename_i h0
      have hlt : n / 10 < fuel := by omega
      obtain ⟨_, ih2, ih3⟩ := ih (n / 10) hlt
      rw [toDigitsCore_append]
      refine ⟨by simp, ?_, ?_⟩
      · intro c hc
        rcases List.mem_append.mp hc with hc | hc
        · exact ih2 c hc
        · simp only [List.mem_singleton] at hc
          rw [hc]
          exact hd1
      · rw [List.foldl_append, ih3]
        simp only [List.foldl_cons, List.foldl_nil]
        rw [hd2]
        omega

/-- The text of a number from 0 to the greatest `int64`: digits only, not
empty, and `ParseInt` reads the number back. -/
theorem formatInt_spec (n : Int) (h0 : 0 ≤ n) (hhi : n < 2 ^ 63) :
    (formatInt n).toList ≠ []
    ∧ (∀ c ∈ (formatInt n).toList, c.isDigit = true)
    ∧ ParseInt (formatInt n) = some n := by
  obtain ⟨h1, h2, h3⟩ := toDigitsCore_spec (n.natAbs + 1) n.natAbs (Nat.lt_succ_self _)
  have hfmt : (formatInt n).toList = Nat.toDigitsCore 10 (n.natAbs + 1) n.natAbs [] := by
    unfold formatInt
    rw [if_neg (by omega)]
    rfl
  refine ⟨by rw [hfmt]; exact h1, by rw [hfmt]; exact h2, ?_⟩
  unfold ParseInt
  rw [hfmt]
  cases hl : Nat.toDigitsCore 10 (n.natAbs + 1) n.natAbs [] with
  | nil => exact absurd hl h1
  | cons c rest =>
    rw [hl] at h2 h3
    have hc : c.isDigit = true := h2 c (List.mem_cons_self _ _)
    have hplus : (c == '+') = false := by
      rw [beq_eq_false_iff_ne]
      intro h
      rw [h] at hc
      exact absurd hc (by decide)
    have hminus : (c == '-') = false := by
      rw [beq_eq_false_iff_ne]
      intro h
      rw [h] at hc
      exact absurd hc (by decide)
    have hall : (c :: rest).all Char.isDigit = true := by
      rw [List.all_eq_true]
      exact h2
    have hun : parseUint64 (c :: rest) = some n.natAbs := by
      unfold parseUint64
      rw [if_neg (by simp), if_pos hall]
      dsimp only
      rw [h3, if_pos (by omega)]
    unfold parseInt64
    simp only [hplus, hminus, Bool.or_self, Bool.false_eq_true, if_false, hun, Bool.not_false,
      Bool.true_and, Bool.false_and, decide_eq_true_eq]
    rw [if_neg (by omega)]
    simp only [Option.some.injEq]
    omega

/-- A digit is neither the underscore nor the letter `p`. -/
theorem isDigit_ne (c : Char) (hc : c.isDigit = true) : c ≠ '_' ∧ c ≠ 'p' := by
  constructor <;>
  · intro h
    rw [h] at hc
    exact absurd hc (by decide)

/-- A hexadecimal digit is not the underscore. -/
theorem hexDigit_ne_underscore (c : Char) (hc : (hexDigitValue c).isSome) : c ≠ '_' := by
  intro h
  rw [h] at hc
  exact absurd hc (by decide)

/-- The two cuts of the name parsing on a name built from a text without
underscore and two digit texts. -/
theorem splitChars_partName (h a b : List Char) (hh : ∀ c ∈ h, c ≠ '_')
    (ha : ∀ c ∈ a, c.isDigit = true) (hb : ∀ c ∈ b, c.isDigit = true) (hbne : b ≠ []) :
    splitChars ['_', 'p', 'a', 'r', 't', '_']
        (h ++ (['_', 'p', 'a', 'r', 't', '_'] ++ (a ++ ('_' :: b)))) 0 []
      = [h, a ++ ('_' :: b)]
    ∧ splitChars ['_'] (a ++ ('_' :: b)) 0 [] = [a, b] := by
  have ha1 : ∀ c ∈ a, c ≠ '_' := fun c hc => (isDigit_ne c (ha c hc)).1
  have hb1 : ∀ c ∈ b, c ≠ '_' := fun c hc => (isDigit_ne c (hb c hc)).1
  constructor
  · rw [splitChars_pass '_' _ h _ [] hh, splitChars_sep, splitChars_pass '_' _ a _ [] ha1]
    cases b with
    | nil => exact absurd rfl hbne
    | cons b0 b1 =>
      have hb0 : b0 ≠ 'p' := (isDigit_ne b0 (hb b0 (List.mem_cons_self _ _))).2
      have hstart : ['_', 'p', 'a', 'r', 't', '_'].isPrefixOf ('_' :: b0 :: b1) = false := by
        simp [List.isPrefixOf, Ne.symm hb0]
      rw [splitChars, if_neg (by simp [hstart])]
      have := splitChars_pass '_' ['p', 'a', 'r', 't', '_'] (b0 :: b1) []
        ('_' :: (a.reverse ++ [])) hb1
      rw [List.append_nil] at this
      rw [this]
      simp [splitChars]
  · rw [splitChars_pass '_' _ a _ [] ha1]
    have hsep := splitChars_sep '_' [] b (a.reverse ++ [])
    rw [List.singleton_append] at hsep
    rw [hsep]
    have := splitChars_pass '_' [] b [] [] hb1
    rw [List.append_nil] at this
    rw [this]
    simp [splitChars]

/-- The name parsing on the name of a part and on the bare hash. -/
theorem parsePartName_partFileName (h : String) (from_ to_ : Int)
    (hhex : ∀ c ∈ h.toList, (hexDigitValue c).isSome)
    (h0 : 0 ≤ from_) (hle : from_ ≤ to_) (hhi : to_ < 2 ^ 63) :
    parsePartName (partFileName h from_ to_) = some (from_, to_)
    ∧ parsePartName h = none := by
  have hh : ∀ c ∈ h.toList, c ≠ '_' := fun c hc => hexDigit_ne_underscore c (hhex c hc)
  obtain ⟨_, ha, hpa⟩ := formatInt_spec from_ h0 (by omega)
  obtain ⟨hbne, hb, hpb⟩ := formatInt_spec to_ (by omega) hhi
  obtain ⟨hs1, hs2⟩ := splitChars_partName h.toList (formatInt from_).toList
    (formatInt to_).toList hh ha hb hbne
  constructor
  · have hname : (partFileName h from_ to_).toList
        = h.toList ++ (['_', 'p', 'a', 'r', 't', '_']
            ++ ((formatInt from_).toList ++ ('_' :: (formatInt to_).toList))) := by
      unfold partFileName
      simp only [String.toList, String.data_append]
      simp
    have hsplit1 : goSplit (partFileName h from_ to_) "_part_"
        = [h, String.mk ((formatInt from_).toList ++ ('_' :: (formatInt to_).toList))] := by
      unfold goSplit
      rw [hname]
      have : "_part_".toList = ['_', 'p', 'a', 'r', 't', '_'] := rfl
      rw [this, hs1]
      rfl
    have hsplit2 : goSplit
        (String.mk ((formatInt from_).toList ++ ('_' :: (formatInt to_).toList))) "_"
        = [formatInt from_, formatInt to_] := by
      unfold goSplit
      have : "_".toList = ['_'] := rfl
      rw [this]
      show List.map String.mk (splitChars ['_']
        ((formatInt from_).toList ++ ('_' :: (formatInt to_).toList)) 0 []) = _
      rw [hs2]
      rfl
    unfold parsePartName
    rw [hsplit1]
    simp only
    rw [hsplit2]
    simp only [hpa, hpb]
  · have hsplit : goSplit h "_part_" = [h] := by
      unfold goSplit
      have hsep : "_part_".toList = ['_', 'p', 'a', 'r', 't', '_'] := rfl
      have := splitChars_pass '_' ['p', 'a', 'r', 't', '_'] h.toList [] [] hh
      rw [List.append_nil] at this
      rw [hsep, this]
      simp [splitChars]
    unfold parsePartName
    rw [hsplit]

/-- C30: for a file hash `h` in hexadecimal digits and a range with `0 ≤
from ≤ to` in `int64`, the directory entry with the name the engine writes,
`h_part_<from>_<to>` in decimal, yields exactly one part with that `from` and
`to` and the size of the file; the entry named `h` alone yields no part; and
a name yields a part only when it splits at `_part_` into exactly two pieces
of which the second splits at `_` into exactly two texts that `ParseInt`
reads. -/
theorem part_name_round_trip (h : String) (from_ to_ size : Int)
    (hhex : ∀ c ∈ h.toList, (hexDigitValue c).isSome)
    (h0 : 0 ≤ from_) (hle : from_ ≤ to_) (hhi : to_ < 2 ^ 63) :
    getDownloadedPartsInfo (.ok [⟨partFileName h from_ to_, size⟩])
      = .ok [⟨from_, to_, size⟩]
    ∧ getDownloadedPartsInfo (.ok [⟨h, size⟩]) = .ok []
    ∧ (∀ (name : String) (bounds : Int × Int), parsePartName name = some bounds →
        ∃ pre second first last,
          goSplit name "_part_" = [pre, second]
          ∧ goSplit second "_" = [first, last]
          ∧ ParseInt first = some bounds.1 ∧ ParseInt last = some bounds.2) := by
  obtain ⟨hpart, hbare⟩ := parsePartName_partFileName h from_ to_ hhex h0 hle hhi
  refine ⟨?_, ?_, ?_⟩
  · simp [getDownloadedPartsInfo, hpart]
  · simp [getDownloadedPartsInfo, hbare]
  · intro name bounds hparse
    unfold parsePartName at hparse
    split at hparse
    · rename_i pre second hs1
      split at hparse
      · rename_i first last hs2
        split at hparse
        · cases hparse
        · rename_i f hf
          split at hparse
          · cases hparse
          · rename_i t ht
            cases hparse
            exact ⟨pre, second, first, last, hs1, hs2, hf, ht⟩
      · cases hparse
    · cases hparse

/-- C30, at the hash `aa` and the range from 5 to 9 of a part of 3 bytes:
the name is `aa_part_5_9`. -/
theorem part_name_round_trip_witness :
    partFileName "aa" 5 9 = "aa_part_5_9"
    ∧ getDownloadedPartsInfo (.ok [⟨partFileName "aa" 5 9, 3⟩]) = .ok [⟨5, 9, 3⟩]
    ∧ getDownloadedPartsInfo (.ok [⟨"aa", 3⟩]) = .ok [] :=
  ⟨by rfl,
   (part_name_round_trip "aa" 5 9 3 (by decide) (by decide) (by decide) (by decide)).1,
   (part_name_round_trip "aa" 5 9 3 (by decide) (by decide) (by decide) (by decide)).2.1⟩

/-! ## Part files of another file -/

/-- C26: the reconciliation evaluated for the download of the file `aa` (20
bytes) in a contract directory that holds only parts of the file `bb`, none
of whose names starts with `aa`: the four entries are taken for parts of the
download, their number equals the number of planned ranges, the planned
ranges get the sizes 5, 5, 5 and 2, and the only transfer request is for the
bytes 17 to 19; with an empty directory the plan is fresh. -/
theorem reconcile_counts_parts_of_other_file :
    sampleJob.fileHash = hashAA
    ∧ (∀ e ∈ samplePartsOfBB, e.Name.toList.take 2 ≠ "aa".toList)
    ∧ getDownloadedPartsInfo (.ok samplePartsOfBB)
        = .ok [⟨0, 4, 5⟩, ⟨5, 9, 5⟩, ⟨10, 14, 5⟩, ⟨15, 19, 2⟩]
    ∧ downloadPlan sampleJob (getDownloadedPartsInfo (.ok []))
        = [⟨0, 4, 0⟩, ⟨5, 9, 0⟩, ⟨10, 14, 0⟩, ⟨15, 19, 0⟩]
    ∧ downloadPlan sampleJob (getDownloadedPartsInfo (.ok samplePartsOfBB))
        = [⟨0, 4, 5⟩, ⟨5, 9, 5⟩, ⟨10, 14, 5⟩, ⟨15, 19, 2⟩]
    ∧ transferRequests [0xc1] hashAA 20
        (downloadPlan sampleJob (getDownloadedPartsInfo (.ok samplePartsOfBB)))
        = [⟨[0xc1], hashAA, 20, 17, 19⟩] := by
  refine ⟨by rfl, by decide, by rfl, by rfl, by rfl, by rfl⟩

end FileFileGo
